import Mathlib

/-!
Zoo arrival pipeline: record parsing, name assignment and report.

A shallow embedding of `src/main.cpp` and `src/Animal.h`.

* A `std::string` is a `String`; the regular-expression engine works on its
  characters (`List Char`), one `Char` standing for one `char` of the C++ string.
* A C++ `int` is an `Int` kept in range by `wrapInt` (32-bit two's complement).
* The `double` weight only ever comes from `stod` applied to a run of decimal
  digits, so it is always a non-negative whole number; it is represented by the
  `Nat` it denotes (`roundBinary64` is the rounding `stod` performs).
* The output file is the list of the lines written to it (each `<< endl` ends a line).
* The random engine is an oracle `rng : Nat → Nat`, the value behind the k-th draw.
* The four subclasses of the abstract class `Animal` are the tag `Kind`; no other
  object can sit in the animal vector.
* An exception that leaves `readAnimalsFromFile` is `Except.error`, with the state the
  by-reference arguments were in when it was thrown.
* Console output and the failure to open a file are left out: the functions are modelled on the
  lines of the files they read and write.
-/

namespace Zoo

/-! ## Machine integers and number formatting -/

/-- Largest value of a C++ `int`. -/
def INT_MAX : Int := 2147483647

/-- Result of a C++ `int` operation: the mathematical result reduced to 32-bit two's complement. -/
def wrapInt (x : Int) : Int := (x + 2147483648) % 4294967296 - 2147483648

/-- The text of `std::to_string(int)` and of `operator<<(int)`: decimal digits, `-` for negatives. -/
def to_string (x : Int) : String := toString x

/-- Removes the trailing zeros of a list of digits. -/
def stripTrailingZeros (ds : List Char) : List Char :=
  (ds.reverse.dropWhile (fun c => c == '0')).reverse

/-- The text of `operator<<(double)` with the stream's default settings (the `%g` conversion with
precision 6) for a double holding the non-negative whole number `v`.  Below one million the value is
written as its plain decimal digits; from one million on it is rounded (half to even) to six
significant digits and written in scientific notation, trailing zeros of the mantissa removed and the
exponent given with at least two digits. -/
def ostreamDouble (v : Nat) : String :=
  if v < 1000000 then toString v
  else
    let nd := (Nat.toDigits 10 v).length
    let scale := 10 ^ (nd - 6)
    let q := v / scale
    let r := v % scale
    let q1 := if 2 * r > scale ∨ (2 * r = scale ∧ q % 2 = 1) then q + 1 else q
    let m := if q1 = 1000000 then 100000 else q1
    let e := if q1 = 1000000 then nd else nd - 1
    let mant : List Char :=
      match Nat.toDigits 10 m with
      | [] => []
      | d :: ds =>
        match stripTrailingZeros ds with
        | [] => [d]
        | f :: fs => d :: '.' :: f :: fs
    String.mk mant ++ "e+" ++ (if e < 10 then "0" else "") ++ toString e

/-! ## Data model (`Animal.h`) -/

/-- The four concrete classes derived from the abstract class `Animal`. -/
inductive Kind where
  | Hyena
  | Lion
  | Bear
  | Tiger
deriving DecidableEq, Repr

/-- The species string each subclass constructor hands to the `Animal` constructor. -/
def Kind.species : Kind → String
  | .Hyena => "Hyena"
  | .Lion => "Lion"
  | .Bear => "Bear"
  | .Tiger => "Tiger"

/-- An object of one of the four subclasses of `Animal`; `kind` is its class, which fixes the
`species` member. -/
structure Animal where
  kind : Kind
  id : String
  name : String
  age : Int
  birthSeason : String
  color : String
  gender : String
  weight : Nat
  origin : String
deriving DecidableEq, Repr

/-- Getter `getSpecies`. -/
def Animal.getSpecies (a : Animal) : String := a.kind.species

/-- The static per-species counters of class `Animal`. -/
structure Counters where
  hyenaCounter : Int
  lionCounter : Int
  tigerCounter : Int
  bearCounter : Int
deriving DecidableEq, Repr

/-- Static initialisation: all four counters start at 0. -/
def Counters.init : Counters := ⟨0, 0, 0, 0⟩

/-- The function `Animal::generateUniqueId`: pre-increments the counter of the species and adds
the species offset; -1 for an unknown species. -/
def generateUniqueId (c : Counters) (species : String) : Int × Counters :=
  if species = "Hyena" then
    let n := wrapInt (c.hyenaCounter + 1)
    (wrapInt (1000 + n), { c with hyenaCounter := n })
  else if species = "Lion" then
    let n := wrapInt (c.lionCounter + 1)
    (wrapInt (2000 + n), { c with lionCounter := n })
  else if species = "Tiger" then
    let n := wrapInt (c.tigerCounter + 1)
    (wrapInt (3000 + n), { c with tigerCounter := n })
  else if species = "Bear" then
    let n := wrapInt (c.bearCounter + 1)
    (wrapInt (4000 + n), { c with bearCounter := n })
  else (-1, c)

/-- Constructor of the subclass `kind` (`Hyena(...)`, `Lion(...)`, ...): stores the arguments and
sets `id` from `generateUniqueId`. -/
def Animal.construct (c : Counters) (kind : Kind) (n : String) (a : Int) (bSeason : String)
    (col : String) (g : String) (w : Nat) (o : String) : Animal × Counters :=
  let r := generateUniqueId c kind.species
  ({ kind := kind, id := to_string r.1, name := n, age := a, birthSeason := bSeason,
     color := col, gender := g, weight := w, origin := o }, r.2)

/-! ## Report (`generateReportToFile`) -/

/-- The lambda `calculateBirthDate` of `generateReportToFile`. -/
def calculateBirthDate (currentYear : Int) (animal : Animal) : String :=
  let birthYear := wrapInt (currentYear - animal.age)
  let season := animal.birthSeason
  let monthDay :=
    if season = "spring" then "04-01"
    else if season = "summer" then "07-01"
    else if season = "fall" then "10-01"
    else if season = "winter" then "01-01"
    else "06-01"
  to_string birthYear ++ "-" ++ monthDay

/-- The line one loop iteration writes for `animal` under the identifier `id`. -/
def reportLine (id : String) (currentYear : Int) (animal : Animal) : String :=
  id ++ "; " ++ animal.name ++ "; age " ++ to_string animal.age ++ "; birth date "
    ++ calculateBirthDate currentYear animal ++ "; " ++ animal.color ++ " color; "
    ++ animal.gender ++ "; " ++ ostreamDouble animal.weight ++ " pounds; from " ++ animal.origin

/-- One of the four `for` loops of `generateReportToFile`: walks the whole collection, and for each
animal whose species is `species` writes its line under `pfx` followed by the counter, which is then
incremented.  Returns the final counter and the output so far. -/
def habitatLoop (species pfx : String) (currentYear : Int) :
    List Animal → Int → List String → Int × List String
  | [], counter, out => (counter, out)
  | animal :: rest, counter, out =>
    if animal.getSpecies = species then
      habitatLoop species pfx currentYear rest (wrapInt (counter + 1))
        (out ++ [reportLine (pfx ++ to_string counter) currentYear animal])
    else habitatLoop species pfx currentYear rest counter out

/-- The function `generateReportToFile` (the output file opened successfully): the lines written. -/
def generateReportToFile (currentYear : Int) (animals : List Animal) : List String :=
  let hyenaCounter : Int := 1
  let lionCounter : Int := 1
  let tigerCounter : Int := 1
  let bearCounter : Int := 1
  let out := ["Hyena Habitat:"]
  let out := (habitatLoop "Hyena" "Hy" currentYear animals hyenaCounter out).2
  let out := out ++ ["Lion Habitat:"]
  let out := (habitatLoop "Lion" "Li" currentYear animals lionCounter out).2
  let out := out ++ ["Tiger Habitat:"]
  let out := (habitatLoop "Tiger" "Ti" currentYear animals tigerCounter out).2
  let out := out ++ ["Bear Habitat:"]
  let out := (habitatLoop "Bear" "Be" currentYear animals bearCounter out).2
  out ++ ["-----------------------------"]

/-! ## Regular expressions (`std::regex`, ECMAScript grammar) -/

/-- Abstract syntax of the regular expressions used by the program.  A non-capturing group
`(?:...)` is plain nesting. -/
inductive Regex where
  /-- a run of ordinary characters, each matching itself -/
  | lit (s : List Char)
  /-- one character of a class: an escape such as `\d`, a bracket expression, or `.` -/
  | cls (p : Char → Bool)
  /-- concatenation -/
  | seq (a b : Regex)
  /-- alternation `a|b`, the left alternative tried first -/
  | alt (a b : Regex)
  /-- greedy `r+` -/
  | plus (r : Regex)
  /-- greedy `r*` -/
  | star (r : Regex)
  /-- capturing group number `i` -/
  | group (i : Nat) (r : Regex)

/-- A point of a match attempt: the input still to be read and the sub-matches recorded so far
(entry `i` is the text of group `i`, empty while the group has not matched). -/
structure MState where
  rest : List Char
  caps : List (List Char)
deriving DecidableEq, Repr

/-- Removes the prefix `s` from the input, if the input starts with it. -/
def stripPrefix? : List Char → List Char → Option (List Char)
  | [], rest => some rest
  | _ :: _, [] => none
  | c :: cs, d :: ds => if c = d then stripPrefix? cs ds else none

/-- Greedy repetition of the matcher `f`: every way of iterating it, more iterations first.  An
iteration that consumes nothing is rejected, as in ECMAScript.  `fuel` bounds the number of
iterations; the length of the remaining input is always enough (`starLoop_fuel`). -/
def starLoop (f : MState → List MState) : Nat → MState → List MState
  | 0, st => [st]
  | fuel + 1, st =>
    ((f st).filter (fun y => decide (y.rest.length < st.rest.length))).flatMap (starLoop f fuel)
      ++ [st]

/-- Backtracking matcher: all the ways `r` can match a prefix of the remaining input, in the
order in which the ECMAScript algorithm tries them (the first one that lets the rest of the
pattern succeed is the one chosen).  Capturing groups inside a repetition are not reset between
iterations; the program's pattern has none there. -/
def run : Regex → MState → List MState
  | .lit s, st =>
    match stripPrefix? s st.rest with
    | some rest => [{ st with rest := rest }]
    | none => []
  | .cls p, st =>
    match st.rest with
    | c :: cs => if p c then [{ st with rest := cs }] else []
    | [] => []
  | .seq a b, st => (run a st).flatMap (fun y => run b y)
  | .alt a b, st => run a st ++ run b st
  | .plus r, st => (run r st).flatMap (starLoop (fun y => run r y) st.rest.length)
  | .star r, st => starLoop (fun y => run r y) st.rest.length st
  | .group i r, st =>
    (run r st).map (fun y =>
      { y with caps := y.caps.set i (st.rest.take (st.rest.length - y.rest.length)) })

/-- The sub-match table before a match attempt: group 0 to 7, all empty. -/
def noCaps : List (List Char) := [[], [], [], [], [], [], [], []]

/-- The function `std::regex_search`: the match attempt is made at each start position from left
to right and the first position with a match wins. -/
def regex_search (rgx : Regex) : List Char → Option MState
  | [] => (run rgx ⟨[], noCaps⟩).head?
  | c :: cs =>
    match run rgx ⟨c :: cs, noCaps⟩ with
    | m :: _ => some m
    | [] => regex_search rgx cs

/-- Sub-match `matches[i]` as a string. -/
def MState.sub (m : MState) (i : Nat) : String := String.mk (m.caps.getD i [])

/-- The class `\d`. -/
def reDigit : Regex := .cls Char.isDigit

/-- The class `\w`: letters, digits and the underscore. -/
def reWord : Regex := .cls (fun c => c.isAlphanum || c == '_')

/-- The bracket expression `[A-Za-z]`. -/
def reAlpha : Regex := .cls Char.isAlpha

/-- The wildcard `.`: any character but a line terminator. -/
def reAny : Regex := .cls (fun c => c != '\n' && c != '\r')

/-- The group `(hyena|lion|bear|tiger)`. -/
def reSpecies : Regex :=
  .alt (.lit "hyena".data) (.alt (.lit "lion".data) (.alt (.lit "bear".data) (.lit "tiger".data)))

/-- The group `(spring|summer|fall|winter|unknown)`. -/
def reSeason : Regex :=
  .alt (.lit "spring".data) (.alt (.lit "summer".data) (.alt (.lit "fall".data)
    (.alt (.lit "winter".data) (.lit "unknown".data))))

/-- The group `([A-Za-z]+(?: [A-Za-z]+)*)`. -/
def reColor : Regex := .seq (.plus reAlpha) (.star (.seq (.lit " ".data) (.plus reAlpha)))

/-- The pattern `rgx` of `readAnimalsFromFile`:
`(\d+) year old (\w+) (hyena|lion|bear|tiger), born in (spring|summer|fall|winter|unknown), `
`([A-Za-z]+(?: [A-Za-z]+)*) color, (\d+) pounds, from (.+)`. -/
def rgx : Regex :=
  .seq (.group 1 (.plus reDigit)) <|
  .seq (.lit " year old ".data) <|
  .seq (.group 2 (.plus reWord)) <|
  .seq (.lit " ".data) <|
  .seq (.group 3 reSpecies) <|
  .seq (.lit ", born in ".data) <|
  .seq (.group 4 reSeason) <|
  .seq (.lit ", ".data) <|
  .seq (.group 5 reColor) <|
  .seq (.lit " color, ".data) <|
  .seq (.group 6 (.plus reDigit)) <|
  .seq (.lit " pounds, from ".data) <|
  .group 7 (.plus reAny)

/-! ## Numeric conversions (`std::stoi`, `std::stod`) -/

/-- The exceptions the conversions throw; `what` is the name of the throwing function. -/
inductive Exn where
  | invalid_argument (what : String)
  | out_of_range (what : String)
deriving DecidableEq, Repr

/-- Value of a decimal digit character. -/
def digitVal (c : Char) : Nat := c.toNat - 48

/-- Value of a run of decimal digits. -/
def decimalValue (ds : List Char) : Nat := ds.foldl (fun acc c => 10 * acc + digitVal c) 0

/-- The function `std::stoi` on text that starts with neither white space nor a sign (the only
shape a `\d+` sub-match has): converts the leading digits; no digit at all is
`std::invalid_argument`, a value beyond `INT_MAX` is `std::out_of_range`. -/
def stoi (s : List Char) : Except Exn Int :=
  let ds := s.takeWhile Char.isDigit
  if ds = [] then .error (.invalid_argument "stoi")
  else if INT_MAX < (decimalValue ds : Int) then .error (.out_of_range "stoi")
  else .ok (decimalValue ds : Int)

/-- The binary64 number nearest to the natural number `n` (ties to even), as a natural number,
the exponent range left unbounded. -/
def roundBinary64 (n : Nat) : Nat :=
  if n < 2 ^ 53 then n
  else
    let e := Nat.log2 n - 52
    let q := n / 2 ^ e
    let r := n % 2 ^ e
    let half := 2 ^ (e - 1)
    (if half < r ∨ (r = half ∧ q % 2 = 1) then q + 1 else q) * 2 ^ e

/-- The first whole number beyond every double: 2^1024, the value the largest double would round
up to. -/
def DBL_OVERFLOW : Nat := (2 ^ 256) ^ 4

/-- The function `std::stod` on text that starts with neither white space nor a sign and holds
digits only up to the first other character: the nearest double of the leading digits; no digit is
`std::invalid_argument`, a value that rounds beyond the largest double is `std::out_of_range`. -/
def stod (s : List Char) : Except Exn Nat :=
  let ds := s.takeWhile Char.isDigit
  if ds = [] then .error (.invalid_argument "stod")
  else if DBL_OVERFLOW ≤ roundBinary64 (decimalValue ds) then .error (.out_of_range "stod")
  else .ok (roundBinary64 (decimalValue ds))

/-! ## Reading the arrivals (`readAnimalsFromFile`) -/

deriving instance DecidableEq for Except

/-- The four name vectors handed to `readAnimalsFromFile` by reference. -/
structure NamePools where
  hyenaNames : List String
  lionNames : List String
  bearNames : List String
  tigerNames : List String
deriving DecidableEq, Repr

/-- What the pointer `speciesNames` points to. -/
inductive PoolRef where
  | hyenaNames
  | lionNames
  | bearNames
  | tigerNames
deriving DecidableEq, Repr

/-- Dereferences `speciesNames`. -/
def PoolRef.get (r : PoolRef) (p : NamePools) : List String :=
  match r with
  | .hyenaNames => p.hyenaNames
  | .lionNames => p.lionNames
  | .bearNames => p.bearNames
  | .tigerNames => p.tigerNames

/-- Writes through `speciesNames`. -/
def PoolRef.set (r : PoolRef) (p : NamePools) (v : List String) : NamePools :=
  match r with
  | .hyenaNames => { p with hyenaNames := v }
  | .lionNames => { p with lionNames := v }
  | .bearNames => { p with bearNames := v }
  | .tigerNames => { p with tigerNames := v }

/-- Everything `readAnimalsFromFile` reads and writes: the animal vector, the name vectors, the
static counters of `Animal`, and how many values the random engine has produced. -/
structure RunState where
  animals : List Animal
  pools : NamePools
  counters : Counters
  draws : Nat
deriving DecidableEq, Repr

/-- The assignment of `speciesNames` (lines 81 to 86). -/
def selectPool (species : String) : Option PoolRef :=
  if species = "hyena" then some .hyenaNames
  else if species = "lion" then some .lionNames
  else if species = "bear" then some .bearNames
  else if species = "tiger" then some .tigerNames
  else none

/-- The name choice (lines 80 to 95): when the species has a pool and it is not empty, an index
`idx` in `0 .. size-1` is drawn (`rng` gives the raw value behind the draw), the name at `idx` is
taken, slot `idx` is overwritten with the last element and the last element is popped.
Otherwise the name stays "Unnamed". -/
def drawName (rng : Nat → Nat) (st : RunState) (speciesNames : Option PoolRef) :
    String × RunState :=
  match speciesNames with
  | none => ("Unnamed", st)
  | some ref =>
    let v := ref.get st.pools
    if v.isEmpty then ("Unnamed", st)
    else
      let idx := rng st.draws % v.length
      let name := v.getD idx ""
      let v := v.set idx (v.getLastD "")
      let v := v.dropLast
      (name, { st with pools := ref.set st.pools v, draws := st.draws + 1 })

/-- The `push_back(make_unique<...>(...))` of lines 104 to 107. -/
def pushAnimal (st : RunState) (kind : Kind) (name : String) (age : Int) (birthSeason color
    gender : String) (weight : Nat) (origin : String) : RunState :=
  let r := Animal.construct st.counters kind name age birthSeason color gender weight origin
  { st with animals := st.animals ++ [r.1], counters := r.2 }

/-- The body of the `if (regex_search(...))` block (lines 77 to 107) for the match `m`.  An
exception thrown by `stoi` or `stod` leaves the function; it is returned together with the state
reached when it was thrown. -/
def processMatch (rng : Nat → Nat) (st : RunState) (m : MState) :
    Except (Exn × RunState) RunState :=
  let species := m.sub 3
  let d := drawName rng st (selectPool species)
  let name := d.1
  let st := d.2
  match stoi (m.caps.getD 1 []) with
  | .error e => .error (e, st)
  | .ok age =>
    let gender := m.sub 2
    let birthSeason := m.sub 4
    let color := m.sub 5
    match stod (m.caps.getD 6 []) with
    | .error e => .error (e, st)
    | .ok weight =>
      let origin := m.sub 7
      if species = "hyena" then
        .ok (pushAnimal st .Hyena name age birthSeason color gender weight origin)
      else if species = "lion" then
        .ok (pushAnimal st .Lion name age birthSeason color gender weight origin)
      else if species = "tiger" then
        .ok (pushAnimal st .Tiger name age birthSeason color gender weight origin)
      else if species = "bear" then
        .ok (pushAnimal st .Bear name age birthSeason color gender weight origin)
      else .ok st

/-- The body of the `while` loop for one line: a line without a match changes nothing. -/
def processLine (rng : Nat → Nat) (st : RunState) (line : String) :
    Except (Exn × RunState) RunState :=
  match regex_search rgx line.data with
  | none => .ok st
  | some m => processMatch rng st m

/-- The function `readAnimalsFromFile` (the input file opened successfully) on the lines of the
file: the loop body applied to each line in turn, the first exception ending the run. -/
def readAnimalsFromFile (rng : Nat → Nat) : RunState → List String →
    Except (Exn × RunState) RunState
  | st, [] => .ok st
  | st, line :: rest =>
    match processLine rng st line with
    | .ok st1 => readAnimalsFromFile rng st1 rest
    | .error e => .error e

/-- The state `main` starts `readAnimalsFromFile` in: no animal yet, counters at 0. -/
def RunState.start (pools : NamePools) : RunState := ⟨[], pools, Counters.init, 0⟩

/-! ## Reading the names (`readNamesFromFile`) -/

/-- The member `std::string::find`: the position of the first occurrence of `needle` in the
text, `none` standing for `npos`. -/
def find : List Char → List Char → Option Nat
  | [], needle => if needle.isPrefixOf [] then some 0 else none
  | c :: cs, needle =>
    if needle.isPrefixOf (c :: cs) then some 0 else (find cs needle).map (fun p => p + 1)

/-- The member `std::string::find_last_not_of`: the position of the last character of the text
that is not one of `chars`, `none` standing for `npos`. -/
def find_last_not_of (s chars : List Char) : Option Nat :=
  match (s.reverse.dropWhile (fun c => chars.contains c)).length with
  | 0 => none
  | n + 1 => some n

/-- The statement `line = line.substr(0, line.find_last_not_of(" \n\r\t") + 1)`: the text up to
and including the last character that is not a blank; `npos + 1` wraps to 0, so a line of blanks
only becomes the empty string. -/
def trimLine (line : String) : String :=
  let count :=
    match find_last_not_of line.data " \n\r\t".data with
    | some p => p + 1
    | none => 0
  String.mk (line.data.take count)

/-- The local variable `currentSpecies` and the four name vectors of `readNamesFromFile`. -/
structure NamesState where
  currentSpecies : String
  pools : NamePools
deriving DecidableEq, Repr

/-- The body of the `while` loop of `readNamesFromFile` for one line. -/
def namesLine (st : NamesState) (line : String) : NamesState :=
  if line.data.isEmpty || (find line.data "Names:".data).isSome then
    if (find line.data "Hyena Names".data).isSome then { st with currentSpecies := "Hyena" }
    else if (find line.data "Lion Names".data).isSome then { st with currentSpecies := "Lion" }
    else if (find line.data "Bear Names".data).isSome then { st with currentSpecies := "Bear" }
    else if (find line.data "Tiger Names".data).isSome then { st with currentSpecies := "Tiger" }
    else st
  else
    let line := trimLine line
    if st.currentSpecies = "Hyena" then
      { st with pools := { st.pools with hyenaNames := st.pools.hyenaNames ++ [line] } }
    else if st.currentSpecies = "Lion" then
      { st with pools := { st.pools with lionNames := st.pools.lionNames ++ [line] } }
    else if st.currentSpecies = "Bear" then
      { st with pools := { st.pools with bearNames := st.pools.bearNames ++ [line] } }
    else if st.currentSpecies = "Tiger" then
      { st with pools := { st.pools with tigerNames := st.pools.tigerNames ++ [line] } }
    else st

/-- The `while` loop of `readNamesFromFile` over the lines of the file. -/
def readNamesLoop : NamesState → List String → NamesState
  | st, [] => st
  | st, line :: rest => readNamesLoop (namesLine st line) rest

/-- The function `readNamesFromFile` (the file opened successfully): `currentSpecies` starts
empty and the names are appended to the vectors handed in. -/
def readNamesFromFile (pools : NamePools) (lines : List String) : NamePools :=
  (readNamesLoop ⟨"", pools⟩ lines).pools

/-! ## Construction-time birth date (`Animal::genBirthDay`) -/

/-- The function `Animal::getSeasonMonth`. -/
def getSeasonMonth (season : String) : Int :=
  if season = "spring" then 3
  else if season = "summer" then 6
  else if season = "fall" then 9
  else if season = "winter" then 12
  else 1

/-- The function `Animal::getRandomDayInSeason`; `r` is the value `dist(rng)` yields (the
distribution is over 1 to 31), `%` is the truncating remainder of C++. -/
def getRandomDayInSeason (season : String) (r : Int) : Int :=
  if season = "spring" then Int.tmod r 30 + 1
  else if season = "summer" then Int.tmod r 31 + 1
  else if season = "fall" then Int.tmod r 30 + 1
  else if season = "winter" then Int.tmod r 31 + 1
  else 1

/-- The function `Animal::genBirthDay`; `tm_year` and `tm_mon` are the fields of the current local
time (years since 1900, months since January), `r` the value of the day distribution. -/
def genBirthDay (tm_year tm_mon : Int) (r : Int) (animal : Animal) : String :=
  let year := wrapInt (1900 + tm_year)
  let year :=
    if tm_mon < getSeasonMonth animal.birthSeason then wrapInt (year - wrapInt (animal.age + 1))
    else wrapInt (year - animal.age)
  let day := getRandomDayInSeason animal.birthSeason r
  to_string year ++ "-" ++ to_string (getSeasonMonth animal.birthSeason) ++ "-" ++ to_string day

/-! ## Vocabulary of the statements -/

/-- The records of class `k`, in the order of the collection. -/
def ofKind (k : Kind) (animals : List Animal) : List Animal :=
  animals.filter (fun a => decide (a.kind = k))

/-- The identifiers `<pfx>1, <pfx>2, ..., <pfx>n`. -/
def seqIds (pfx : String) (n : Nat) : List String :=
  (List.range n).map (fun i => pfx ++ toString (i + 1))

/-- The values a loop counter started at `c` takes over `n` increments. -/
def counterValues : Int → Nat → List Int
  | _, 0 => []
  | c, n + 1 => c :: counterValues (wrapInt (c + 1)) n

/-- The line of dashes that ends the report. -/
def dashes : String := "-----------------------------"

/-- The report prefix of each class. -/
def Kind.pfx : Kind → String
  | .Hyena => "Hy"
  | .Lion => "Li"
  | .Bear => "Be"
  | .Tiger => "Ti"

/-- The record lines of one habitat section when the identifiers are `<pfx>1 .. <pfx>N`. -/
def habitatLines (k : Kind) (currentYear : Int) (animals : List Animal) : List String :=
  List.zipWith (fun id a => reportLine id currentYear a)
    (seqIds k.pfx (ofKind k animals).length) (ofKind k animals)

/-- The fixed month and day of the report-time birth date of a season. -/
def seasonAnchor (season : String) : String :=
  if season = "spring" then "04-01"
  else if season = "summer" then "07-01"
  else if season = "fall" then "10-01"
  else if season = "winter" then "01-01"
  else "06-01"

/-- The words a regular expression matches as a whole, captures left aside. -/
def Lang : Regex → List Char → Prop
  | .lit s, w => w = s
  | .cls p, w => ∃ c, w = [c] ∧ p c = true
  | .seq a b, w => ∃ u v, w = u ++ v ∧ Lang a u ∧ Lang b v
  | .alt a b, w => Lang a w ∨ Lang b w
  | .plus r, w => ∃ ws : List (List Char), ws ≠ [] ∧ w = ws.flatten ∧ ∀ u ∈ ws, Lang r u
  | .star r, w => ∃ ws : List (List Char), w = ws.flatten ∧ ∀ u ∈ ws, Lang r u
  | .group _ r, w => Lang r w

/-- The regular expression contains no capturing group. -/
def noGroup : Regex → Prop
  | .lit _ => True
  | .cls _ => True
  | .seq a b => noGroup a ∧ noGroup b
  | .alt a b => noGroup a ∧ noGroup b
  | .plus r => noGroup r
  | .star r => noGroup r
  | .group _ _ => False

/-- The name vector of each class. -/
def Kind.pool : Kind → PoolRef
  | .Hyena => .hyenaNames
  | .Lion => .lionNames
  | .Bear => .bearNames
  | .Tiger => .tigerNames

/-- The species word of the pattern for each class. -/
def Kind.token : Kind → String
  | .Hyena => "hyena"
  | .Lion => "lion"
  | .Bear => "bear"
  | .Tiger => "tiger"

/-- The class a species word stands for. -/
def kindOfToken (s : String) : Option Kind :=
  if s = "hyena" then some .Hyena
  else if s = "lion" then some .Lion
  else if s = "bear" then some .Bear
  else if s = "tiger" then some .Tiger
  else none

/-- The class of the record a line describes, when the line matches the pattern. -/
def lineKind (line : String) : Option Kind :=
  match regex_search rgx line.data with
  | none => none
  | some m => kindOfToken (m.sub 3)

/-- The names of the records of class `k`, in the order of the collection. -/
def namesOf (k : Kind) (animals : List Animal) : List String :=
  (ofKind k animals).map (fun a => a.name)

/-- The state `readAnimalsFromFile` leaves behind, whether it returned or threw. -/
def finalState : Except (Exn × RunState) RunState → RunState
  | .ok st => st
  | .error e => e.2

/-- The numeric fields of the line can be converted: either the line does not match the pattern,
or its age digits denote at most `INT_MAX` and its weight digits round to a finite double. -/
def numericOk (line : String) : Bool :=
  match regex_search rgx line.data with
  | none => true
  | some m =>
    decide (decimalValue (m.caps.getD 1 []) ≤ 2147483647)
      && decide (roundBinary64 (decimalValue (m.caps.getD 6 [])) < DBL_OVERFLOW)

/-- Naming invariant of a run started with the name vectors `P`: for each class the names of
its records are names `drawn` from the vector followed by `u` sentinels, the names drawn and the
names still in the vector make up the original vector, and a sentinel is only given once the
vector is empty. -/
def NamesInv (P : Kind → List String) (st : RunState) : Prop :=
  ∀ k : Kind, ∃ (drawn : List String) (u : Nat),
    namesOf k st.animals = drawn ++ List.replicate u "Unnamed" ∧
    (drawn ++ k.pool.get st.pools).Perm (P k) ∧ (0 < u → k.pool.get st.pools = [])

/-- The names of the records of class `k` in the collection a run from `main`'s start state
leaves behind. -/
def runNames (rng : Nat → Nat) (pools : NamePools) (lines : List String) (k : Kind) :
    List String :=
  namesOf k (finalState (readAnimalsFromFile rng (RunState.start pools) lines)).animals

/-- The number of lines that match the pattern with the species of class `k`. -/
def linesOfKind (k : Kind) (lines : List String) : Nat :=
  (lines.filter (fun l => decide (lineKind l = some k))).length

/-- A line of the arrivals file assembled from the seven fields of the pattern. -/
def arrivalLine (age gender species season color weight origin : String) : String :=
  age ++ " year old " ++ gender ++ " " ++ species ++ ", born in " ++ season ++ ", " ++ color
    ++ " color, " ++ weight ++ " pounds, from " ++ origin

/-- The species words of the pattern. -/
def speciesTokens : List (List Char) := ["hyena".data, "lion".data, "bear".data, "tiger".data]

/-- The season words of the pattern. -/
def seasonTokens : List (List Char) :=
  ["spring".data, "summer".data, "fall".data, "winter".data, "unknown".data]

/-- A phrase: the word `w` followed by each word of `ws` after one space. -/
def phrase (w : List Char) (ws : List (List Char)) : List Char :=
  w ++ (ws.map (fun u => ' ' :: u)).flatten

/-- A colour phrase: the word `w` followed by each word of `ws` after one space. -/
def colorPhrase (w : String) (ws : List String) : String :=
  String.mk (phrase w.data (ws.map String.data))

/-- The shape every match of the pattern `rgx` has: the text of the seven groups with the
fixed words between them. -/
def recordText (A G SP SE C W O : List Char) : List Char :=
  A ++ " year old ".data ++ G ++ " ".data ++ SP ++ ", born in ".data ++ SE ++ ", ".data ++ C
    ++ " color, ".data ++ W ++ " pounds, from ".data ++ O

/-! ### Vocabulary for the names file -/

/-- The line contains the text "Names:". -/
def hasNamesColon (line : String) : Bool := (find line.data "Names:".data).isSome

/-- The species a header line names: the line contains "Names:" and the species is the first of
Hyena, Lion, Bear, Tiger whose "<Species> Names" occurs in it; `none` for any other line. -/
def headerKind (line : String) : Option Kind :=
  if hasNamesColon line then
    if (find line.data "Hyena Names".data).isSome then some .Hyena
    else if (find line.data "Lion Names".data).isSome then some .Lion
    else if (find line.data "Bear Names".data).isSome then some .Bear
    else if (find line.data "Tiger Names".data).isSome then some .Tiger
    else none
  else none

/-- A name line: a line that is not empty and does not contain "Names:". -/
def isNameLine (line : String) : Bool := !line.data.isEmpty && !hasNamesColon line

/-- The text without its trailing spaces, tabs, carriage returns and newlines. -/
def withoutTrailingBlanks (line : String) : String :=
  String.mk (line.data.reverse.dropWhile (fun c => [' ', '\t', '\r', '\n'].contains c)).reverse

/-- Section assignment in which only a recognised header opens a section: the species named by
the last recognised header among the lines `pre`. -/
def ownerOf (pre : List String) : Option Kind := pre.reverse.findSome? headerKind

/-- Section assignment in the words of the specification: every line containing "Names:" is a
header and ends the section before it; the species is the one the last header names, if any. -/
def sectionOf (pre : List String) : Option Kind :=
  match pre.reverse.find? hasNamesColon with
  | none => none
  | some h => headerKind h

/-- The names of the sections of class `k` under the section assignment `sec`: the name lines
whose section is `k`, in input order, each without its trailing blanks. -/
def sectionNames (sec : List String → Option Kind) (k : Kind) (lines : List String) :
    List String :=
  (lines.inits.zip lines).filterMap (fun p =>
    if isNameLine p.2 = true ∧ sec p.1 = some k then some (withoutTrailingBlanks p.2) else none)

/-- The value of `currentSpecies` for a section assignment. -/
def speciesTag : Option Kind → String
  | none => ""
  | some k => k.species

/-! ### Vocabulary for the construction-time birth date and identifiers -/

/-- The birth year in the words of the specification: the current calendar month (January = 1,
..., December = 12) is compared with the canonical month of the season. -/
def claimedBirthYear (currentYear calendarMonth age : Int) (season : String) : Int :=
  if calendarMonth < getSeasonMonth season then currentYear - (age + 1) else currentYear - age

/-- The values the day distribution can yield: 1, 2, ..., 31. -/
def dayDraws : List Int := (List.range 31).map (fun i => (i : Int) + 1)

/-- The number of values of the day distribution for which the day of the season is `d`. -/
def dayCount (season : String) (d : Int) : Nat :=
  (dayDraws.filter (fun r => decide (getRandomDayInSeason season r = d))).length

/-- The animals built by constructing one object of each listed class in turn, the static
counters being threaded through the constructions (the other constructor arguments are left
blank: they play no part in the identifier). -/
def constructAll (c : Counters) : List Kind → List Animal
  | [] => []
  | k :: ks =>
    (Animal.construct c k "" 0 "" "" "" 0 "").1
      :: constructAll (Animal.construct c k "" 0 "" "" "" 0 "").2 ks

/-- The data model of a record: one of the four species, one of the five birth seasons, an age
that is a non-negative `int`, a weight that is a non-negative finite number. -/
def satisfiesDataModel (a : Animal) : Prop :=
  a.getSpecies ∈ ["Hyena", "Lion", "Tiger", "Bear"]
    ∧ a.birthSeason ∈ ["spring", "summer", "fall", "winter", "unknown"]
    ∧ 0 ≤ a.age ∧ a.age ≤ 2147483647
    ∧ 0 ≤ a.weight ∧ a.weight < DBL_OVERFLOW

/-! ### Vocabulary for the weight: its text in the report and its place in a line -/

/-- Scientific notation as the stream writes it, for the six-digit mantissa `m` and the decimal
exponent `e`: the first digit of `m`, then a point and the other five digits without their
trailing zeros (no point when they are all zero), then "e+" and the exponent in at least two
digits. -/
def scientific (m e : Nat) : String :=
  let ds := (toString m).data
  let frac := stripTrailingZeros ds.tail
  String.mk (ds.take 1 ++ (if frac.isEmpty then [] else '.' :: frac)) ++ "e+"
    ++ (if e < 10 then "0" else "") ++ toString e

end Zoo

namespace Zoo

/-! ## Lemmas on numbers and their text -/

theorem wrapInt_of_range {x : Int} (h1 : -2147483648 ≤ x) (h2 : x < 2147483648) : wrapInt x = x := by
  unfold wrapInt
  rw [Int.emod_eq_of_lt (by omega) (by omega)]
  omega

theorem decimalValue_foldl (ds : List Char) (acc : Nat) :
    ds.foldl (fun a c => 10 * a + digitVal c) acc = acc * 10 ^ ds.length + decimalValue ds := by
  induction ds generalizing acc with
  | nil => simp [decimalValue]
  | cons d ds ih =>
    unfold decimalValue
    simp only [List.foldl_cons, List.length_cons]
    rw [ih, ih (10 * 0 + digitVal d)]
    ring

theorem decimalValue_cons (d : Char) (ds : List Char) :
    decimalValue (d :: ds) = digitVal d * 10 ^ ds.length + decimalValue ds := by
  show (d :: ds).foldl (fun a c => 10 * a + digitVal c) 0 = _
  rw [List.foldl_cons, decimalValue_foldl]
  simp

theorem digitVal_digitChar {k : Nat} (h : k < 10) : digitVal (Nat.digitChar k) = k := by
  interval_cases k <;> rfl

theorem decimalValue_toDigitsCore (fuel : Nat) : ∀ (n : Nat) (ds : List Char), n < fuel →
    decimalValue (Nat.toDigitsCore 10 fuel n ds) = n * 10 ^ ds.length + decimalValue ds := by
  induction fuel with
  | zero => intro n ds h; omega
  | succ fuel ih =>
    intro n ds h
    unfold Nat.toDigitsCore
    simp only
    split
    · rename_i h0
      rw [decimalValue_cons, digitVal_digitChar (Nat.mod_lt _ (by norm_num))]
      have : n % 10 = n := by omega
      rw [this]
    · rename_i h0
      rw [ih (n / 10) _ (by omega), decimalValue_cons,
        digitVal_digitChar (Nat.mod_lt _ (by norm_num))]
      simp only [List.length_cons, pow_succ]
      have h10 := Nat.div_add_mod n 10
      generalize 10 ^ ds.length = P
      generalize n / 10 = q at h10 ⊢
      generalize n % 10 = r at h10 ⊢
      subst h10
      ring

/-- Reading back the decimal text of a natural number gives the number. -/
theorem decimalValue_toString (n : Nat) : decimalValue (toString n).data = n := by
  show decimalValue (Nat.toDigits 10 n) = n
  unfold Nat.toDigits
  rw [decimalValue_toDigitsCore _ _ _ (Nat.lt_succ_self n)]
  simp [decimalValue]

theorem toString_nat_injective : Function.Injective (fun n : Nat => (toString n : String)) := by
  intro a b h
  have := congrArg (fun s : String => decimalValue s.data) h
  simpa [decimalValue_toString] using this

theorem seqIds_nodup (pfx : String) (n : Nat) : (seqIds pfx n).Nodup := by
  unfold seqIds
  refine List.Nodup.map ?_ (List.nodup_range n)
  intro a b h
  have h1 : (toString (a + 1) : String) = toString (b + 1) := by
    apply String.ext
    have := congrArg String.data h
    simpa [String.data_append] using this
  have := toString_nat_injective h1
  omega

/-! ## Lemmas on the report loops -/

theorem species_eq_iff (k1 k2 : Kind) : k1.species = k2.species ↔ k1 = k2 := by
  cases k1 <;> cases k2 <;> decide

theorem getSpecies_eq_iff (a : Animal) (k : Kind) : a.getSpecies = k.species ↔ a.kind = k :=
  species_eq_iff a.kind k

theorem length_counterValues : ∀ (n : Nat) (c : Int), (counterValues c n).length = n
  | 0, _ => rfl
  | n + 1, c => by simp [counterValues, length_counterValues n]

theorem counterValues_eq : ∀ (n c : Nat), 1 ≤ c → c + n ≤ 2147483648 →
    counterValues (Int.ofNat c) n = List.map Int.ofNat (List.range' c n)
  | 0, _, _, _ => rfl
  | 1, _, _, _ => rfl
  | n + 2, c, h1, h2 => by
    have hw : wrapInt (Int.ofNat c + 1) = Int.ofNat (c + 1) := by
      rw [wrapInt_of_range (by simp only [Int.ofNat_eq_coe]; omega)
        (by simp only [Int.ofNat_eq_coe]; omega)]
      rfl
    rw [counterValues, List.range'_succ, List.map_cons, hw,
      counterValues_eq (n + 1) (c + 1) (by omega) (by omega)]

/-- What one report loop appends, whatever the counter does. -/
theorem habitatLoop_out (k : Kind) (pfx : String) (cy : Int) :
    ∀ (animals : List Animal) (c : Int) (out : List String),
      (habitatLoop k.species pfx cy animals c out).2 =
        out ++ List.zipWith (fun i a => reportLine (pfx ++ to_string i) cy a)
          (counterValues c (ofKind k animals).length) (ofKind k animals) := by
  intro animals
  induction animals with
  | nil => intro c out; simp [habitatLoop, ofKind, counterValues]
  | cons a rest ih =>
    intro c out
    unfold habitatLoop
    by_cases hk : a.kind = k
    · have hs : a.getSpecies = k.species := (getSpecies_eq_iff a k).2 hk
      have hf : ofKind k (a :: rest) = a :: ofKind k rest := by simp [ofKind, hk]
      rw [if_pos hs, ih, hf]
      simp [counterValues]
    · have hs : ¬ a.getSpecies = k.species := fun h => hk ((getSpecies_eq_iff a k).1 h)
      have hf : ofKind k (a :: rest) = ofKind k rest := by simp [ofKind, hk]
      rw [if_neg hs, ih, hf]

theorem length_ofKind_le (k : Kind) (animals : List Animal) :
    (ofKind k animals).length ≤ animals.length :=
  List.length_filter_le _ _

/-- With fewer than 2^31 records the counter of a loop started at 1 never wraps: the
identifiers are `<pfx>1 .. <pfx>N`. -/
theorem habitatLoop_seq (k : Kind) (cy : Int) (animals : List Animal) (out : List String)
    (h : animals.length < 2147483648) :
    (habitatLoop k.species k.pfx cy animals 1 out).2 = out ++ habitatLines k cy animals := by
  rw [habitatLoop_out]
  have hle := length_ofKind_le k animals
  have hc := counterValues_eq (ofKind k animals).length 1 (le_refl 1) (by omega)
  rw [show (1 : Int) = Int.ofNat 1 from rfl, hc]
  unfold habitatLines seqIds
  have hr : List.range' 1 (ofKind k animals).length
      = List.map (fun i => i + 1) (List.range (ofKind k animals).length) := by
    rw [List.range'_eq_map_range]
    simp [Nat.add_comm]
  rw [hr, List.map_map, List.zipWith_map_left, List.zipWith_map_left]
  rfl

theorem generateReportToFile_out (cy : Int) (animals : List Animal) :
    generateReportToFile cy animals =
      (habitatLoop Kind.Bear.species Kind.Bear.pfx cy animals 1
        ((habitatLoop Kind.Tiger.species Kind.Tiger.pfx cy animals 1
          ((habitatLoop Kind.Lion.species Kind.Lion.pfx cy animals 1
            ((habitatLoop Kind.Hyena.species Kind.Hyena.pfx cy animals 1
              ["Hyena Habitat:"]).2 ++ ["Lion Habitat:"])).2 ++ ["Tiger Habitat:"])).2
                ++ ["Bear Habitat:"])).2 ++ [dashes] := rfl

/-- The whole report of a collection of fewer than 2^31 records. -/
theorem generateReportToFile_seq (cy : Int) (animals : List Animal)
    (h : animals.length < 2147483648) :
    generateReportToFile cy animals =
      "Hyena Habitat:" :: habitatLines .Hyena cy animals
        ++ "Lion Habitat:" :: habitatLines .Lion cy animals
        ++ "Tiger Habitat:" :: habitatLines .Tiger cy animals
        ++ "Bear Habitat:" :: habitatLines .Bear cy animals
        ++ [dashes] := by
  rw [generateReportToFile_out, habitatLoop_seq _ _ _ _ h, habitatLoop_seq _ _ _ _ h,
    habitatLoop_seq _ _ _ _ h, habitatLoop_seq _ _ _ _ h]
  simp

theorem length_ofKind_sum (animals : List Animal) :
    (ofKind .Hyena animals).length + (ofKind .Lion animals).length
      + (ofKind .Tiger animals).length + (ofKind .Bear animals).length = animals.length := by
  induction animals with
  | nil => rfl
  | cons a rest ih =>
    rcases a with ⟨kind, _, _, _, _, _, _, _, _⟩
    cases kind <;> simp [ofKind] at ih ⊢ <;> omega

end Zoo

namespace Zoo

/-! ## Lemmas on the matcher -/

theorem stripPrefix?_eq_some : ∀ (s t r : List Char), stripPrefix? s t = some r ↔ t = s ++ r
  | [], t, r => by simp [stripPrefix?, eq_comm]
  | _ :: _, [], r => by simp [stripPrefix?]
  | c :: cs, d :: ds, r => by
    unfold stripPrefix?
    by_cases h : c = d
    · subst h
      simp [stripPrefix?_eq_some cs ds r]
    · simp [h, Ne.symm h]

theorem stripPrefix?_append (s r : List Char) : stripPrefix? s (s ++ r) = some r :=
  (stripPrefix?_eq_some s (s ++ r) r).2 rfl

theorem flatMap_congr_mem {α β : Type} {g h : α → List β} :
    ∀ (L : List α), (∀ y ∈ L, g y = h y) → L.flatMap g = L.flatMap h
  | [], _ => rfl
  | a :: L, hyp => by
    rw [List.flatMap_cons, List.flatMap_cons, hyp a (List.mem_cons_self _ _),
      flatMap_congr_mem L (fun y hy => hyp y (List.mem_cons_of_mem _ hy))]

/-- Fuel adequacy of the repetition loop: once the fuel is at least the length of the remaining
input the result no longer depends on it, so the loop never stops for lack of fuel. -/
theorem starLoop_fuel (f : MState → List MState) : ∀ (n m : Nat) (st : MState),
    st.rest.length ≤ n → st.rest.length ≤ m → starLoop f n st = starLoop f m st := by
  have hzero : ∀ (k : Nat) (st : MState), st.rest.length = 0 → starLoop f k st = [st] := by
    intro k st h0
    cases k with
    | zero => rfl
    | succ k =>
      simp only [starLoop, h0, Nat.not_lt_zero, decide_False, List.filter_false,
        List.flatMap_nil, List.nil_append]
  intro n
  induction n with
  | zero =>
    intro m st hn _
    rw [hzero 0 st (Nat.le_zero.1 hn), hzero m st (Nat.le_zero.1 hn)]
  | succ n ih =>
    intro m st hn hm
    cases m with
    | zero => rw [hzero (n + 1) st (Nat.le_zero.1 hm), hzero 0 st (Nat.le_zero.1 hm)]
    | succ m =>
      simp only [starLoop]
      congr 1
      apply flatMap_congr_mem
      intro y hy
      have hlt := of_decide_eq_true (List.mem_filter.1 hy).2
      exact ih m y (by omega) (by omega)

theorem mem_run_lit {s : List Char} {st x : MState} :
    x ∈ run (.lit s) st ↔ st.rest = s ++ x.rest ∧ x.caps = st.caps := by
  unfold run
  cases h : stripPrefix? s st.rest with
  | none =>
    simp only [List.not_mem_nil, false_iff, not_and]
    intro h1
    rw [(stripPrefix?_eq_some _ _ _).2 h1] at h
    cases h
  | some r =>
    have hr := (stripPrefix?_eq_some _ _ _).1 h
    simp only [List.mem_singleton]
    constructor
    · rintro rfl
      exact ⟨hr, rfl⟩
    · rintro ⟨h1, h2⟩
      rcases x with ⟨xr, xc⟩
      simp only at h1 h2
      have : xr = r := List.append_cancel_left (h1.symm.trans hr)
      subst this; subst h2
      rfl

theorem run_lit_append (s r : List Char) (caps : List (List Char)) :
    run (.lit s) ⟨s ++ r, caps⟩ = [⟨r, caps⟩] := by
  simp [run, stripPrefix?_append]

theorem mem_run_cls {p : Char → Bool} {st x : MState} :
    x ∈ run (.cls p) st ↔ ∃ c, p c = true ∧ st.rest = c :: x.rest ∧ x.caps = st.caps := by
  rcases st with ⟨r, caps⟩
  rcases x with ⟨xr, xc⟩
  cases r with
  | nil => simp [run]
  | cons c cs =>
    by_cases hp : p c = true
    · simp only [run, hp, if_true, List.mem_singleton, MState.mk.injEq, List.cons.injEq]
      constructor
      · rintro ⟨rfl, rfl⟩
        exact ⟨c, hp, ⟨rfl, rfl⟩, rfl⟩
      · rintro ⟨c', _, ⟨_, h2⟩, h3⟩
        exact ⟨h2.symm, h3⟩
    · have hp' : p c = false := by simpa using hp
      simp only [run, hp']
      constructor
      · intro h
        simp at h
      · rintro ⟨c', hc', h1, _⟩
        simp only [List.cons.injEq] at h1
        rw [h1.1, hc'] at hp'
        cases hp'

/-- Soundness of the repetition loop for the consumed text. -/
theorem starLoop_sound {f : MState → List MState} {P : List Char → Prop}
    (hf : ∀ st x, x ∈ f st → ∃ pre, st.rest = pre ++ x.rest ∧ P pre) :
    ∀ (fuel : Nat) (st x : MState), x ∈ starLoop f fuel st →
      ∃ ws : List (List Char), st.rest = ws.flatten ++ x.rest ∧ ∀ u ∈ ws, P u := by
  intro fuel
  induction fuel with
  | zero =>
    intro st x hx
    simp only [starLoop, List.mem_singleton] at hx
    subst hx
    exact ⟨[], by simp, by simp⟩
  | succ n ih =>
    intro st x hx
    simp only [starLoop, List.mem_append, List.mem_flatMap, List.mem_filter,
      List.mem_singleton] at hx
    rcases hx with ⟨y, ⟨hy, _⟩, hxy⟩ | rfl
    · obtain ⟨pre, hpre, hP⟩ := hf st y hy
      obtain ⟨ws, hws, hall⟩ := ih y x hxy
      refine ⟨pre :: ws, ?_, ?_⟩
      · rw [hpre, hws]; simp
      · intro u hu
        rcases List.mem_cons.1 hu with rfl | hu
        · exact hP
        · exact hall u hu
    · exact ⟨[], by simp, by simp⟩

/-- Soundness of the matcher: what a path consumed is a word of the expression. -/
theorem run_sound : ∀ (r : Regex) (st x : MState), x ∈ run r st →
    ∃ pre, st.rest = pre ++ x.rest ∧ Lang r pre := by
  intro r
  induction r with
  | lit s =>
    intro st x hx
    exact ⟨s, (mem_run_lit.1 hx).1, rfl⟩
  | cls p =>
    intro st x hx
    obtain ⟨c, hc, h1, _⟩ := mem_run_cls.1 hx
    exact ⟨[c], by simpa using h1, c, rfl, hc⟩
  | seq a b iha ihb =>
    intro st x hx
    simp only [run, List.mem_flatMap] at hx
    obtain ⟨y, hy, hxy⟩ := hx
    obtain ⟨u, hu, hLu⟩ := iha st y hy
    obtain ⟨v, hv, hLv⟩ := ihb y x hxy
    exact ⟨u ++ v, by rw [hu, hv, List.append_assoc], u, v, rfl, hLu, hLv⟩
  | alt a b iha ihb =>
    intro st x hx
    simp only [run, List.mem_append] at hx
    rcases hx with hx | hx
    · obtain ⟨u, hu, hL⟩ := iha st x hx
      exact ⟨u, hu, Or.inl hL⟩
    · obtain ⟨u, hu, hL⟩ := ihb st x hx
      exact ⟨u, hu, Or.inr hL⟩
  | plus r ih =>
    intro st x hx
    simp only [run, List.mem_flatMap] at hx
    obtain ⟨y, hy, hxy⟩ := hx
    obtain ⟨u, hu, hLu⟩ := ih st y hy
    obtain ⟨ws, hws, hall⟩ := starLoop_sound (P := Lang r) (fun s z hz => ih s z hz) _ y x hxy
    refine ⟨u ++ ws.flatten, by rw [hu, hws, List.append_assoc], u :: ws, by simp, by simp, ?_⟩
    intro w hw
    rcases List.mem_cons.1 hw with rfl | hw
    · exact hLu
    · exact hall w hw
  | star r ih =>
    intro st x hx
    simp only [run] at hx
    obtain ⟨ws, hws, hall⟩ := starLoop_sound (P := Lang r) (fun s z hz => ih s z hz) _ st x hx
    exact ⟨ws.flatten, hws, ws, rfl, hall⟩
  | group i r ih =>
    intro st x hx
    simp only [run, List.mem_map] at hx
    obtain ⟨y, hy, rfl⟩ := hx
    exact ih st y hy

theorem starLoop_caps {f : MState → List MState}
    (hf : ∀ st x, x ∈ f st → x.caps = st.caps) :
    ∀ (fuel : Nat) (st x : MState), x ∈ starLoop f fuel st → x.caps = st.caps := by
  intro fuel
  induction fuel with
  | zero =>
    intro st x hx
    simp only [starLoop, List.mem_singleton] at hx
    rw [hx]
  | succ n ih =>
    intro st x hx
    simp only [starLoop, List.mem_append, List.mem_flatMap, List.mem_filter,
      List.mem_singleton] at hx
    rcases hx with ⟨y, ⟨hy, _⟩, hxy⟩ | rfl
    · rw [ih y x hxy, hf st y hy]
    · rfl

/-- An expression without capturing group leaves the sub-match table alone. -/
theorem run_caps : ∀ (r : Regex), noGroup r → ∀ (st x : MState), x ∈ run r st →
    x.caps = st.caps := by
  intro r
  induction r with
  | lit s => intro _ st x hx; exact (mem_run_lit.1 hx).2
  | cls p =>
    intro _ st x hx
    obtain ⟨_, _, _, h⟩ := mem_run_cls.1 hx
    exact h
  | seq a b iha ihb =>
    intro hg st x hx
    simp only [run, List.mem_flatMap] at hx
    obtain ⟨y, hy, hxy⟩ := hx
    rw [ihb hg.2 y x hxy, iha hg.1 st y hy]
  | alt a b iha ihb =>
    intro hg st x hx
    simp only [run, List.mem_append] at hx
    rcases hx with hx | hx
    · exact iha hg.1 st x hx
    · exact ihb hg.2 st x hx
  | plus r ih =>
    intro hg st x hx
    simp only [run, List.mem_flatMap] at hx
    obtain ⟨y, hy, hxy⟩ := hx
    rw [starLoop_caps (fun s z hz => ih hg s z hz) _ y x hxy, ih hg st y hy]
  | star r ih =>
    intro hg st x hx
    simp only [run] at hx
    exact starLoop_caps (fun s z hz => ih hg s z hz) _ st x hx
  | group i r _ => intro hg; exact absurd hg (by simp [noGroup])

/-- A capturing group around an expression without inner group: the path consumed a word `pre`
of the expression and recorded it as sub-match `i`. -/
theorem mem_run_group {i : Nat} {r : Regex} (hr : noGroup r) {st x : MState}
    (hx : x ∈ run (.group i r) st) :
    ∃ pre, st.rest = pre ++ x.rest ∧ Lang r pre ∧ x.caps = st.caps.set i pre := by
  simp only [run, List.mem_map] at hx
  obtain ⟨y, hy, rfl⟩ := hx
  obtain ⟨pre, hpre, hL⟩ := run_sound r st y hy
  refine ⟨pre, hpre, hL, ?_⟩
  simp only
  rw [run_caps r hr st y hy, hpre]
  simp

theorem mem_run_seq {a b : Regex} {st x : MState} :
    x ∈ run (.seq a b) st ↔ ∃ y, y ∈ run a st ∧ x ∈ run b y := by
  simp only [run, List.mem_flatMap]

theorem Lang_plus_cls {p : Char → Bool} {w : List Char} (h : Lang (.plus (.cls p)) w) :
    w ≠ [] ∧ ∀ c ∈ w, p c = true := by
  obtain ⟨ws, hne, rfl, hall⟩ := h
  constructor
  · cases ws with
    | nil => exact absurd rfl hne
    | cons u us =>
      obtain ⟨c, rfl, _⟩ := hall u (List.mem_cons_self _ _)
      simp
  · intro c hc
    obtain ⟨u, hu, hcu⟩ := List.mem_flatten.1 hc
    obtain ⟨d, rfl, hd⟩ := hall u hu
    simp only [List.mem_singleton] at hcu
    rw [hcu]; exact hd

theorem Lang_reSpecies {w : List Char} (h : Lang reSpecies w) :
    w = "hyena".data ∨ w = "lion".data ∨ w = "bear".data ∨ w = "tiger".data := by
  simpa [reSpecies, Lang] using h

theorem Lang_reSeason {w : List Char} (h : Lang reSeason w) :
    w = "spring".data ∨ w = "summer".data ∨ w = "fall".data ∨ w = "winter".data
      ∨ w = "unknown".data := by
  simpa [reSeason, Lang] using h

/-- Soundness of the pattern: every path through `rgx` consumed a record text and recorded its
seven groups. -/
theorem rgx_sound {st x : MState} (hx : x ∈ run rgx st) :
    ∃ A G SP SE C W O, st.rest = recordText A G SP SE C W O ++ x.rest
      ∧ Lang (.plus reDigit) A ∧ Lang (.plus reWord) G ∧ Lang reSpecies SP ∧ Lang reSeason SE
      ∧ Lang reColor C ∧ Lang (.plus reDigit) W ∧ Lang (.plus reAny) O
      ∧ x.caps = ((((((st.caps.set 1 A).set 2 G).set 3 SP).set 4 SE).set 5 C).set 6 W).set 7 O := by
  unfold rgx at hx
  obtain ⟨y1, h1, hx⟩ := mem_run_seq.1 hx
  obtain ⟨y2, h2, hx⟩ := mem_run_seq.1 hx
  obtain ⟨y3, h3, hx⟩ := mem_run_seq.1 hx
  obtain ⟨y4, h4, hx⟩ := mem_run_seq.1 hx
  obtain ⟨y5, h5, hx⟩ := mem_run_seq.1 hx
  obtain ⟨y6, h6, hx⟩ := mem_run_seq.1 hx
  obtain ⟨y7, h7, hx⟩ := mem_run_seq.1 hx
  obtain ⟨y8, h8, hx⟩ := mem_run_seq.1 hx
  obtain ⟨y9, h9, hx⟩ := mem_run_seq.1 hx
  obtain ⟨y10, h10, hx⟩ := mem_run_seq.1 hx
  obtain ⟨y11, h11, hx⟩ := mem_run_seq.1 hx
  obtain ⟨y12, h12, hx⟩ := mem_run_seq.1 hx
  obtain ⟨A, e1, LA, c1⟩ := mem_run_group (by simp [noGroup, reDigit]) h1
  obtain ⟨e2, c2⟩ := mem_run_lit.1 h2
  obtain ⟨G, e3, LG, c3⟩ := mem_run_group (by simp [noGroup, reWord]) h3
  obtain ⟨e4, c4⟩ := mem_run_lit.1 h4
  obtain ⟨SP, e5, LSP, c5⟩ := mem_run_group (by simp [noGroup, reSpecies]) h5
  obtain ⟨e6, c6⟩ := mem_run_lit.1 h6
  obtain ⟨SE, e7, LSE, c7⟩ := mem_run_group (by simp [noGroup, reSeason]) h7
  obtain ⟨e8, c8⟩ := mem_run_lit.1 h8
  obtain ⟨C, e9, LC, c9⟩ := mem_run_group (by simp [noGroup, reColor, reAlpha]) h9
  obtain ⟨e10, c10⟩ := mem_run_lit.1 h10
  obtain ⟨W, e11, LW, c11⟩ := mem_run_group (by simp [noGroup, reDigit]) h11
  obtain ⟨e12, c12⟩ := mem_run_lit.1 h12
  obtain ⟨O, e13, LO, c13⟩ := mem_run_group (by simp [noGroup, reAny]) hx
  refine ⟨A, G, SP, SE, C, W, O, ?_, LA, LG, LSP, LSE, LC, LW, LO, ?_⟩
  · rw [e1, e2, e3, e4, e5, e6, e7, e8, e9, e10, e11, e12, e13]
    simp [recordText, List.append_assoc]
  · rw [c13, c12, c11, c10, c9, c8, c7, c6, c5, c4, c3, c2, c1]

/-- Soundness of the search: a match found in a line is a record text somewhere in the line, and
the sub-match table holds its seven groups. -/
theorem regex_search_sound : ∀ (l : List Char) (m : MState), regex_search rgx l = some m →
    ∃ skipped A G SP SE C W O, l = skipped ++ recordText A G SP SE C W O ++ m.rest
      ∧ Lang (.plus reDigit) A ∧ Lang (.plus reWord) G ∧ Lang reSpecies SP ∧ Lang reSeason SE
      ∧ Lang reColor C ∧ Lang (.plus reDigit) W ∧ Lang (.plus reAny) O
      ∧ m.caps = [[], A, G, SP, SE, C, W, O] := by
  have key : ∀ (l : List Char) (m : MState), m ∈ run rgx ⟨l, noCaps⟩ →
      ∃ A G SP SE C W O, l = [] ++ recordText A G SP SE C W O ++ m.rest
      ∧ Lang (.plus reDigit) A ∧ Lang (.plus reWord) G ∧ Lang reSpecies SP ∧ Lang reSeason SE
      ∧ Lang reColor C ∧ Lang (.plus reDigit) W ∧ Lang (.plus reAny) O
      ∧ m.caps = [[], A, G, SP, SE, C, W, O] := by
    intro l m hm
    obtain ⟨A, G, SP, SE, C, W, O, e, LA, LG, LSP, LSE, LC, LW, LO, hc⟩ := rgx_sound hm
    exact ⟨A, G, SP, SE, C, W, O, by simpa using e, LA, LG, LSP, LSE, LC, LW, LO,
      by simpa [noCaps] using hc⟩
  intro l
  induction l with
  | nil =>
    intro m hm
    simp only [regex_search] at hm
    exact ⟨[], key [] m (List.mem_of_mem_head? hm)⟩
  | cons c cs ih =>
    intro m hm
    unfold regex_search at hm
    split at hm
    · rename_i m1 ms hrun
      simp only [Option.some.injEq] at hm
      subst hm
      exact ⟨[], key (c :: cs) m1 (by rw [hrun]; exact List.mem_cons_self _ _)⟩
    · obtain ⟨sk, A, G, SP, SE, C, W, O, e, rest⟩ := ih m hm
      exact ⟨c :: sk, A, G, SP, SE, C, W, O, by rw [e]; simp, rest⟩

end Zoo

namespace Zoo

/-! ## Completeness of the matcher on well-formed record texts -/

/-- First result of a backtracking sequence: when `c` is among the candidates and is the only
one on which the continuation can succeed, the first overall result is the first one after `c`. -/
theorem head?_flatMap_unique {α β : Type} (f : α → List β) (c : α) :
    ∀ (L : List α), c ∈ L → (∀ x ∈ L, f x ≠ [] → x = c) →
      (L.flatMap f).head? = (f c).head?
  | [], h, _ => by cases h
  | a :: L, hmem, huniq => by
    rw [List.flatMap_cons, List.head?_append]
    by_cases hfa : f a = []
    · have hne : a ≠ c ∨ a = c := (em (a = c)).symm
      rcases hne with hne | rfl
      · have hc : c ∈ L := by
          rcases List.mem_cons.1 hmem with h | h
          · exact absurd h.symm hne
          · exact h
        rw [hfa]
        simp only [List.head?_nil, Option.or]
        exact head?_flatMap_unique f c L hc (fun x hx => huniq x (List.mem_cons_of_mem _ hx))
      · rw [hfa]
        simp only [List.head?_nil, Option.or]
        have : L.flatMap f = [] := by
          rw [List.flatMap_eq_nil_iff]
          intro x hx
          by_contra hfx
          have := huniq x (List.mem_cons_of_mem _ hx) hfx
          rw [this] at hfx
          exact hfx hfa
        rw [this]; rfl
    · have hac : a = c := huniq a (List.mem_cons_self _ _) hfa
      subst hac
      cases hfa' : f a with
      | nil => exact absurd hfa' hfa
      | cons b bs => simp [Option.or]

theorem self_mem_starLoop (f : MState → List MState) (fuel : Nat) (st : MState) :
    st ∈ starLoop f fuel st := by
  cases fuel <;> simp [starLoop]

theorem mem_starLoop_step {f : MState → List MState} {fuel : Nat} {st y x : MState}
    (hy : y ∈ f st) (hlen : y.rest.length < st.rest.length) (hx : x ∈ starLoop f fuel y) :
    x ∈ starLoop f (fuel + 1) st := by
  simp only [starLoop, List.mem_append, List.mem_flatMap, List.mem_filter, decide_eq_true_eq]
  exact Or.inl ⟨y, ⟨hy, hlen⟩, hx⟩

theorem run_cls_cons {p : Char → Bool} {c : Char} (hc : p c = true) (cs : List Char)
    (caps : List (List Char)) : run (.cls p) ⟨c :: cs, caps⟩ = [⟨cs, caps⟩] := by
  simp [run, hc]

theorem mem_starLoop_cls {p : Char → Bool} : ∀ (A : List Char) (rest : List Char)
    (caps : List (List Char)) (fuel : Nat), (∀ c ∈ A, p c = true) → A.length ≤ fuel →
    (⟨rest, caps⟩ : MState) ∈ starLoop (fun y => run (.cls p) y) fuel ⟨A ++ rest, caps⟩
  | [], rest, caps, fuel, _, _ => by simpa using self_mem_starLoop _ fuel ⟨rest, caps⟩
  | a :: A, rest, caps, 0, _, h => by simp at h
  | a :: A, rest, caps, fuel + 1, hA, h => by
    refine mem_starLoop_step (y := ⟨A ++ rest, caps⟩) ?_ (by simp) ?_
    · show _ ∈ run (.cls p) ⟨a :: (A ++ rest), caps⟩
      rw [run_cls_cons (hA a (List.mem_cons_self _ _))]
      exact List.mem_singleton_self _
    · exact mem_starLoop_cls A rest caps fuel (fun c hc => hA c (List.mem_cons_of_mem _ hc))
        (by simpa using h)

/-- Completeness of `p+`: any non-empty run of class characters can be the part consumed. -/
theorem mem_run_plus_cls {p : Char → Bool} {A : List Char} (hne : A ≠ [])
    (hA : ∀ c ∈ A, p c = true) (rest : List Char) (caps : List (List Char)) :
    (⟨rest, caps⟩ : MState) ∈ run (.plus (.cls p)) ⟨A ++ rest, caps⟩ := by
  cases A with
  | nil => exact absurd rfl hne
  | cons a A =>
    simp only [run, List.mem_flatMap]
    refine ⟨⟨A ++ rest, caps⟩, ?_, ?_⟩
    · have := run_cls_cons (hA a (List.mem_cons_self _ _)) (A ++ rest) caps
      simp only [run, List.cons_append] at this ⊢
      rw [this]
      exact List.mem_singleton_self _
    · exact mem_starLoop_cls A rest caps _ (fun c hc => hA c (List.mem_cons_of_mem _ hc))
        (by simp; omega)

/-- Greedy `p*` on input made of class characters only: the first result consumes it all. -/
theorem head?_starLoop_cls {p : Char → Bool} : ∀ (A : List Char) (caps : List (List Char))
    (fuel : Nat), (∀ c ∈ A, p c = true) → A.length ≤ fuel →
    (starLoop (fun y => run (.cls p) y) fuel ⟨A, caps⟩).head? = some ⟨[], caps⟩
  | [], caps, fuel, _, _ => by cases fuel <;> simp [starLoop, run]
  | a :: A, caps, 0, _, h => by simp at h
  | a :: A, caps, fuel + 1, hA, h => by
    have ih := head?_starLoop_cls A caps fuel (fun c hc => hA c (List.mem_cons_of_mem _ hc))
        (by simpa using h)
    simp only [starLoop, run_cls_cons (hA a (List.mem_cons_self _ _))]
    simp [List.head?_append, ih]

theorem head?_run_plus_cls {p : Char → Bool} {A : List Char} (hne : A ≠ [])
    (hA : ∀ c ∈ A, p c = true) (caps : List (List Char)) :
    (run (.plus (.cls p)) ⟨A, caps⟩).head? = some ⟨[], caps⟩ := by
  cases A with
  | nil => exact absurd rfl hne
  | cons a A =>
    have h1 := run_cls_cons (hA a (List.mem_cons_self _ _)) A caps
    simp only [run] at h1 ⊢
    rw [h1]
    simp only [List.flatMap_cons, List.flatMap_nil, List.append_nil]
    exact head?_starLoop_cls A caps _ (fun c hc => hA c (List.mem_cons_of_mem _ hc)) (by simp)

/-- A run of class characters followed by a character outside the class is determined by the
text it starts. -/
theorem span_unique {p : Char → Bool} : ∀ (u v : List Char) (a b : Char) (s t : List Char),
    (∀ c ∈ u, p c = true) → (∀ c ∈ v, p c = true) → p a = false → p b = false →
    u ++ a :: s = v ++ b :: t → u = v
  | [], [], _, _, _, _, _, _, _, _, _ => rfl
  | [], c :: v, a, b, s, t, _, hv, ha, _, h => by
    simp only [List.nil_append, List.cons_append, List.cons.injEq] at h
    have := hv c (List.mem_cons_self _ _)
    rw [← h.1, ha] at this
    cases this
  | c :: u, [], a, b, s, t, hu, _, _, hb, h => by
    simp only [List.nil_append, List.cons_append, List.cons.injEq] at h
    have := hu c (List.mem_cons_self _ _)
    rw [h.1, hb] at this
    cases this
  | c :: u, d :: v, a, b, s, t, hu, hv, ha, hb, h => by
    simp only [List.cons_append, List.cons.injEq] at h
    rw [h.1, span_unique u v a b s t (fun x hx => hu x (List.mem_cons_of_mem _ hx))
      (fun x hx => hv x (List.mem_cons_of_mem _ hx)) ha hb h.2]

/-- One stage of the pattern: a capturing group followed by a fixed word.  When the input starts
with `X`, a text the group can match, then the fixed word, and the fixed word holds (after a part
`d1` inside the class) a character outside the class of the group, the match goes on after the
fixed word with `X` recorded. -/
theorem head?_group_then_lit (i : Nat) (r k : Regex) (p : Char → Bool) (X d d1 d2 : List Char)
    (sep : Char) (t : List Char) (caps : List (List Char)) (hr : noGroup r)
    (hLp : ∀ w, Lang r w → ∀ c ∈ w, p c = true)
    (hmem : ∀ rest caps, (⟨rest, caps⟩ : MState) ∈ run r ⟨X ++ rest, caps⟩)
    (hX : ∀ c ∈ X, p c = true) (hd : d = d1 ++ sep :: d2) (hd1 : ∀ c ∈ d1, p c = true)
    (hsep : p sep = false) :
    (run (.seq (.group i r) (.seq (.lit d) k)) ⟨X ++ (d ++ t), caps⟩).head?
      = (run k ⟨t, caps.set i X⟩).head? := by
  have hstep : run (.seq (.lit d) k) ⟨d ++ t, caps.set i X⟩ = run k ⟨t, caps.set i X⟩ := by
    simp [run, stripPrefix?_append]
  rw [← hstep]
  show ((run (.group i r) ⟨X ++ (d ++ t), caps⟩).flatMap
    (fun y => run (.seq (.lit d) k) y)).head? = _
  apply head?_flatMap_unique (fun y => run (.seq (.lit d) k) y)
  · simp only [run, List.mem_map]
    refine ⟨⟨d ++ t, caps⟩, hmem (d ++ t) caps, ?_⟩
    simp
  · intro x hx hne
    obtain ⟨pre, hpre, hL, hcaps⟩ := mem_run_group hr hx
    obtain ⟨z, hz⟩ := List.exists_mem_of_ne_nil _ hne
    obtain ⟨y, hy, _⟩ := mem_run_seq.1 hz
    obtain ⟨hyr, _⟩ := mem_run_lit.1 hy
    simp only at hpre hcaps
    rw [hyr, hd] at hpre
    have e : (X ++ d1) ++ sep :: (d2 ++ t) = (pre ++ d1) ++ sep :: (d2 ++ y.rest) := by
      simpa [List.append_assoc] using hpre
    have hall : ∀ (u : List Char), (∀ c ∈ u, p c = true) → ∀ c ∈ u ++ d1, p c = true := by
      intro u hu c hc
      rcases List.mem_append.1 hc with h | h
      · exact hu c h
      · exact hd1 c h
    have e1 := span_unique (X ++ d1) (pre ++ d1) sep sep _ _ (hall X hX)
      (hall pre (hLp pre hL)) hsep hsep e
    have e2 : X = pre := List.append_cancel_right e1
    subst e2
    have e3 : x.rest = d ++ t := by
      rw [hyr, hd]
      have := List.append_cancel_left e
      simp only [List.cons.injEq, true_and] at this
      have h2 : d2 ++ y.rest = d2 ++ t := this.symm
      rw [List.append_assoc, List.cons_append, h2]
      simp [List.append_assoc]
    rcases x with ⟨xr, xc⟩
    simp only at e3 hcaps
    rw [e3, hcaps]

theorem mem_run_alt {a b : Regex} {st x : MState} :
    x ∈ run (.alt a b) st ↔ x ∈ run a st ∨ x ∈ run b st := by
  simp only [run, List.mem_append]

theorem mem_run_reSpecies {SP : List Char} (h : SP ∈ speciesTokens) (rest : List Char)
    (caps : List (List Char)) : (⟨rest, caps⟩ : MState) ∈ run reSpecies ⟨SP ++ rest, caps⟩ := by
  simp only [speciesTokens, List.mem_cons, List.mem_singleton, List.not_mem_nil, or_false] at h
  simp only [reSpecies, mem_run_alt]
  rcases h with rfl | rfl | rfl | rfl
  · exact Or.inl (mem_run_lit.2 ⟨rfl, rfl⟩)
  · exact Or.inr (Or.inl (mem_run_lit.2 ⟨rfl, rfl⟩))
  · exact Or.inr (Or.inr (Or.inl (mem_run_lit.2 ⟨rfl, rfl⟩)))
  · exact Or.inr (Or.inr (Or.inr (mem_run_lit.2 ⟨rfl, rfl⟩)))

theorem mem_run_reSeason {SE : List Char} (h : SE ∈ seasonTokens) (rest : List Char)
    (caps : List (List Char)) : (⟨rest, caps⟩ : MState) ∈ run reSeason ⟨SE ++ rest, caps⟩ := by
  simp only [seasonTokens, List.mem_cons, List.mem_singleton, List.not_mem_nil, or_false] at h
  simp only [reSeason, mem_run_alt]
  rcases h with rfl | rfl | rfl | rfl | rfl
  · exact Or.inl (mem_run_lit.2 ⟨rfl, rfl⟩)
  · exact Or.inr (Or.inl (mem_run_lit.2 ⟨rfl, rfl⟩))
  · exact Or.inr (Or.inr (Or.inl (mem_run_lit.2 ⟨rfl, rfl⟩)))
  · exact Or.inr (Or.inr (Or.inr (Or.inl (mem_run_lit.2 ⟨rfl, rfl⟩))))
  · exact Or.inr (Or.inr (Or.inr (Or.inr (mem_run_lit.2 ⟨rfl, rfl⟩))))

theorem speciesTokens_alpha {SP : List Char} (h : SP ∈ speciesTokens) :
    ∀ c ∈ SP, Char.isAlpha c = true := by
  simp only [speciesTokens, List.mem_cons, List.mem_singleton, List.not_mem_nil, or_false] at h
  rcases h with rfl | rfl | rfl | rfl <;> decide

theorem seasonTokens_alpha {SE : List Char} (h : SE ∈ seasonTokens) :
    ∀ c ∈ SE, Char.isAlpha c = true := by
  simp only [seasonTokens, List.mem_cons, List.mem_singleton, List.not_mem_nil, or_false] at h
  rcases h with rfl | rfl | rfl | rfl | rfl <;> decide

theorem Lang_reSpecies_mem {w : List Char} (h : Lang reSpecies w) : w ∈ speciesTokens := by
  have := Lang_reSpecies h
  simpa [speciesTokens] using this

theorem Lang_reSeason_mem {w : List Char} (h : Lang reSeason w) : w ∈ seasonTokens := by
  have := Lang_reSeason h
  simpa [seasonTokens] using this

/-- A colour text consists of letters and spaces. -/
theorem Lang_reColor_chars {w : List Char} (h : Lang reColor w) :
    ∀ c ∈ w, (Char.isAlpha c || c == ' ') = true := by
  obtain ⟨u, v, rfl, hu, ws, rfl, hws⟩ := h
  intro c hc
  rcases List.mem_append.1 hc with hc | hc
  · simp [(Lang_plus_cls hu).2 c hc]
  · obtain ⟨x, hx, hcx⟩ := List.mem_flatten.1 hc
    obtain ⟨a, b, rfl, ha, hb⟩ := hws x hx
    rcases List.mem_append.1 hcx with h1 | h1
    · have : a = [' '] := ha
      rw [this] at h1
      simp only [List.mem_singleton] at h1
      simp [h1]
    · simp [(Lang_plus_cls hb).2 c h1]

theorem length_le_flatten_spaced (ws : List (List Char)) :
    ws.length ≤ ((ws.map (fun u => ' ' :: u)).flatten).length := by
  induction ws with
  | nil => simp
  | cons w ws ih => simp only [List.map_cons, List.flatten_cons, List.length_append,
      List.length_cons]; omega

theorem mem_starLoop_words : ∀ (ws : List (List Char)) (rest : List Char)
    (caps : List (List Char)) (fuel : Nat),
    (∀ u ∈ ws, u ≠ [] ∧ ∀ c ∈ u, Char.isAlpha c = true) → ws.length ≤ fuel →
    (⟨rest, caps⟩ : MState) ∈
      starLoop (fun y => run (.seq (.lit " ".data) (.plus reAlpha)) y) fuel
        ⟨(ws.map (fun u => ' ' :: u)).flatten ++ rest, caps⟩
  | [], rest, caps, fuel, _, _ => by simpa using self_mem_starLoop _ fuel ⟨rest, caps⟩
  | w :: ws, rest, caps, 0, _, h => by simp at h
  | w :: ws, rest, caps, fuel + 1, hws, h => by
    refine mem_starLoop_step (y := ⟨(ws.map (fun u => ' ' :: u)).flatten ++ rest, caps⟩) ?_
      (by simp; omega) ?_
    · refine mem_run_seq.2 ⟨⟨w ++ ((ws.map (fun u => ' ' :: u)).flatten ++ rest), caps⟩, ?_, ?_⟩
      · exact mem_run_lit.2 ⟨by simp, rfl⟩
      · exact mem_run_plus_cls (hws w (List.mem_cons_self _ _)).1
          (hws w (List.mem_cons_self _ _)).2 _ _
    · exact mem_starLoop_words ws rest caps fuel
        (fun u hu => hws u (List.mem_cons_of_mem _ hu)) (by simpa using h)

/-- Completeness of the colour group on a phrase of alphabetic words. -/
theorem mem_run_reColor {w : List Char} {ws : List (List Char)} (hw : w ≠ [])
    (hwa : ∀ c ∈ w, Char.isAlpha c = true)
    (hws : ∀ u ∈ ws, u ≠ [] ∧ ∀ c ∈ u, Char.isAlpha c = true) (rest : List Char)
    (caps : List (List Char)) :
    (⟨rest, caps⟩ : MState) ∈ run reColor ⟨phrase w ws ++ rest, caps⟩ := by
  unfold reColor
  refine mem_run_seq.2 ⟨⟨(ws.map (fun u => ' ' :: u)).flatten ++ rest, caps⟩, ?_, ?_⟩
  · have := mem_run_plus_cls hw hwa ((ws.map (fun u => ' ' :: u)).flatten ++ rest) caps
    simpa [phrase, reAlpha, List.append_assoc] using this
  · simp only [run]
    refine mem_starLoop_words ws rest caps _ hws ?_
    have := length_le_flatten_spaced ws
    simp only [List.length_append]
    omega

theorem phrase_chars {w : List Char} {ws : List (List Char)}
    (hwa : ∀ c ∈ w, Char.isAlpha c = true)
    (hws : ∀ u ∈ ws, u ≠ [] ∧ ∀ c ∈ u, Char.isAlpha c = true) :
    ∀ c ∈ phrase w ws, (Char.isAlpha c || c == ' ') = true := by
  intro c hc
  simp only [phrase, List.mem_append, List.mem_flatten, List.mem_map] at hc
  rcases hc with hc | ⟨x, ⟨u, hu, rfl⟩, hcx⟩
  · simp [hwa c hc]
  · rcases List.mem_cons.1 hcx with rfl | h
    · simp
    · simp [(hws u hu).2 c h]

theorem regex_search_of_head {r : Regex} {l : List Char} {m : MState}
    (h : (run r ⟨l, noCaps⟩).head? = some m) : regex_search r l = some m := by
  cases l with
  | nil => simpa [regex_search] using h
  | cons c cs =>
    unfold regex_search
    cases hr : run r ⟨c :: cs, noCaps⟩ with
    | nil => rw [hr] at h; cases h
    | cons a as => rw [hr] at h; simpa using h

/-- Completeness of the search: on a well-formed record text the match is found at the first
position, spans the whole text, and the seven sub-matches are the seven fields. -/
theorem regex_search_recordText (A G SP SE w : List Char) (ws : List (List Char))
    (W O : List Char)
    (hA : A ≠ []) (hAd : ∀ c ∈ A, Char.isDigit c = true)
    (hG : G ≠ []) (hGw : ∀ c ∈ G, (Char.isAlphanum c || c == '_') = true)
    (hSP : SP ∈ speciesTokens) (hSE : SE ∈ seasonTokens)
    (hw : w ≠ []) (hwa : ∀ c ∈ w, Char.isAlpha c = true)
    (hws : ∀ u ∈ ws, u ≠ [] ∧ ∀ c ∈ u, Char.isAlpha c = true)
    (hW : W ≠ []) (hWd : ∀ c ∈ W, Char.isDigit c = true)
    (hO : O ≠ []) (hOa : ∀ c ∈ O, (c != '\n' && c != '\r') = true) :
    regex_search rgx (recordText A G SP SE (phrase w ws) W O)
      = some ⟨[], [[], A, G, SP, SE, phrase w ws, W, O]⟩ := by
  apply regex_search_of_head
  have hshape : recordText A G SP SE (phrase w ws) W O =
      A ++ (" year old ".data ++ (G ++ (" ".data ++ (SP ++ (", born in ".data ++ (SE ++
        (", ".data ++ (phrase w ws ++ (" color, ".data ++ (W ++ (" pounds, from ".data ++ O)))))))))))
      := by
    simp [recordText, List.append_assoc]
  rw [hshape]
  unfold rgx
  rw [head?_group_then_lit 1 (.plus reDigit) _ Char.isDigit A " year old ".data []
      "year old ".data ' ' _ _ (by simp [noGroup, reDigit])
      (fun w hw => (Lang_plus_cls hw).2) (fun rest caps => mem_run_plus_cls hA hAd rest caps)
      hAd rfl (by simp) (by decide)]
  rw [head?_group_then_lit 2 (.plus reWord) _ (fun c => Char.isAlphanum c || c == '_') G
      " ".data [] [] ' ' _ _ (by simp [noGroup, reWord])
      (fun w hw => (Lang_plus_cls hw).2) (fun rest caps => mem_run_plus_cls hG hGw rest caps)
      hGw rfl (by simp) (by decide)]
  rw [head?_group_then_lit 3 reSpecies _ Char.isAlpha SP ", born in ".data []
      " born in ".data ',' _ _ (by simp [noGroup, reSpecies])
      (fun w hw => speciesTokens_alpha (Lang_reSpecies_mem hw))
      (fun rest caps => mem_run_reSpecies hSP rest caps)
      (speciesTokens_alpha hSP) rfl (by simp) (by decide)]
  rw [head?_group_then_lit 4 reSeason _ Char.isAlpha SE ", ".data []
      " ".data ',' _ _ (by simp [noGroup, reSeason])
      (fun w hw => seasonTokens_alpha (Lang_reSeason_mem hw))
      (fun rest caps => mem_run_reSeason hSE rest caps)
      (seasonTokens_alpha hSE) rfl (by simp) (by decide)]
  rw [head?_group_then_lit 5 reColor _ (fun c => Char.isAlpha c || c == ' ') (phrase w ws)
      " color, ".data " color".data " ".data ',' _ _ (by simp [noGroup, reColor, reAlpha])
      (fun w hw => Lang_reColor_chars hw)
      (fun rest caps => mem_run_reColor hw hwa hws rest caps)
      (phrase_chars hwa hws) rfl (by decide) (by decide)]
  rw [head?_group_then_lit 6 (.plus reDigit) _ Char.isDigit W " pounds, from ".data []
      "pounds, from ".data ' ' _ _ (by simp [noGroup, reDigit])
      (fun w hw => (Lang_plus_cls hw).2) (fun rest caps => mem_run_plus_cls hW hWd rest caps)
      hWd rfl (by simp) (by decide)]
  have hlast := head?_run_plus_cls (p := fun c => c != '\n' && c != '\r') hO hOa
    ((((((noCaps.set 1 A).set 2 G).set 3 SP).set 4 SE).set 5 (phrase w ws)).set 6 W)
  simp only [run, reAny, List.head?_map] at hlast ⊢
  rw [hlast]
  simp [noCaps]

end Zoo

namespace Zoo

/-! ## Lemmas on the conversions and on one loop iteration -/

theorem stoi_digits {A : List Char} (hne : A ≠ []) (hA : ∀ c ∈ A, Char.isDigit c = true) :
    stoi A = if INT_MAX < (decimalValue A : Int) then .error (.out_of_range "stoi")
      else .ok (decimalValue A : Int) := by
  unfold stoi
  simp only [List.takeWhile_eq_self_iff.2 hA, hne, if_false]

theorem stod_digits {W : List Char} (hne : W ≠ []) (hW : ∀ c ∈ W, Char.isDigit c = true) :
    stod W = if DBL_OVERFLOW ≤ roundBinary64 (decimalValue W) then .error (.out_of_range "stod")
      else .ok (roundBinary64 (decimalValue W)) := by
  unfold stod
  simp only [List.takeWhile_eq_self_iff.2 hW, hne, if_false]

theorem kindOfToken_token (k : Kind) : kindOfToken k.token = some k := by
  cases k <;> rfl

theorem kindOfToken_eq_some {s : String} {k : Kind} (h : kindOfToken s = some k) :
    s = k.token := by
  unfold kindOfToken at h
  split_ifs at h with h1 h2 h3 h4 <;> simp only [Option.some.injEq, reduceCtorEq] at h <;>
    subst h <;> assumption

theorem selectPool_token (k : Kind) : selectPool k.token = some k.pool := by
  cases k <;> rfl

theorem token_injective {k1 k2 : Kind} (h : k1.token = k2.token) : k1 = k2 := by
  revert h
  cases k1 <;> cases k2 <;> decide

/-- Every match names one of the four species. -/
theorem search_kind {l : List Char} {m : MState} (h : regex_search rgx l = some m) :
    ∃ k : Kind, m.sub 3 = k.token := by
  obtain ⟨_, A, G, SP, SE, C, W, O, _, _, _, hSP, _, _, _, _, hc⟩ := regex_search_sound l m h
  have hsub : m.sub 3 = String.mk SP := by simp [MState.sub, hc]
  rcases Lang_reSpecies hSP with rfl | rfl | rfl | rfl
  · exact ⟨.Hyena, hsub⟩
  · exact ⟨.Lion, hsub⟩
  · exact ⟨.Bear, hsub⟩
  · exact ⟨.Tiger, hsub⟩

/-- The numeric sub-matches of a match are non-empty runs of digits. -/
theorem search_digits {l : List Char} {m : MState} (h : regex_search rgx l = some m) :
    (m.caps.getD 1 [] ≠ [] ∧ ∀ c ∈ m.caps.getD 1 [], Char.isDigit c = true)
      ∧ (m.caps.getD 6 [] ≠ [] ∧ ∀ c ∈ m.caps.getD 6 [], Char.isDigit c = true) := by
  obtain ⟨_, A, G, SP, SE, C, W, O, _, hA, _, _, _, _, hW, _, hc⟩ := regex_search_sound l m h
  rw [hc]
  exact ⟨Lang_plus_cls hA, Lang_plus_cls hW⟩

/-- The block run for a match whose species word is that of class `k`. -/
theorem processMatch_token (rng : Nat → Nat) (st : RunState) (m : MState) (k : Kind)
    (h : m.sub 3 = k.token) :
    processMatch rng st m =
      match stoi (m.caps.getD 1 []) with
      | .error e => .error (e, (drawName rng st (some k.pool)).2)
      | .ok age =>
        match stod (m.caps.getD 6 []) with
        | .error e => .error (e, (drawName rng st (some k.pool)).2)
        | .ok weight =>
          .ok (pushAnimal (drawName rng st (some k.pool)).2 k (drawName rng st (some k.pool)).1
            age (m.sub 4) (m.sub 5) (m.sub 2) weight (m.sub 7)) := by
  unfold processMatch
  simp only [h, selectPool_token]
  cases stoi (m.caps.getD 1 []) with
  | error e => rfl
  | ok age =>
    cases stod (m.caps.getD 6 []) with
    | error e => rfl
    | ok weight => cases k <;> rfl

theorem lineKind_eq_some {line : String} {k : Kind} (h : lineKind line = some k) :
    ∃ m, regex_search rgx line.data = some m ∧ m.sub 3 = k.token := by
  unfold lineKind at h
  cases hm : regex_search rgx line.data with
  | none => rw [hm] at h; cases h
  | some m =>
    rw [hm] at h
    exact ⟨m, rfl, kindOfToken_eq_some h⟩

theorem lineKind_eq_none {line : String} (h : lineKind line = none) :
    regex_search rgx line.data = none := by
  unfold lineKind at h
  cases hm : regex_search rgx line.data with
  | none => rfl
  | some m =>
    rw [hm] at h
    obtain ⟨k, hk⟩ := search_kind hm
    simp only [hk, kindOfToken_token] at h
    cases h

theorem processLine_of_lineKind_none {rng : Nat → Nat} {st : RunState} {line : String}
    (h : lineKind line = none) : processLine rng st line = .ok st := by
  unfold processLine
  rw [lineKind_eq_none h]

/-! ## Lemmas on the name draw -/

theorem PoolRef.get_set (r : PoolRef) (p : NamePools) (v : List String) :
    r.get (r.set p v) = v := by
  cases r <;> rfl

theorem PoolRef.get_set_ne {r s : PoolRef} (h : s ≠ r) (p : NamePools) (v : List String) :
    s.get (r.set p v) = s.get p := by
  cases r <;> cases s <;> first | rfl | exact absurd rfl h

theorem pool_injective {k1 k2 : Kind} (h : k1.pool = k2.pool) : k1 = k2 := by
  revert h
  cases k1 <;> cases k2 <;> decide

/-- Swap-with-last removal: the element taken and what stays make up the vector. -/
theorem swapRemove_perm (v : List String) (idx : Nat) (hi : idx < v.length) :
    (v.getD idx "" :: (v.set idx (v.getLastD "")).dropLast).Perm v := by
  rcases List.eq_nil_or_concat v with rfl | ⟨init, last, rfl⟩
  · simp at hi
  · rw [List.concat_eq_append] at hi ⊢
    have hlast : (init ++ [last]).getLastD "" = last := by simp
    rw [hlast, List.perm_iff_count]
    intro x
    simp only [List.length_append, List.length_singleton] at hi
    by_cases h : idx < init.length
    · rw [List.set_append_left _ _ h, List.dropLast_concat]
      have hget : (init ++ [last]).getD idx "" = init[idx] := by
        rw [List.getD_eq_getElem?_getD, List.getElem?_append_left h, List.getElem?_eq_getElem h]
        rfl
      rw [hget]
      have hsplit : init = init.take idx ++ init[idx] :: init.drop (idx + 1) := by
        rw [List.getElem_cons_drop, List.take_append_drop]
      have hset : init.set idx last = init.take idx ++ last :: init.drop (idx + 1) := by
        rw [List.set_eq_take_append_cons_drop, if_pos h]
      rw [hset]
      conv_rhs => rw [hsplit]
      simp only [List.count_cons, List.count_append, List.count_nil]
      omega
    · have hidx : idx = init.length := by omega
      subst hidx
      have hget : (init ++ [last]).getD init.length "" = last := by
        simp [List.getD_eq_getElem?_getD]
      have hset : (init ++ [last]).set init.length last = init ++ [last] := by
        rw [List.set_append_right _ _ (le_refl _)]
        simp
      rw [hget, hset, List.dropLast_concat]
      simp only [List.count_cons, List.count_append, List.count_nil]
      omega

theorem drawName_none (rng : Nat → Nat) (st : RunState) :
    drawName rng st none = ("Unnamed", st) := rfl

theorem drawName_empty (rng : Nat → Nat) (st : RunState) (ref : PoolRef)
    (h : ref.get st.pools = []) : drawName rng st (some ref) = ("Unnamed", st) := by
  simp [drawName, h]

theorem drawName_nonempty (rng : Nat → Nat) (st : RunState) (ref : PoolRef)
    (h : ref.get st.pools ≠ []) :
    drawName rng st (some ref) =
      ((ref.get st.pools).getD (rng st.draws % (ref.get st.pools).length) "",
       { st with
         pools := ref.set st.pools
           (((ref.get st.pools).set (rng st.draws % (ref.get st.pools).length)
              ((ref.get st.pools).getLastD "")).dropLast),
         draws := st.draws + 1 }) := by
  simp [drawName, h]

theorem drawName_frame (rng : Nat → Nat) (st : RunState) (ref : Option PoolRef) :
    (drawName rng st ref).2.animals = st.animals
      ∧ (drawName rng st ref).2.counters = st.counters := by
  cases ref with
  | none => exact ⟨rfl, rfl⟩
  | some ref =>
    by_cases h : ref.get st.pools = []
    · rw [drawName_empty rng st ref h]; exact ⟨rfl, rfl⟩
    · rw [drawName_nonempty rng st ref h]; exact ⟨rfl, rfl⟩

theorem drawName_other (rng : Nat → Nat) (st : RunState) (ref s : PoolRef) (hs : s ≠ ref) :
    s.get (drawName rng st (some ref)).2.pools = s.get st.pools := by
  by_cases h : ref.get st.pools = []
  · rw [drawName_empty rng st ref h]
  · rw [drawName_nonempty rng st ref h]
    exact PoolRef.get_set_ne hs _ _

/-- A draw from a non-empty vector: the name taken and the vector left make up the vector. -/
theorem drawName_perm (rng : Nat → Nat) (st : RunState) (ref : PoolRef)
    (h : ref.get st.pools ≠ []) :
    ((drawName rng st (some ref)).1 :: ref.get (drawName rng st (some ref)).2.pools).Perm
      (ref.get st.pools) := by
  rw [drawName_nonempty rng st ref h]
  simp only [PoolRef.get_set]
  exact swapRemove_perm _ _ (Nat.mod_lt _ (List.length_pos.2 h))

end Zoo

namespace Zoo

/-! ## Lemmas on the whole run -/

theorem readAnimalsFromFile_append (rng : Nat → Nat) :
    ∀ (l1 l2 : List String) (st : RunState),
      readAnimalsFromFile rng st (l1 ++ l2) =
        match readAnimalsFromFile rng st l1 with
        | .ok st1 => readAnimalsFromFile rng st1 l2
        | .error e => .error e
  | [], l2, st => rfl
  | line :: l1, l2, st => by
    simp only [List.cons_append, readAnimalsFromFile]
    cases processLine rng st line with
    | error e => rfl
    | ok st1 => exact readAnimalsFromFile_append rng l1 l2 st1

theorem pushAnimal_spec (st : RunState) (k : Kind) (n : String) (a : Int) (bs c g : String)
    (w : Nat) (o : String) :
    ∃ id cs, pushAnimal st k n a bs c g w o =
      { st with animals := st.animals ++ [⟨k, id, n, a, bs, c, g, w, o⟩], counters := cs } :=
  ⟨_, _, rfl⟩

theorem namesOf_append_same {k : Kind} {a : Animal} (h : a.kind = k) (l : List Animal) :
    namesOf k (l ++ [a]) = namesOf k l ++ [a.name] := by
  simp [namesOf, ofKind, List.filter_append, h]

theorem namesOf_append_other {k : Kind} {a : Animal} (h : a.kind ≠ k) (l : List Animal) :
    namesOf k (l ++ [a]) = namesOf k l := by
  simp [namesOf, ofKind, List.filter_append, h]

theorem ofKind_append_same {k : Kind} {a : Animal} (h : a.kind = k) (l : List Animal) :
    ofKind k (l ++ [a]) = ofKind k l ++ [a] := by
  simp [ofKind, List.filter_append, h]

theorem ofKind_append_other {k : Kind} {a : Animal} (h : a.kind ≠ k) (l : List Animal) :
    ofKind k (l ++ [a]) = ofKind k l := by
  simp [ofKind, List.filter_append, h]

/-- What a successful iteration does: nothing for a line of no class; for a line of class `k0`
one draw from the vector of `k0` and one record of class `k0` with the name drawn. -/
theorem processLine_ok {rng : Nat → Nat} {st st1 : RunState} {line : String}
    (h : processLine rng st line = .ok st1) :
    (lineKind line = none ∧ st1 = st) ∨
    ∃ k0 a, lineKind line = some k0 ∧ a.kind = k0
      ∧ a.name = (drawName rng st (some k0.pool)).1
      ∧ st1.animals = st.animals ++ [a]
      ∧ st1.pools = (drawName rng st (some k0.pool)).2.pools := by
  cases hk : lineKind line with
  | none =>
    rw [processLine_of_lineKind_none hk] at h
    exact Or.inl ⟨rfl, (Except.ok.inj h).symm⟩
  | some k0 =>
    obtain ⟨m, hm, htok⟩ := lineKind_eq_some hk
    unfold processLine at h
    rw [hm] at h
    simp only [processMatch_token rng st m k0 htok] at h
    cases hs : stoi (m.caps.getD 1 []) with
    | error e => rw [hs] at h; cases h
    | ok age =>
      rw [hs] at h
      cases hd : stod (m.caps.getD 6 []) with
      | error e => rw [hd] at h; cases h
      | ok weight =>
        rw [hd] at h
        simp only at h
        obtain ⟨id, cs, hp⟩ := pushAnimal_spec (drawName rng st (some k0.pool)).2 k0
          (drawName rng st (some k0.pool)).1 age (m.sub 4) (m.sub 5) (m.sub 2) weight (m.sub 7)
        rw [hp] at h
        have h1 := (Except.ok.inj h).symm
        refine Or.inr ⟨k0, ⟨k0, id, (drawName rng st (some k0.pool)).1, age, m.sub 4, m.sub 5,
          m.sub 2, weight, m.sub 7⟩, rfl, rfl, rfl, ?_, ?_⟩
        · rw [h1, (drawName_frame rng st _).1]
        · rw [h1]

theorem processLine_error {rng : Nat → Nat} {st stE : RunState} {line : String} {e : Exn}
    (h : processLine rng st line = .error (e, stE)) :
    stE.animals = st.animals ∧ stE.counters = st.counters := by
  cases hk : lineKind line with
  | none =>
    rw [processLine_of_lineKind_none hk] at h
    cases h
  | some k0 =>
    obtain ⟨m, hm, htok⟩ := lineKind_eq_some hk
    unfold processLine at h
    rw [hm] at h
    simp only [processMatch_token rng st m k0 htok] at h
    cases hs : stoi (m.caps.getD 1 []) with
    | error e1 =>
      rw [hs] at h
      simp only [Except.error.injEq, Prod.mk.injEq] at h
      rw [← h.2]
      exact drawName_frame rng st _
    | ok age =>
      rw [hs] at h
      cases hd : stod (m.caps.getD 6 []) with
      | error e1 =>
        rw [hd] at h
        simp only [Except.error.injEq, Prod.mk.injEq] at h
        rw [← h.2]
        exact drawName_frame rng st _
      | ok weight => rw [hd] at h; cases h

theorem NamesInv_processLine {P : Kind → List String} {rng : Nat → Nat} {st st1 : RunState}
    {line : String} (hinv : NamesInv P st) (h : processLine rng st line = .ok st1) :
    NamesInv P st1 := by
  rcases processLine_ok h with ⟨_, rfl⟩ | ⟨k0, a, _, hak, han, hanim, hpools⟩
  · exact hinv
  · intro k
    obtain ⟨drawn, u, hn, hperm, hu⟩ := hinv k
    by_cases hk : k = k0
    · subst hk
      by_cases hp : k.pool.get st.pools = []
      · refine ⟨drawn, u + 1, ?_, ?_, ?_⟩
        · rw [hanim, namesOf_append_same hak, hn, han, drawName_empty rng st _ hp,
            List.replicate_succ', List.append_assoc]
        · rw [hpools, drawName_empty rng st _ hp]
          exact hperm
        · intro _
          rw [hpools, drawName_empty rng st _ hp]
          exact hp
      · have hu0 : u = 0 := by
          by_contra hne
          exact hp (hu (Nat.pos_of_ne_zero hne))
        subst hu0
        refine ⟨drawn ++ [a.name], 0, ?_, ?_, ?_⟩
        · rw [hanim, namesOf_append_same hak, hn]
          simp
        · rw [hpools, han, List.append_assoc]
          exact (List.Perm.append_left drawn (drawName_perm rng st _ hp)).trans hperm
        · intro h0; exact absurd h0 (lt_irrefl 0)
    · have hak' : a.kind ≠ k := by rw [hak]; exact fun h => hk h.symm
      have hpool : k.pool ≠ k0.pool := fun h => hk (pool_injective h)
      refine ⟨drawn, u, ?_, ?_, ?_⟩
      · rw [hanim, namesOf_append_other hak', hn]
      · rw [hpools, drawName_other rng st _ _ hpool]
        exact hperm
      · rw [hpools, drawName_other rng st _ _ hpool]
        exact hu

theorem NamesInv_run {P : Kind → List String} {rng : Nat → Nat} :
    ∀ (lines : List String) (st st1 : RunState), NamesInv P st →
      readAnimalsFromFile rng st lines = .ok st1 → NamesInv P st1
  | [], st, st1, hinv, h => by
    simp only [readAnimalsFromFile, Except.ok.injEq] at h
    rw [← h]; exact hinv
  | line :: lines, st, st1, hinv, h => by
    simp only [readAnimalsFromFile] at h
    cases hp : processLine rng st line with
    | error e => rw [hp] at h; cases h
    | ok st2 =>
      rw [hp] at h
      exact NamesInv_run lines st2 st1 (NamesInv_processLine hinv hp) h

theorem NamesInv_start (pools : NamePools) :
    NamesInv (fun k => k.pool.get pools) (RunState.start pools) := by
  intro k
  exact ⟨[], 0, rfl, by simp [RunState.start], fun h => absurd h (lt_irrefl 0)⟩

/-- A run that throws processed a prefix of the lines normally and threw on the next line; the
animal vector is the one the prefix produced. -/
theorem run_error {rng : Nat → Nat} : ∀ (lines : List String) (st stE : RunState) (e : Exn),
    readAnimalsFromFile rng st lines = .error (e, stE) →
    ∃ pre line post st1, lines = pre ++ line :: post
      ∧ readAnimalsFromFile rng st pre = .ok st1
      ∧ processLine rng st1 line = .error (e, stE)
      ∧ stE.animals = st1.animals
  | [], st, stE, e, h => by simp [readAnimalsFromFile] at h
  | line :: lines, st, stE, e, h => by
    simp only [readAnimalsFromFile] at h
    cases hp : processLine rng st line with
    | error e1 =>
      rw [hp] at h
      simp only [Except.error.injEq] at h
      subst h
      exact ⟨[], line, lines, st, rfl, rfl, hp, (processLine_error hp).1⟩
    | ok st2 =>
      rw [hp] at h
      obtain ⟨pre, l, post, st1, hl, hpre, hpl, ha⟩ := run_error lines st2 stE e h
      refine ⟨line :: pre, l, post, st1, by rw [hl]; rfl, ?_, hpl, ha⟩
      simp only [readAnimalsFromFile, hp]
      exact hpre

/-- The naming invariant read on the names alone: with `K` names in the original vector, the
first `min n K` of the `n` names are the names drawn, the others are sentinels. -/
theorem NamesInv_shape {P : Kind → List String} {st : RunState} (hinv : NamesInv P st)
    (k : Kind) :
    ((namesOf k st.animals).take (min (namesOf k st.animals).length (P k).length)
        ++ k.pool.get st.pools).Perm (P k)
      ∧ (namesOf k st.animals).drop (min (namesOf k st.animals).length (P k).length)
          = List.replicate
              ((namesOf k st.animals).length - min (namesOf k st.animals).length (P k).length)
              "Unnamed" := by
  obtain ⟨drawn, u, hn, hperm, hu⟩ := hinv k
  have hlen := hperm.length_eq
  simp only [List.length_append] at hlen
  have hmin : min (namesOf k st.animals).length (P k).length = drawn.length := by
    rw [hn]
    simp only [List.length_append, List.length_replicate]
    rcases Nat.eq_zero_or_pos u with h0 | hpos
    · subst h0; simp; omega
    · have := hu hpos
      rw [this] at hlen
      simp only [List.length_nil] at hlen
      omega
  rw [hmin]
  constructor
  · rw [hn, List.take_left']
    · exact hperm
    · rfl
  · rw [hn, List.drop_left']
    · simp
    · rfl

/-- A line whose numeric fields can be converted is processed without exception. -/
theorem processLine_numericOk {line : String} (h : numericOk line = true) (rng : Nat → Nat)
    (st : RunState) : ∃ st1, processLine rng st line = .ok st1 := by
  unfold numericOk at h
  unfold processLine
  cases hm : regex_search rgx line.data with
  | none => exact ⟨st, rfl⟩
  | some m =>
    rw [hm] at h
    simp only [Bool.and_eq_true, decide_eq_true_eq] at h
    obtain ⟨k, hk⟩ := search_kind hm
    obtain ⟨⟨hA, hAd⟩, ⟨hW, hWd⟩⟩ := search_digits hm
    simp only [processMatch_token rng st m k hk, stoi_digits hA hAd, stod_digits hW hWd]
    have h1 : ¬ INT_MAX < (decimalValue (m.caps.getD 1 []) : Int) := by
      unfold INT_MAX; omega
    have h2 : ¬ DBL_OVERFLOW ≤ roundBinary64 (decimalValue (m.caps.getD 6 [])) := by omega
    rw [if_neg h1, if_neg h2]
    exact ⟨_, rfl⟩

/-- A matching line whose age or weight cannot be converted makes the iteration throw
`std::out_of_range`, after the name draw and before any record is built. -/
theorem processLine_numericBad {line : String} (h : numericOk line = false) (rng : Nat → Nat)
    (st : RunState) :
    ∃ k e, lineKind line = some k
      ∧ (e = Exn.out_of_range "stoi" ∨ e = Exn.out_of_range "stod")
      ∧ processLine rng st line = .error (e, (drawName rng st (some k.pool)).2) := by
  unfold numericOk at h
  cases hm : regex_search rgx line.data with
  | none => rw [hm] at h; cases h
  | some m =>
    rw [hm] at h
    obtain ⟨k, hk⟩ := search_kind hm
    obtain ⟨⟨hA, hAd⟩, ⟨hW, hWd⟩⟩ := search_digits hm
    have hkind : lineKind line = some k := by
      unfold lineKind
      rw [hm]
      simp only [hk, kindOfToken_token]
    unfold processLine
    rw [hm]
    simp only [processMatch_token rng st m k hk, stoi_digits hA hAd, stod_digits hW hWd]
    by_cases h1 : INT_MAX < (decimalValue (m.caps.getD 1 []) : Int)
    · rw [if_pos h1]
      exact ⟨k, _, hkind, Or.inl rfl, rfl⟩
    · rw [if_neg h1]
      have h2 : DBL_OVERFLOW ≤ roundBinary64 (decimalValue (m.caps.getD 6 [])) := by
        by_contra hlt
        have h1' : decimalValue (m.caps.getD 1 []) ≤ 2147483647 := by
          unfold INT_MAX at h1; omega
        simp only [Bool.and_eq_false_imp, decide_eq_true_eq, decide_eq_false_iff_not] at h
        exact h h1' (Nat.lt_of_not_le hlt)
      rw [if_pos h2]
      exact ⟨k, _, hkind, Or.inr rfl, rfl⟩

theorem run_ok_of_numericOk (rng : Nat → Nat) : ∀ (lines : List String) (st : RunState),
    (∀ l ∈ lines, numericOk l = true) → ∃ st1, readAnimalsFromFile rng st lines = .ok st1
  | [], st, _ => ⟨st, rfl⟩
  | line :: lines, st, h => by
    obtain ⟨st2, h2⟩ := processLine_numericOk (h line (List.mem_cons_self _ _)) rng st
    obtain ⟨st1, h1⟩ := run_ok_of_numericOk rng lines st2
      (fun l hl => h l (List.mem_cons_of_mem _ hl))
    exact ⟨st1, by simp only [readAnimalsFromFile, h2]; exact h1⟩

/-- A run that returns built one record of class `k` for each line of class `k`. -/
theorem run_count {rng : Nat → Nat} (k : Kind) : ∀ (lines : List String) (st st1 : RunState),
    readAnimalsFromFile rng st lines = .ok st1 →
    (ofKind k st1.animals).length =
      (ofKind k st.animals).length
        + (lines.filter (fun l => decide (lineKind l = some k))).length
  | [], st, st1, h => by
    simp only [readAnimalsFromFile, Except.ok.injEq] at h
    rw [← h]; simp
  | line :: lines, st, st1, h => by
    simp only [readAnimalsFromFile] at h
    cases hp : processLine rng st line with
    | error e => rw [hp] at h; cases h
    | ok st2 =>
      rw [hp] at h
      rw [run_count k lines st2 st1 h]
      rcases processLine_ok hp with ⟨hk, rfl⟩ | ⟨k0, a, hk, hak, _, hanim, _⟩
      · simp [hk]
      · rw [hanim]
        by_cases hkk : k0 = k
        · subst hkk
          rw [ofKind_append_same hak]
          simp [hk]; omega
        · have hak' : a.kind ≠ k := by rw [hak]; exact hkk
          rw [ofKind_append_other hak']
          simp [hk, hkk]

end Zoo

namespace Zoo

/-! ## Lemmas on the records and on the vectors a run leaves behind -/

/-- A successful iteration in detail: either nothing changed, or the line matched and one record
was appended whose fields are the converted sub-matches. -/
theorem processLine_ok_detail {rng : Nat → Nat} {st st1 : RunState} {line : String}
    (h : processLine rng st line = .ok st1) :
    st1 = st ∨
    ∃ (k0 : Kind) (m : MState) (id : String) (age : Int) (weight : Nat),
      regex_search rgx line.data = some m
      ∧ stoi (m.caps.getD 1 []) = .ok age ∧ stod (m.caps.getD 6 []) = .ok weight
      ∧ st1.animals = st.animals ++
          [⟨k0, id, (drawName rng st (some k0.pool)).1, age, m.sub 4, m.sub 5, m.sub 2, weight,
            m.sub 7⟩] := by
  cases hk : lineKind line with
  | none =>
    rw [processLine_of_lineKind_none hk] at h
    exact Or.inl (Except.ok.inj h).symm
  | some k0 =>
    obtain ⟨m, hm, htok⟩ := lineKind_eq_some hk
    unfold processLine at h
    rw [hm] at h
    simp only [processMatch_token rng st m k0 htok] at h
    cases hs : stoi (m.caps.getD 1 []) with
    | error e => rw [hs] at h; cases h
    | ok age =>
      rw [hs] at h
      cases hd : stod (m.caps.getD 6 []) with
      | error e => rw [hd] at h; cases h
      | ok weight =>
        rw [hd] at h
        simp only at h
        obtain ⟨id, cs, hp⟩ := pushAnimal_spec (drawName rng st (some k0.pool)).2 k0
          (drawName rng st (some k0.pool)).1 age (m.sub 4) (m.sub 5) (m.sub 2) weight (m.sub 7)
        rw [hp] at h
        have h1 := (Except.ok.inj h).symm
        refine Or.inr ⟨k0, m, id, age, weight, hm, hs, hd, ?_⟩
        rw [h1, (drawName_frame rng st _).1]

theorem getSpecies_mem (a : Animal) : a.getSpecies ∈ ["Hyena", "Lion", "Tiger", "Bear"] := by
  unfold Animal.getSpecies
  cases a.kind <;> decide

/-- The record a successful iteration appends satisfies the data model. -/
theorem processLine_ok_dataModel {rng : Nat → Nat} {st st1 : RunState} {line : String}
    (h : processLine rng st line = .ok st1) :
    ∃ app : List Animal, st1.animals = st.animals ++ app ∧ ∀ a ∈ app, satisfiesDataModel a := by
  rcases processLine_ok_detail h with rfl | ⟨k0, m, id, age, weight, hm, hs, hd, hanim⟩
  · exact ⟨[], by simp, by simp⟩
  · refine ⟨_, hanim, ?_⟩
    intro a ha
    rw [List.mem_singleton] at ha
    subst ha
    obtain ⟨_, A, G, SP, SE, C, W, O, _, hA, _, _, hSE, _, hW, _, hc⟩ :=
      regex_search_sound line.data m hm
    obtain ⟨hAne, hAd⟩ := Lang_plus_cls hA
    obtain ⟨hWne, hWd⟩ := Lang_plus_cls hW
    have h1 : m.caps.getD 1 [] = A := by rw [hc]; rfl
    have h6 : m.caps.getD 6 [] = W := by rw [hc]; rfl
    have h4 : m.sub 4 = String.mk SE := by simp [MState.sub, hc]
    rw [h1, stoi_digits hAne hAd] at hs
    rw [h6, stod_digits hWne hWd] at hd
    refine ⟨getSpecies_mem _, ?_, ?_, ?_, Nat.zero_le _, ?_⟩
    · show m.sub 4 ∈ _
      rw [h4]
      rcases Lang_reSeason hSE with rfl | rfl | rfl | rfl | rfl <;> decide
    · show 0 ≤ age
      split_ifs at hs with hlt
      have := Except.ok.inj hs
      omega
    · show age ≤ 2147483647
      split_ifs at hs with hlt
      have := Except.ok.inj hs
      unfold INT_MAX at hlt
      omega
    · show weight < DBL_OVERFLOW
      split_ifs at hd with hlt
      have := Except.ok.inj hd
      omega

theorem run_ok_dataModel {rng : Nat → Nat} : ∀ (lines : List String) (st st1 : RunState),
    readAnimalsFromFile rng st lines = .ok st1 →
    ∃ app : List Animal, st1.animals = st.animals ++ app ∧ ∀ a ∈ app, satisfiesDataModel a
  | [], st, st1, h => by
    simp only [readAnimalsFromFile, Except.ok.injEq] at h
    exact ⟨[], by rw [← h]; simp, by simp⟩
  | line :: lines, st, st1, h => by
    simp only [readAnimalsFromFile] at h
    cases hp : processLine rng st line with
    | error e => rw [hp] at h; cases h
    | ok st2 =>
      rw [hp] at h
      obtain ⟨app1, h1, hwf1⟩ := processLine_ok_dataModel hp
      obtain ⟨app2, h2, hwf2⟩ := run_ok_dataModel lines st2 st1 h
      refine ⟨app1 ++ app2, by rw [h2, h1, List.append_assoc], ?_⟩
      intro a ha
      rcases List.mem_append.1 ha with ha | ha
      · exact hwf1 a ha
      · exact hwf2 a ha

/-- A draw never adds a name to a vector. -/
theorem drawName_subset (rng : Nat → Nat) (st : RunState) (ref r : PoolRef) (x : String)
    (hx : x ∈ r.get (drawName rng st (some ref)).2.pools) : x ∈ r.get st.pools := by
  by_cases hr : r = ref
  · subst hr
    by_cases hp : r.get st.pools = []
    · rw [drawName_empty rng st r hp] at hx
      exact hx
    · exact (drawName_perm rng st r hp).subset (List.mem_cons_of_mem _ hx)
  · rw [drawName_other rng st ref r hr] at hx
    exact hx

/-- The state an iteration throws in is the state right after its name draw. -/
theorem processLine_error_state {rng : Nat → Nat} {st stE : RunState} {line : String} {e : Exn}
    (h : processLine rng st line = .error (e, stE)) :
    ∃ k0 : Kind, stE = (drawName rng st (some k0.pool)).2 := by
  cases hk : lineKind line with
  | none =>
    rw [processLine_of_lineKind_none hk] at h
    cases h
  | some k0 =>
    obtain ⟨m, hm, htok⟩ := lineKind_eq_some hk
    unfold processLine at h
    rw [hm] at h
    simp only [processMatch_token rng st m k0 htok] at h
    cases hs : stoi (m.caps.getD 1 []) with
    | error e1 =>
      rw [hs] at h
      simp only [Except.error.injEq, Prod.mk.injEq] at h
      exact ⟨k0, h.2.symm⟩
    | ok age =>
      rw [hs] at h
      cases hd : stod (m.caps.getD 6 []) with
      | error e1 =>
        rw [hd] at h
        simp only [Except.error.injEq, Prod.mk.injEq] at h
        exact ⟨k0, h.2.symm⟩
      | ok weight => rw [hd] at h; cases h

/-- The names of the records of a class and the vector of the class when the run is left, by
return or by exception: names drawn, then sentinels; the names drawn together with a list `left`
make up the original vector, and the final vector holds names of `left` only. -/
theorem finalState_names (rng : Nat → Nat) (pools : NamePools) (lines : List String)
    (k : Kind) :
    ∃ (drawn : List String) (u : Nat) (left : List String),
      runNames rng pools lines k = drawn ++ List.replicate u "Unnamed"
      ∧ (drawn ++ left).Perm (k.pool.get pools)
      ∧ ∀ x ∈ k.pool.get (finalState (readAnimalsFromFile rng (RunState.start pools) lines)).pools,
          x ∈ left := by
  unfold runNames
  cases hr : readAnimalsFromFile rng (RunState.start pools) lines with
  | ok st =>
    obtain ⟨drawn, u, hn, hperm, _⟩ := NamesInv_run lines _ st (NamesInv_start pools) hr k
    exact ⟨drawn, u, _, hn, hperm, fun x hx => hx⟩
  | error e =>
    obtain ⟨e, stE⟩ := e
    obtain ⟨pre, line, post, st1, _, hpre, hline, ha⟩ := run_error lines _ stE e hr
    obtain ⟨drawn, u, hn, hperm, _⟩ := NamesInv_run pre _ st1 (NamesInv_start pools) hpre k
    obtain ⟨k0, hE⟩ := processLine_error_state hline
    refine ⟨drawn, u, k.pool.get st1.pools, ?_, hperm, ?_⟩
    · simp only [finalState, ha]
      exact hn
    · intro x hx
      simp only [finalState] at hx
      rw [hE] at hx
      exact drawName_subset rng st1 _ _ x hx

end Zoo
namespace Zoo

/-! ## Lemmas on the text of a weight and on the place of the weight in a line -/

theorem toDigitsCore_length_bounds (fuel : Nat) : ∀ (n : Nat) (ds : List Char), n < fuel →
    0 < n → ∃ k, (Nat.toDigitsCore 10 fuel n ds).length = k + 1 + ds.length
      ∧ 10 ^ k ≤ n ∧ n < 10 ^ (k + 1) := by
  induction fuel with
  | zero => intro n ds h; omega
  | succ fuel ih =>
    intro n ds h hpos
    unfold Nat.toDigitsCore
    simp only
    split
    · rename_i h0
      refine ⟨0, by simp [Nat.add_comm], by simpa using hpos, ?_⟩
      simp only [zero_add, pow_one]
      omega
    · rename_i h0
      obtain ⟨k, hl, hlo, hhi⟩ :=
        ih (n / 10) (Nat.digitChar (n % 10) :: ds) (by omega) (by omega)
      refine ⟨k + 1, ?_, ?_, ?_⟩
      · rw [hl]
        simp only [List.length_cons]
        omega
      · rw [pow_succ]
        omega
      · rw [pow_succ]
        omega

theorem isDigit_digitChar {k : Nat} (h : k < 10) : Char.isDigit (Nat.digitChar k) = true := by
  interval_cases k <;> rfl

theorem toDigitsCore_isDigit (fuel : Nat) : ∀ (n : Nat) (ds : List Char),
    (∀ c ∈ ds, Char.isDigit c = true) →
    ∀ c ∈ Nat.toDigitsCore 10 fuel n ds, Char.isDigit c = true := by
  induction fuel with
  | zero => intro n ds h; simpa [Nat.toDigitsCore] using h
  | succ fuel ih =>
    intro n ds h
    have hcons : ∀ c ∈ Nat.digitChar (n % 10) :: ds, Char.isDigit c = true := by
      intro c hc
      rcases List.mem_cons.1 hc with rfl | hc
      · exact isDigit_digitChar (Nat.mod_lt _ (by norm_num))
      · exact h c hc
    unfold Nat.toDigitsCore
    simp only
    split
    · exact hcons
    · exact ih _ _ hcons

/-- The decimal text of a natural number holds digits only. -/
theorem toString_isDigit (n : Nat) : ∀ c ∈ (toString n).data, Char.isDigit c = true := by
  show ∀ c ∈ Nat.toDigits 10 n, Char.isDigit c = true
  exact toDigitsCore_isDigit _ _ _ (by simp)

/-- The text of scientific notation is not the decimal text of a number: it holds the letter e. -/
theorem scientific_ne_toString (m e v : Nat) : scientific m e ≠ toString v := by
  intro h
  have hmem : 'e' ∈ (scientific m e).data := by
    simp [scientific, String.data_append]
  rw [h] at hmem
  have := toString_isDigit v 'e' hmem
  revert this
  decide

/-- The text of a weight of one million or more: scientific notation whose six-digit mantissa is
the weight rounded to six significant digits. -/
theorem ostreamDouble_large (v : Nat) (hv : 1000000 ≤ v) :
    ∃ m e, 100000 ≤ m ∧ m < 1000000 ∧ 6 ≤ e
      ∧ 2 * v ≤ 2 * (m * 10 ^ (e - 5)) + 10 ^ (e - 5)
      ∧ 2 * (m * 10 ^ (e - 5)) ≤ 2 * v + 10 ^ (e - 5)
      ∧ ostreamDouble v = scientific m e := by
  obtain ⟨k, hl, hlo, hhi⟩ := toDigitsCore_length_bounds (v + 1) v [] (by omega) (by omega)
  have hnd : (Nat.toDigits 10 v).length = k + 1 := by simpa [Nat.toDigits] using hl
  have hk : 6 ≤ k := by
    by_contra hc
    have h6 : 10 ^ (k + 1) ≤ 10 ^ 6 := Nat.pow_le_pow_right (by norm_num) (by omega)
    norm_num at h6
    omega
  obtain ⟨j, rfl⟩ : ∃ j, k = j + 6 := ⟨k - 6, by omega⟩
  have hSpos : 0 < 10 ^ (j + 1) := pow_pos (by norm_num) _
  have h1 : 10 ^ (j + 6) = 100000 * 10 ^ (j + 1) := by
    rw [show j + 6 = 5 + (j + 1) by omega, pow_add]
    norm_num
  have h2 : 10 ^ (j + 6 + 1) = 1000000 * 10 ^ (j + 1) := by
    rw [show j + 6 + 1 = 6 + (j + 1) by omega, pow_add]
    norm_num
  have h3 : 10 ^ (j + 2) = 10 * 10 ^ (j + 1) := by
    rw [show j + 2 = 1 + (j + 1) by omega, pow_add]
    norm_num
  have hq_lo : 100000 ≤ v / 10 ^ (j + 1) := (Nat.le_div_iff_mul_le hSpos).2 (by omega)
  have hq_hi : v / 10 ^ (j + 1) < 1000000 := (Nat.div_lt_iff_lt_mul hSpos).2 (by omega)
  have hdm := Nat.div_add_mod v (10 ^ (j + 1))
  have hr := Nat.mod_lt v hSpos
  have hform : ∀ m e : Nat, String.mk
      (match Nat.toDigits 10 m with
        | [] => []
        | d :: ds =>
          match stripTrailingZeros ds with
          | [] => [d]
          | f :: fs => d :: '.' :: f :: fs) ++ "e+" ++ (if e < 10 then "0" else "") ++ toString e
      = scientific m e := by
    intro m e
    unfold scientific
    show _ = String.mk (List.take 1 (Nat.toDigits 10 m) ++
      (if (stripTrailingZeros (Nat.toDigits 10 m).tail).isEmpty then []
       else '.' :: stripTrailingZeros (Nat.toDigits 10 m).tail)) ++ "e+"
        ++ (if e < 10 then "0" else "") ++ toString e
    cases Nat.toDigits 10 m with
    | nil => rfl
    | cons d ds =>
      simp only [List.tail_cons]
      cases stripTrailingZeros ds with
      | nil => rfl
      | cons f fs => rfl
  have hunf : ostreamDouble v =
      scientific
        (if (if 2 * (v % 10 ^ (j + 1)) > 10 ^ (j + 1)
              ∨ (2 * (v % 10 ^ (j + 1)) = 10 ^ (j + 1) ∧ v / 10 ^ (j + 1) % 2 = 1)
            then v / 10 ^ (j + 1) + 1 else v / 10 ^ (j + 1)) = 1000000 then 100000
         else (if 2 * (v % 10 ^ (j + 1)) > 10 ^ (j + 1)
              ∨ (2 * (v % 10 ^ (j + 1)) = 10 ^ (j + 1) ∧ v / 10 ^ (j + 1) % 2 = 1)
            then v / 10 ^ (j + 1) + 1 else v / 10 ^ (j + 1)))
        (if (if 2 * (v % 10 ^ (j + 1)) > 10 ^ (j + 1)
              ∨ (2 * (v % 10 ^ (j + 1)) = 10 ^ (j + 1) ∧ v / 10 ^ (j + 1) % 2 = 1)
            then v / 10 ^ (j + 1) + 1 else v / 10 ^ (j + 1)) = 1000000 then j + 6 + 1
         else j + 6) := by
    rw [← hform]
    unfold ostreamDouble
    rw [if_neg (by omega), hnd]
    rfl
  rw [hunf]
  generalize hS : 10 ^ (j + 1) = S at *
  generalize hq : v / S = q at *
  generalize hrr : v % S = r at *
  have hP : S * q + r = v := hdm
  generalize hPP : S * q = P at *
  by_cases hup : 2 * r > S ∨ (2 * r = S ∧ q % 2 = 1)
  · rw [if_pos hup]
    have hr2 : S ≤ 2 * r := by
      rcases hup with h | h
      · omega
      · omega
    by_cases hc : q + 1 = 1000000
    · rw [if_pos hc, if_pos hc]
      refine ⟨100000, j + 6 + 1, by norm_num, by norm_num, by omega, ?_, ?_, rfl⟩
      · rw [show j + 6 + 1 - 5 = j + 2 by omega, h3]
        omega
      · rw [show j + 6 + 1 - 5 = j + 2 by omega, h3]
        have : S * (q + 1) = P + S := by rw [Nat.mul_add, hPP, Nat.mul_one]
        rw [hc] at this
        omega
    · rw [if_neg hc, if_neg hc]
      refine ⟨q + 1, j + 6, by omega, by omega, by omega, ?_, ?_, rfl⟩
      · rw [show j + 6 - 5 = j + 1 by omega, hS]
        have : (q + 1) * S = P + S := by rw [Nat.add_mul, Nat.mul_comm, hPP, Nat.one_mul]
        omega
      · rw [show j + 6 - 5 = j + 1 by omega, hS]
        have : (q + 1) * S = P + S := by rw [Nat.add_mul, Nat.mul_comm, hPP, Nat.one_mul]
        omega
  · rw [if_neg hup]
    have hr2 : 2 * r ≤ S := by
      by_contra hcon
      exact hup (Or.inl (by omega))
    have hc : ¬ q = 1000000 := by omega
    rw [if_neg hc, if_neg hc]
    refine ⟨q, j + 6, hq_lo, hq_hi, by omega, ?_, ?_, rfl⟩
    · rw [show j + 6 - 5 = j + 1 by omega, hS]
      have : q * S = P := by rw [Nat.mul_comm, hPP]
      omega
    · rw [show j + 6 - 5 = j + 1 by omega, hS]
      have : q * S = P := by rw [Nat.mul_comm, hPP]
      omega

end Zoo

namespace Zoo

/-! ## Lemmas on `readNamesFromFile` -/

theorem trimLine_eq (line : String) : trimLine line = withoutTrailingBlanks line := by
  have hp : (fun c : Char => " \n\r\t".data.contains c)
      = (fun c : Char => [' ', '\t', '\r', '\n'].contains c) := by
    funext c
    have h1 : " \n\r\t".data = [' ', '\n', '\r', '\t'] := rfl
    rw [h1]
    simp only [List.contains_eq_any_beq, List.any_cons, List.any_nil, Bool.or_false]
    cases (c == ' ') <;> cases (c == '\t') <;> cases (c == '\r') <;> cases (c == '\n') <;> rfl
  unfold trimLine withoutTrailingBlanks find_last_not_of
  rw [hp]
  have hsplit : line.data =
      (line.data.reverse.dropWhile (fun c => [' ', '\t', '\r', '\n'].contains c)).reverse
        ++ (line.data.reverse.takeWhile (fun c => [' ', '\t', '\r', '\n'].contains c)).reverse := by
    rw [← List.reverse_append, List.takeWhile_append_dropWhile, List.reverse_reverse]
  generalize hD : line.data.reverse.dropWhile (fun c => [' ', '\t', '\r', '\n'].contains c) = D
    at hsplit ⊢
  cases hlen : D.length with
  | zero =>
    have : D = [] := List.length_eq_zero.1 hlen
    simp [this]
  | succ n =>
    simp only
    rw [hsplit, ← hlen, ← List.length_reverse D, List.take_left']
    rfl

theorem hasNamesColon_of_empty {line : String} (h : line.data = []) :
    hasNamesColon line = false := by
  unfold hasNamesColon
  rw [h]
  rfl

theorem find_nil_ne {needle : List Char} (h : needle ≠ []) : find [] needle = none := by
  cases needle with
  | nil => exact absurd rfl h
  | cons c cs => rfl

theorem headerKind_of_not_colon {line : String} (h : hasNamesColon line = false) :
    headerKind line = none := by
  simp [headerKind, h]

theorem ownerOf_snoc (pre : List String) (line : String) :
    ownerOf (pre ++ [line]) = (headerKind line).or (ownerOf pre) := by
  simp [ownerOf, List.reverse_append, List.findSome?_cons]
  cases headerKind line <;> rfl

theorem speciesTag_cases (o : Option Kind) :
    (o = none ∧ speciesTag o = "") ∨ (o = some .Hyena ∧ speciesTag o = "Hyena")
      ∨ (o = some .Lion ∧ speciesTag o = "Lion") ∨ (o = some .Bear ∧ speciesTag o = "Bear")
      ∨ (o = some .Tiger ∧ speciesTag o = "Tiger") := by
  rcases o with _ | k
  · exact Or.inl ⟨rfl, rfl⟩
  · cases k
    · exact Or.inr (Or.inl ⟨rfl, rfl⟩)
    · exact Or.inr (Or.inr (Or.inl ⟨rfl, rfl⟩))
    · exact Or.inr (Or.inr (Or.inr (Or.inl ⟨rfl, rfl⟩)))
    · exact Or.inr (Or.inr (Or.inr (Or.inr ⟨rfl, rfl⟩)))

/-- One iteration of the names loop, seen from the section assignment `o` that
`currentSpecies` stands for: a header names the new section, a name line is appended, without
its trailing blanks, to the vector of the section. -/
theorem namesLine_step (st : NamesState) (line : String) (o : Option Kind)
    (h : st.currentSpecies = speciesTag o) :
    (namesLine st line).currentSpecies = speciesTag ((headerKind line).or o)
      ∧ ∀ k : Kind, k.pool.get (namesLine st line).pools =
          k.pool.get st.pools
            ++ (if isNameLine line = true ∧ o = some k then [withoutTrailingBlanks line]
                else []) := by
  by_cases he : line.data = []
  · have hc := hasNamesColon_of_empty he
    have hk : headerKind line = none := headerKind_of_not_colon hc
    have hn : isNameLine line = false := by simp [isNameLine, he]
    have hst : namesLine st line = st := by
      unfold namesLine
      rw [he]
      rfl
    rw [hst, hk, hn]
    exact ⟨by rw [h]; rfl, fun k => by simp⟩
  · by_cases hc : hasNamesColon line = true
    · have hn : isNameLine line = false := by simp [isNameLine, hc]
      have hc' : (find line.data "Names:".data).isSome = true := hc
      rw [hn]
      unfold namesLine headerKind
      rw [hc', hc, Bool.or_true, if_pos rfl, if_pos rfl]
      by_cases h1 : (find line.data "Hyena Names".data).isSome = true
      · rw [if_pos h1, if_pos h1]
        exact ⟨rfl, fun k => by simp⟩
      · rw [if_neg h1, if_neg h1]
        by_cases h2 : (find line.data "Lion Names".data).isSome = true
        · rw [if_pos h2, if_pos h2]
          exact ⟨rfl, fun k => by simp⟩
        · rw [if_neg h2, if_neg h2]
          by_cases h3 : (find line.data "Bear Names".data).isSome = true
          · rw [if_pos h3, if_pos h3]
            exact ⟨rfl, fun k => by simp⟩
          · rw [if_neg h3, if_neg h3]
            by_cases h4 : (find line.data "Tiger Names".data).isSome = true
            · rw [if_pos h4, if_pos h4]
              exact ⟨rfl, fun k => by simp⟩
            · rw [if_neg h4, if_neg h4]
              exact ⟨by rw [h]; rfl, fun k => by simp⟩
    · have hcf : hasNamesColon line = false := by simpa using hc
      have hcf' : (find line.data "Names:".data).isSome = false := hcf
      have hk : headerKind line = none := headerKind_of_not_colon hcf
      have hn : isNameLine line = true := by simp [isNameLine, he, hcf]
      have hemp : line.data.isEmpty = false := by
        cases hd : line.data with
        | nil => exact absurd hd he
        | cons c cs => rfl
      rw [hk, hn]
      unfold namesLine
      rw [hemp, hcf', Bool.or_false, if_neg (by decide), trimLine_eq]
      rcases speciesTag_cases o with ⟨ho, ht⟩ | ⟨ho, ht⟩ | ⟨ho, ht⟩ | ⟨ho, ht⟩ | ⟨ho, ht⟩ <;>
      · have hcur := h.trans ht
        subst ho
        refine ⟨?_, fun k => ?_⟩
        · simp [hcur, speciesTag, Kind.species]
        · cases k <;> simp [hcur, PoolRef.get, Kind.pool]

theorem readNamesLoop_append : ∀ (a b : List String) (st : NamesState),
    readNamesLoop st (a ++ b) = readNamesLoop (readNamesLoop st a) b
  | [], _, _ => rfl
  | l :: a, b, st => by
    simp only [List.cons_append, readNamesLoop]
    exact readNamesLoop_append a b _

/-- The names loop run after the lines `pre`: `currentSpecies` follows the last recognised
header, and each vector receives the names of its sections. -/
theorem readNamesLoop_spec (k : Kind) : ∀ (post pre : List String) (st : NamesState),
    st.currentSpecies = speciesTag (ownerOf pre) →
    (readNamesLoop st post).currentSpecies = speciesTag (ownerOf (pre ++ post))
      ∧ k.pool.get (readNamesLoop st post).pools =
        k.pool.get st.pools ++
          ((post.inits.map (fun t => pre ++ t)).zip post).filterMap (fun p =>
            if isNameLine p.2 = true ∧ ownerOf p.1 = some k
            then some (withoutTrailingBlanks p.2) else none)
  | [], pre, st, h => by simp [readNamesLoop, h]
  | l :: ls, pre, st, h => by
    obtain ⟨h1, h2⟩ := namesLine_step st l (ownerOf pre) h
    rw [← ownerOf_snoc] at h1
    obtain ⟨ih1, ih2⟩ := readNamesLoop_spec k ls (pre ++ [l]) (namesLine st l) h1
    constructor
    · simp only [readNamesLoop]
      rw [ih1]
      simp
    · simp only [readNamesLoop]
      rw [ih2, h2 k, List.inits_cons]
      simp only [List.map_cons, List.map_map, List.zip_cons_cons, List.filterMap_cons,
        List.append_nil, List.append_assoc]
      have hmap : (List.map (fun t => pre ++ ([l] ++ t)) ls.inits)
          = List.map ((fun t => pre ++ t) ∘ fun t => l :: t) ls.inits := rfl
      rw [hmap]
      by_cases hc : isNameLine l = true ∧ ownerOf pre = some k
      · simp [hc]
      · simp [hc]

/-- The vectors `readNamesFromFile` returns: what was handed in followed by the names of the
sections, a section running from a recognised header to the next recognised header. -/
theorem readNamesFromFile_spec (pools : NamePools) (lines : List String) (k : Kind) :
    k.pool.get (readNamesFromFile pools lines) =
      k.pool.get pools ++ sectionNames ownerOf k lines := by
  have h := (readNamesLoop_spec k lines [] ⟨"", pools⟩ rfl).2
  simp only [List.nil_append, List.map_id'] at h
  exact h

theorem namesLine_unrecognised (st : NamesState) (h : String)
    (hcolon : hasNamesColon h = true) (hnone : headerKind h = none) : namesLine st h = st := by
  have hc' : (find h.data "Names:".data).isSome = true := hcolon
  unfold headerKind at hnone
  rw [hcolon, if_pos rfl] at hnone
  unfold namesLine
  rw [hc', Bool.or_true, if_pos rfl]
  by_cases h1 : (find h.data "Hyena Names".data).isSome = true
  · rw [if_pos h1] at hnone; cases hnone
  · rw [if_neg h1] at hnone ⊢
    by_cases h2 : (find h.data "Lion Names".data).isSome = true
    · rw [if_pos h2] at hnone; cases hnone
    · rw [if_neg h2] at hnone ⊢
      by_cases h3 : (find h.data "Bear Names".data).isSome = true
      · rw [if_pos h3] at hnone; cases hnone
      · rw [if_neg h3] at hnone ⊢
        by_cases h4 : (find h.data "Tiger Names".data).isSome = true
        · rw [if_pos h4] at hnone; cases hnone
        · rw [if_neg h4]

theorem headerKind_of_nameLine {n : String} (h : isNameLine n = true) : headerKind n = none := by
  apply headerKind_of_not_colon
  simp only [isNameLine, Bool.and_eq_true, Bool.not_eq_true'] at h
  exact h.2

/-- A run of name lines: `currentSpecies` stays, the vector of the current section receives the
names without their trailing blanks, the other vectors nothing. -/
theorem readNamesLoop_names (o : Option Kind) : ∀ (names : List String) (st : NamesState),
    st.currentSpecies = speciesTag o → (∀ n ∈ names, isNameLine n = true) →
    (readNamesLoop st names).currentSpecies = speciesTag o
      ∧ ∀ k : Kind, k.pool.get (readNamesLoop st names).pools =
          k.pool.get st.pools ++ (if o = some k then names.map withoutTrailingBlanks else [])
  | [], st, h, _ => ⟨h, fun k => by simp [readNamesLoop]⟩
  | n :: names, st, h, hn => by
    have hnl := hn n (List.mem_cons_self _ _)
    obtain ⟨h1, h2⟩ := namesLine_step st n o h
    rw [headerKind_of_nameLine hnl] at h1
    have h1' : (namesLine st n).currentSpecies = speciesTag o := by
      rw [h1]; cases o <;> rfl
    obtain ⟨ih1, ih2⟩ := readNamesLoop_names o names (namesLine st n) h1'
      (fun x hx => hn x (List.mem_cons_of_mem _ hx))
    refine ⟨by simpa only [readNamesLoop] using ih1, fun k => ?_⟩
    simp only [readNamesLoop]
    rw [ih2 k, h2 k, hnl]
    by_cases hk : o = some k
    · simp [hk]
    · simp [hk]

theorem pools_ext {p q : NamePools} (h : ∀ k : Kind, k.pool.get p = k.pool.get q) : p = q := by
  rcases p with ⟨a1, a2, a3, a4⟩
  rcases q with ⟨b1, b2, b3, b4⟩
  have h1 := h .Hyena
  have h2 := h .Lion
  have h3 := h .Bear
  have h4 := h .Tiger
  simp only [Kind.pool, PoolRef.get] at h1 h2 h3 h4
  rw [h1, h2, h3, h4]

theorem readNamesLoop_currentSpecies (pools : NamePools) (pre : List String) :
    (readNamesLoop ⟨"", pools⟩ pre).currentSpecies = speciesTag (ownerOf pre) := by
  have := (readNamesLoop_spec .Hyena pre [] ⟨"", pools⟩ rfl).1
  simpa using this

/-- When every line containing "Names:" names one of the four species, the two section
assignments agree. -/
theorem ownerOf_eq_sectionOf (pre : List String)
    (h : ∀ l ∈ pre, hasNamesColon l = true → headerKind l ≠ none) :
    ownerOf pre = sectionOf pre := by
  unfold ownerOf sectionOf
  have key : ∀ L : List String, (∀ l ∈ L, hasNamesColon l = true → headerKind l ≠ none) →
      L.findSome? headerKind =
        (match L.find? hasNamesColon with
          | none => none
          | some h => headerKind h) := by
    intro L
    induction L with
    | nil => intro _; rfl
    | cons x L ih =>
      intro hx
      by_cases hc : hasNamesColon x = true
      · have hk := hx x (List.mem_cons_self _ _) hc
        obtain ⟨k, hk'⟩ := Option.ne_none_iff_exists'.1 hk
        simp [List.findSome?_cons, List.find?_cons, hc, hk']
      · have hcf : hasNamesColon x = false := by simpa using hc
        simp only [List.findSome?_cons, List.find?_cons, headerKind_of_not_colon hcf, hcf]
        exact ih (fun l hl => hx l (List.mem_cons_of_mem _ hl))
  exact key pre.reverse (fun l hl => h l (List.mem_reverse.1 hl))

theorem sectionNames_congr (k : Kind) (lines : List String)
    (h : ∀ l ∈ lines, hasNamesColon l = true → headerKind l ≠ none) :
    sectionNames ownerOf k lines = sectionNames sectionOf k lines := by
  unfold sectionNames
  apply List.filterMap_congr
  intro p hp
  have hpre : p.1 ∈ lines.inits := (List.of_mem_zip hp).1
  have hpfx := (List.mem_inits _ _).1 hpre
  rw [ownerOf_eq_sectionOf p.1 (fun l hl => h l (hpfx.subset hl))]

/-- An empty line and a line containing "Names:" add nothing to any vector. -/
theorem namesLine_header_pools (st : NamesState) (line : String)
    (h : line.data = [] ∨ hasNamesColon line = true) : (namesLine st line).pools = st.pools := by
  have hcond : (line.data.isEmpty || (find line.data "Names:".data).isSome) = true := by
    rcases h with he | hc
    · rw [he]; rfl
    · have hc' : (find line.data "Names:".data).isSome = true := hc
      rw [hc', Bool.or_true]
  unfold namesLine
  rw [if_pos hcond]
  split_ifs <;> rfl

end Zoo

namespace Zoo

/-! ## The report: identifiers, birth dates, layout -/

/-- C1: in the report of a collection (of fewer than 2^31 records, the range of the `int`
counters) the record lines under each species header carry, in order, the identifiers
`<prefix>1, <prefix>2, ..., <prefix>N` with prefix Hy, Li, Ti, Be and N the number of records of
that species; these identifiers are pairwise different. -/
theorem C1_report_ids_sequential (currentYear : Int) (animals : List Animal)
    (h : animals.length < 2147483648) :
    generateReportToFile currentYear animals =
      "Hyena Habitat:" ::
        List.zipWith (fun id a => reportLine id currentYear a)
          (seqIds "Hy" (ofKind .Hyena animals).length) (ofKind .Hyena animals)
      ++ "Lion Habitat:" ::
        List.zipWith (fun id a => reportLine id currentYear a)
          (seqIds "Li" (ofKind .Lion animals).length) (ofKind .Lion animals)
      ++ "Tiger Habitat:" ::
        List.zipWith (fun id a => reportLine id currentYear a)
          (seqIds "Ti" (ofKind .Tiger animals).length) (ofKind .Tiger animals)
      ++ "Bear Habitat:" ::
        List.zipWith (fun id a => reportLine id currentYear a)
          (seqIds "Be" (ofKind .Bear animals).length) (ofKind .Bear animals)
      ++ ["-----------------------------"]
    ∧ (seqIds "Hy" (ofKind .Hyena animals).length).Nodup
    ∧ (seqIds "Li" (ofKind .Lion animals).length).Nodup
    ∧ (seqIds "Ti" (ofKind .Tiger animals).length).Nodup
    ∧ (seqIds "Be" (ofKind .Bear animals).length).Nodup :=
  ⟨generateReportToFile_seq currentYear animals h, seqIds_nodup _ _, seqIds_nodup _ _,
    seqIds_nodup _ _, seqIds_nodup _ _⟩

/-- Witness of C1: two lions and a bear. -/
theorem C1_report_ids_sequential_witness :
    generateReportToFile 2026
        [⟨.Lion, "2001", "Simba", 5, "summer", "golden", "male", 420, "Kenya"⟩,
         ⟨.Bear, "4001", "Unnamed", 7, "unknown", "brown", "female", 600, "Alaska"⟩,
         ⟨.Lion, "2002", "Nala", 3, "spring", "tan", "female", 300, "Zambia"⟩] =
      ["Hyena Habitat:",
       "Lion Habitat:",
       "Li1; Simba; age 5; birth date 2021-07-01; golden color; male; 420 pounds; from Kenya",
       "Li2; Nala; age 3; birth date 2023-04-01; tan color; female; 300 pounds; from Zambia",
       "Tiger Habitat:",
       "Bear Habitat:",
       "Be1; Unnamed; age 7; birth date 2019-06-01; brown color; female; 600 pounds; from Alaska",
       "-----------------------------"] :=
  (C1_report_ids_sequential 2026
    [⟨.Lion, "2001", "Simba", 5, "summer", "golden", "male", 420, "Kenya"⟩,
     ⟨.Bear, "4001", "Unnamed", 7, "unknown", "brown", "female", 600, "Alaska"⟩,
     ⟨.Lion, "2002", "Nala", 3, "spring", "tan", "female", 300, "Zambia"⟩]
    (by decide)).1.symm ▸ (by decide)

/-- C5: the report-time birth date is the decimal text of (current year - age), a dash, and the
anchor of the season: 04-01 for spring, 07-01 for summer, 10-01 for fall, 01-01 for winter and
06-01 for anything else; so the year is current year - age whatever the season.  The subtraction
is the `int` one, taken where it does not overflow (as for any year and age that are
non-negative `int`s). -/
theorem C5_report_birth_date (currentYear : Int) (animal : Animal)
    (hlo : -2147483648 ≤ currentYear - animal.age)
    (hhi : currentYear - animal.age < 2147483648) :
    calculateBirthDate currentYear animal =
      toString (currentYear - animal.age) ++ "-" ++ seasonAnchor animal.birthSeason
    ∧ seasonAnchor "spring" = "04-01" ∧ seasonAnchor "summer" = "07-01"
    ∧ seasonAnchor "fall" = "10-01" ∧ seasonAnchor "winter" = "01-01"
    ∧ (∀ season : String, season ≠ "spring" → season ≠ "summer" → season ≠ "fall" →
        season ≠ "winter" → seasonAnchor season = "06-01") := by
  refine ⟨?_, by decide, by decide, by decide, by decide, ?_⟩
  · unfold calculateBirthDate
    simp only [wrapInt_of_range hlo hhi]
    rfl
  · intro season h1 h2 h3 h4
    simp [seasonAnchor, h1, h2, h3, h4]

/-- Witness of C5: a five-year-old born in fall, seen from 2026. -/
theorem C5_report_birth_date_witness :
    calculateBirthDate 2026 ⟨.Tiger, "3001", "Raja", 5, "fall", "orange", "male", 380, "India"⟩
      = "2021-10-01" :=
  (C5_report_birth_date 2026 ⟨.Tiger, "3001", "Raja", 5, "fall", "orange", "male", 380, "India"⟩
    (by decide) (by decide)).1.trans (by decide)

/-- C10: the report is the header "Hyena Habitat:", then "Lion Habitat:", "Tiger Habitat:" and
"Bear Habitat:", in that order, each followed by one line per record of that species in collection
order, and a final line of dashes; each record belongs to exactly one group, so there are as many
record lines as records, and the empty collection gives the four headers and the dashes. -/
theorem C10_report_layout (currentYear : Int) (animals : List Animal) :
    (∃ hy li ti be : List String,
      hy.length = (ofKind .Hyena animals).length ∧ li.length = (ofKind .Lion animals).length ∧
      ti.length = (ofKind .Tiger animals).length ∧ be.length = (ofKind .Bear animals).length ∧
      generateReportToFile currentYear animals =
        "Hyena Habitat:" ::
          List.zipWith (fun id a => reportLine id currentYear a) hy (ofKind .Hyena animals)
        ++ "Lion Habitat:" ::
          List.zipWith (fun id a => reportLine id currentYear a) li (ofKind .Lion animals)
        ++ "Tiger Habitat:" ::
          List.zipWith (fun id a => reportLine id currentYear a) ti (ofKind .Tiger animals)
        ++ "Bear Habitat:" ::
          List.zipWith (fun id a => reportLine id currentYear a) be (ofKind .Bear animals)
        ++ ["-----------------------------"])
    ∧ (∀ k : Kind, (ofKind k animals).Sublist animals)
    ∧ (∀ a ∈ animals, ∀ k : Kind, a ∈ ofKind k animals ↔ k = a.kind)
    ∧ (ofKind .Hyena animals).length + (ofKind .Lion animals).length
        + (ofKind .Tiger animals).length + (ofKind .Bear animals).length = animals.length
    ∧ (generateReportToFile currentYear animals).length = animals.length + 5
    ∧ generateReportToFile currentYear [] =
        ["Hyena Habitat:", "Lion Habitat:", "Tiger Habitat:", "Bear Habitat:",
         "-----------------------------"] := by
  have hrep : generateReportToFile currentYear animals =
      "Hyena Habitat:" ::
        List.zipWith (fun id a => reportLine id currentYear a)
          ((counterValues 1 (ofKind .Hyena animals).length).map (fun i => "Hy" ++ to_string i))
          (ofKind .Hyena animals)
      ++ "Lion Habitat:" ::
        List.zipWith (fun id a => reportLine id currentYear a)
          ((counterValues 1 (ofKind .Lion animals).length).map (fun i => "Li" ++ to_string i))
          (ofKind .Lion animals)
      ++ "Tiger Habitat:" ::
        List.zipWith (fun id a => reportLine id currentYear a)
          ((counterValues 1 (ofKind .Tiger animals).length).map (fun i => "Ti" ++ to_string i))
          (ofKind .Tiger animals)
      ++ "Bear Habitat:" ::
        List.zipWith (fun id a => reportLine id currentYear a)
          ((counterValues 1 (ofKind .Bear animals).length).map (fun i => "Be" ++ to_string i))
          (ofKind .Bear animals)
      ++ ["-----------------------------"] := by
    rw [generateReportToFile_out, habitatLoop_out, habitatLoop_out, habitatLoop_out,
      habitatLoop_out]
    simp only [List.zipWith_map_left]
    simp [Kind.pfx, dashes]
  refine ⟨⟨_, _, _, _, ?_, ?_, ?_, ?_, hrep⟩, ?_, ?_, length_ofKind_sum animals, ?_, rfl⟩
  · simp [length_counterValues]
  · simp [length_counterValues]
  · simp [length_counterValues]
  · simp [length_counterValues]
  · intro k
    exact List.filter_sublist _
  · intro a ha k
    simp only [ofKind, List.mem_filter, decide_eq_true_eq]
    constructor
    · rintro ⟨_, h⟩
      exact h.symm
    · intro h
      exact ⟨ha, h.symm⟩
  · have hs := length_ofKind_sum animals
    rw [hrep]
    simp [length_counterValues]
    omega

/-- Witness of C10: a collection of three records gives a report of eight lines, and its bear
belongs to the Bear group only. -/
theorem C10_report_layout_witness :
    (generateReportToFile 2026
        [⟨.Lion, "2001", "Simba", 5, "summer", "golden", "male", 420, "Kenya"⟩,
         ⟨.Bear, "4001", "Unnamed", 7, "unknown", "brown", "female", 600, "Alaska"⟩,
         ⟨.Lion, "2002", "Nala", 3, "spring", "tan", "female", 300, "Zambia"⟩]).length = 3 + 5
    ∧ ∀ k : Kind,
        (⟨.Bear, "4001", "Unnamed", 7, "unknown", "brown", "female", 600, "Alaska"⟩ : Animal)
          ∈ ofKind k
            [⟨.Lion, "2001", "Simba", 5, "summer", "golden", "male", 420, "Kenya"⟩,
             ⟨.Bear, "4001", "Unnamed", 7, "unknown", "brown", "female", 600, "Alaska"⟩,
             ⟨.Lion, "2002", "Nala", 3, "spring", "tan", "female", 300, "Zambia"⟩]
          ↔ k = Kind.Bear :=
  ⟨(C10_report_layout 2026
      [⟨.Lion, "2001", "Simba", 5, "summer", "golden", "male", 420, "Kenya"⟩,
       ⟨.Bear, "4001", "Unnamed", 7, "unknown", "brown", "female", 600, "Alaska"⟩,
       ⟨.Lion, "2002", "Nala", 3, "spring", "tan", "female", 300, "Zambia"⟩]).2.2.2.2.1,
   (C10_report_layout 2026
      [⟨.Lion, "2001", "Simba", 5, "summer", "golden", "male", 420, "Kenya"⟩,
       ⟨.Bear, "4001", "Unnamed", 7, "unknown", "brown", "female", 600, "Alaska"⟩,
       ⟨.Lion, "2002", "Nala", 3, "spring", "tan", "female", 300, "Zambia"⟩]).2.2.1
      ⟨.Bear, "4001", "Unnamed", 7, "unknown", "brown", "female", 600, "Alaska"⟩ (by decide)⟩

end Zoo

namespace Zoo

/-! ## Reading the arrivals: names, unmatched lines, numeric fields -/

theorem take_min_length {α : Type} (l : List α) (K : Nat) :
    l.take (min l.length K) = l.take K := by
  rcases Nat.le_total l.length K with h | h
  · rw [Nat.min_eq_left h, List.take_of_length_le h, List.take_of_length_le (le_refl _)]
  · rw [Nat.min_eq_right h]

theorem drop_min_length {α : Type} (l : List α) (K : Nat) :
    l.drop (min l.length K) = l.drop K := by
  rcases Nat.le_total l.length K with h | h
  · rw [Nat.min_eq_left h, List.drop_of_length_le h, List.drop_of_length_le (le_refl _)]
  · rw [Nat.min_eq_right h]

/-- The collection a run leaves behind satisfies the naming invariant for some content of the
name vectors. -/
theorem runNames_shape (rng : Nat → Nat) (pools : NamePools) (lines : List String) (k : Kind) :
    ∃ left : List String,
      ((runNames rng pools lines k).take (k.pool.get pools).length ++ left).Perm
          (k.pool.get pools)
      ∧ ∀ x ∈ (runNames rng pools lines k).drop (k.pool.get pools).length, x = "Unnamed" := by
  have key : ∀ st : RunState, NamesInv (fun k => k.pool.get pools) st →
      ∃ left : List String,
        ((namesOf k st.animals).take (k.pool.get pools).length ++ left).Perm (k.pool.get pools)
        ∧ ∀ x ∈ (namesOf k st.animals).drop (k.pool.get pools).length, x = "Unnamed" := by
    intro st hinv
    obtain ⟨h1, h2⟩ := NamesInv_shape hinv k
    simp only [take_min_length, drop_min_length] at h1 h2
    refine ⟨_, h1, ?_⟩
    intro x hx
    rw [h2] at hx
    exact (List.mem_replicate.1 hx).2
  unfold runNames
  cases hr : readAnimalsFromFile rng (RunState.start pools) lines with
  | ok st => exact key st (NamesInv_run lines _ st (NamesInv_start pools) hr)
  | error e =>
    obtain ⟨e, stE⟩ := e
    obtain ⟨pre, line, post, st1, _, hpre, _, ha⟩ := run_error lines _ stE e hr
    simp only [finalState, ha]
    exact key st1 (NamesInv_run pre _ st1 (NamesInv_start pools) hpre)

/-- C2 (amended): in the collection `readAnimalsFromFile` leaves behind, whatever the pools, the
lines and the draws, the records of a species whose pool held K names are named thus: the first
K of them (all of them when fewer) carry names drawn from the original pool without replacement,
so each is an element of the original pool and they are pairwise different when the original
pool has no repeated name; every later record carries the sentinel "Unnamed". -/
theorem C2_names_drawn_without_replacement (rng : Nat → Nat) (pools : NamePools)
    (lines : List String) (k : Kind) :
    ((runNames rng pools lines k).take (k.pool.get pools).length).Subperm (k.pool.get pools)
    ∧ (∀ x ∈ (runNames rng pools lines k).take (k.pool.get pools).length,
        x ∈ k.pool.get pools)
    ∧ ((k.pool.get pools).Nodup →
        ((runNames rng pools lines k).take (k.pool.get pools).length).Nodup)
    ∧ (∀ x ∈ (runNames rng pools lines k).drop (k.pool.get pools).length, x = "Unnamed") := by
  obtain ⟨left, hperm, hrest⟩ := runNames_shape rng pools lines k
  have hsub : ((runNames rng pools lines k).take (k.pool.get pools).length).Subperm
      (k.pool.get pools) :=
    (List.sublist_append_left _ left).subperm.trans hperm.subperm
  exact ⟨hsub, fun x hx => hsub.subset hx,
    fun hnd => List.Nodup.of_append_left ((hperm.nodup_iff).2 hnd), hrest⟩

/-- Witness of C2: three lion lines, a pool of two distinct names; the first two lions get
different names. -/
theorem C2_names_drawn_without_replacement_witness :
    ((runNames (fun _ => 0) ⟨[], ["Simba", "Nala"], [], []⟩
      ["5 year old male lion, born in summer, golden color, 420 pounds, from Kenya",
       "3 year old female lion, born in spring, tan color, 300 pounds, from Zambia",
       "9 year old male lion, born in fall, dark brown color, 410 pounds, from Chad"]
      .Lion).take 2).Nodup :=
  (C2_names_drawn_without_replacement (fun _ => 0) ⟨[], ["Simba", "Nala"], [], []⟩
    ["5 year old male lion, born in summer, golden color, 420 pounds, from Kenya",
     "3 year old female lion, born in spring, tan color, 300 pounds, from Zambia",
     "9 year old male lion, born in fall, dark brown color, 410 pounds, from Chad"]
    .Lion).2.2.1 (by decide)

/-- Counterexample to C2 as stated: with the lion pool ["Simba"] and three lion lines the second
and third lion share the name "Unnamed", which is not an element of the pool; and with the lion
pool ["Bob", "Bob"] two lions are both named "Bob". -/
theorem C2_counterexample :
    (runNames (fun _ => 0) ⟨[], ["Simba"], [], []⟩
      ["5 year old male lion, born in summer, golden color, 420 pounds, from Kenya",
       "3 year old female lion, born in spring, tan color, 300 pounds, from Zambia",
       "9 year old male lion, born in fall, dark brown color, 410 pounds, from Chad"]
      .Lion = ["Simba", "Unnamed", "Unnamed"]
    ∧ "Unnamed" ∉ ["Simba"])
    ∧ runNames (fun _ => 0) ⟨[], ["Bob", "Bob"], [], []⟩
      ["5 year old male lion, born in summer, golden color, 420 pounds, from Kenya",
       "3 year old female lion, born in spring, tan color, 300 pounds, from Zambia"]
      .Lion = ["Bob", "Bob"] := by
  decide

/-- C8: a line that does not match the pattern adds no record, leaves the four pools (indeed
the whole state) unchanged, raises nothing, and the run goes on with the following lines exactly
as if the line were absent; the line with weight token "abc" is such a line. -/
theorem C8_unmatched_line_skipped (rng : Nat → Nat) (st : RunState) (pre : List String)
    (line : String) (post : List String) (h : regex_search rgx line.data = none) :
    processLine rng st line = .ok st
    ∧ readAnimalsFromFile rng st (line :: post) = readAnimalsFromFile rng st post
    ∧ readAnimalsFromFile rng st (pre ++ line :: post) = readAnimalsFromFile rng st (pre ++ post)
    ∧ regex_search rgx
        "5 year old male lion, born in summer, golden color, abc pounds, from Kenya".data
          = none := by
  have h1 : processLine rng st line = .ok st := by
    unfold processLine; rw [h]
  have h2 : ∀ s, readAnimalsFromFile rng s (line :: post) = readAnimalsFromFile rng s post := by
    intro s
    have : processLine rng s line = .ok s := by unfold processLine; rw [h]
    simp only [readAnimalsFromFile, this]
  refine ⟨h1, h2 st, ?_, by decide⟩
  rw [readAnimalsFromFile_append, readAnimalsFromFile_append]
  cases readAnimalsFromFile rng st pre with
  | error e => rfl
  | ok s => exact h2 s

/-- Witness of C8: the line with weight token "abc" between two good lines. -/
theorem C8_unmatched_line_skipped_witness :
    readAnimalsFromFile (fun _ => 0) (RunState.start ⟨[], ["Simba", "Nala"], [], []⟩)
      (["5 year old male lion, born in summer, golden color, 420 pounds, from Kenya"] ++
        "5 year old male lion, born in summer, golden color, abc pounds, from Kenya" ::
        ["3 year old female lion, born in spring, tan color, 300 pounds, from Zambia"])
    = readAnimalsFromFile (fun _ => 0) (RunState.start ⟨[], ["Simba", "Nala"], [], []⟩)
      (["5 year old male lion, born in summer, golden color, 420 pounds, from Kenya"] ++
        ["3 year old female lion, born in spring, tan color, 300 pounds, from Zambia"]) :=
  (C8_unmatched_line_skipped (fun _ => 0) (RunState.start ⟨[], ["Simba", "Nala"], [], []⟩)
    ["5 year old male lion, born in summer, golden color, 420 pounds, from Kenya"]
    "5 year old male lion, born in summer, golden color, abc pounds, from Kenya"
    ["3 year old female lion, born in spring, tan color, 300 pounds, from Zambia"]
    (by decide)).2.2.1

/-- C6 (amended): a line that matches the pattern but whose age digits exceed `INT_MAX` or whose
weight digits exceed the range of a double makes `stoi` or `stod` throw `std::out_of_range`, and
nothing catches it: `readAnimalsFromFile` is left at that line.  The lines before it were
processed normally and their records stay in the collection; the name draw of the bad line has
already been made; no record is built for the line and no later line is read. -/
theorem C6_bad_number_aborts_run (rng : Nat → Nat) (st : RunState) (pre : List String)
    (line : String) (post : List String) (hpre : ∀ l ∈ pre, numericOk l = true)
    (hbad : numericOk line = false) :
    ∃ st1 k e, readAnimalsFromFile rng st pre = .ok st1
      ∧ lineKind line = some k
      ∧ (e = Exn.out_of_range "stoi" ∨ e = Exn.out_of_range "stod")
      ∧ readAnimalsFromFile rng st (pre ++ line :: post)
          = .error (e, (drawName rng st1 (some k.pool)).2)
      ∧ (drawName rng st1 (some k.pool)).2.animals = st1.animals := by
  obtain ⟨st1, h1⟩ := run_ok_of_numericOk rng pre st hpre
  obtain ⟨k, e, hk, he, hp⟩ := processLine_numericBad hbad rng st1
  refine ⟨st1, k, e, h1, hk, he, ?_, (drawName_frame rng st1 _).1⟩
  rw [readAnimalsFromFile_append, h1]
  simp only [readAnimalsFromFile, hp]

/-- Witness of C6: a good line, then a line whose age is 2147483648. -/
theorem C6_bad_number_aborts_run_witness :
    ∃ st1 k e,
      readAnimalsFromFile (fun _ => 0) (RunState.start ⟨[], ["Simba", "Nala"], [], []⟩)
        ["5 year old male lion, born in summer, golden color, 420 pounds, from Kenya"] = .ok st1
      ∧ lineKind "2147483648 year old female lion, born in spring, tan color, 300 pounds, from Zambia"
          = some k
      ∧ (e = Exn.out_of_range "stoi" ∨ e = Exn.out_of_range "stod")
      ∧ readAnimalsFromFile (fun _ => 0) (RunState.start ⟨[], ["Simba", "Nala"], [], []⟩)
          (["5 year old male lion, born in summer, golden color, 420 pounds, from Kenya"] ++
            "2147483648 year old female lion, born in spring, tan color, 300 pounds, from Zambia"
              :: ["9 year old male lion, born in fall, dark brown color, 410 pounds, from Chad"])
          = .error (e, (drawName (fun _ => 0) st1 (some k.pool)).2)
      ∧ (drawName (fun _ => 0) st1 (some k.pool)).2.animals = st1.animals :=
  C6_bad_number_aborts_run (fun _ => 0) (RunState.start ⟨[], ["Simba", "Nala"], [], []⟩)
    ["5 year old male lion, born in summer, golden color, 420 pounds, from Kenya"]
    "2147483648 year old female lion, born in spring, tan color, 300 pounds, from Zambia"
    ["9 year old male lion, born in fall, dark brown color, 410 pounds, from Chad"]
    (by decide) (by decide)

/-- Counterexample to C6 as stated: with an age of 2147483648 on the second line the function
throws, and the third line, which is well formed, yields no record; without the bad line the run
returns both records. -/
theorem C6_counterexample :
    readAnimalsFromFile (fun _ => 0) (RunState.start ⟨[], ["Simba", "Nala"], [], []⟩)
      ["5 year old male lion, born in summer, golden color, 420 pounds, from Kenya",
       "2147483648 year old female lion, born in spring, tan color, 300 pounds, from Zambia",
       "9 year old male lion, born in fall, dark brown color, 410 pounds, from Chad"]
      = .error (Exn.out_of_range "stoi",
          ⟨[⟨.Lion, "2001", "Simba", 5, "summer", "golden", "male", 420, "Kenya"⟩],
           ⟨[], [], [], []⟩, ⟨0, 1, 0, 0⟩, 2⟩)
    ∧ readAnimalsFromFile (fun _ => 0) (RunState.start ⟨[], ["Simba", "Nala"], [], []⟩)
      ["5 year old male lion, born in summer, golden color, 420 pounds, from Kenya",
       "9 year old male lion, born in fall, dark brown color, 410 pounds, from Chad"]
      = .ok ⟨[⟨.Lion, "2001", "Simba", 5, "summer", "golden", "male", 420, "Kenya"⟩,
              ⟨.Lion, "2002", "Nala", 9, "fall", "dark brown", "male", 410, "Chad"⟩],
             ⟨[], [], [], []⟩, ⟨0, 2, 0, 0⟩, 2⟩ := by
  decide

/-- C9 (amended): provided no matching line has an age beyond `INT_MAX` or a weight beyond the
range of a double (such a line ends the run with an exception, see C6), `readAnimalsFromFile`
returns, and for a species with K names in its pool and n matching lines there are n records of
it, the first min(n, K) of which carry names drawn from the pool (with the names left in the
pool they make up the original pool) while all the others carry "Unnamed"; with an empty pool
every record of the species is named "Unnamed". -/
theorem C9_pool_exhaustion_gives_sentinel (rng : Nat → Nat) (pools : NamePools)
    (lines : List String) (k : Kind) (hnum : ∀ l ∈ lines, numericOk l = true) :
    ∃ st, readAnimalsFromFile rng (RunState.start pools) lines = .ok st
      ∧ (ofKind k st.animals).length = linesOfKind k lines
      ∧ ((namesOf k st.animals).take (min (linesOfKind k lines) (k.pool.get pools).length)
            ++ k.pool.get st.pools).Perm (k.pool.get pools)
      ∧ (namesOf k st.animals).drop (min (linesOfKind k lines) (k.pool.get pools).length)
          = List.replicate
              (linesOfKind k lines - min (linesOfKind k lines) (k.pool.get pools).length)
              "Unnamed"
      ∧ (k.pool.get pools = [] → ∀ a ∈ ofKind k st.animals, a.name = "Unnamed") := by
  obtain ⟨st, hst⟩ := run_ok_of_numericOk rng lines (RunState.start pools) hnum
  have hinv := NamesInv_run lines _ st (NamesInv_start pools) hst
  have hcount : (ofKind k st.animals).length = linesOfKind k lines := by
    rw [run_count k lines _ st hst]
    simp [RunState.start, ofKind, linesOfKind]
  have hlen : (namesOf k st.animals).length = linesOfKind k lines := by
    rw [← hcount]; simp [namesOf]
  obtain ⟨h1, h2⟩ := NamesInv_shape hinv k
  rw [hlen] at h1 h2
  refine ⟨st, hst, hcount, h1, h2, ?_⟩
  intro hempty a ha
  rw [hempty] at h2
  simp only [List.length_nil, Nat.min_zero, List.drop_zero, Nat.sub_zero] at h2
  have hmem : a.name ∈ namesOf k st.animals := List.mem_map.2 ⟨a, ha, rfl⟩
  rw [h2] at hmem
  exact (List.mem_replicate.1 hmem).2

/-- Witness of C9: two tiger lines and an empty tiger pool. -/
theorem C9_pool_exhaustion_gives_sentinel_witness :
    ∃ st, readAnimalsFromFile (fun _ => 0) (RunState.start ⟨[], ["Simba"], [], []⟩)
        ["4 year old female tiger, born in spring, orange color, 300 pounds, from India",
         "6 year old male tiger, born in winter, white color, 350 pounds, from Nepal"] = .ok st
      ∧ ∀ a ∈ ofKind .Tiger st.animals, a.name = "Unnamed" :=
  let ⟨st, h, _, _, _, hall⟩ :=
    C9_pool_exhaustion_gives_sentinel (fun _ => 0) ⟨[], ["Simba"], [], []⟩
      ["4 year old female tiger, born in spring, orange color, 300 pounds, from India",
       "6 year old male tiger, born in winter, white color, 350 pounds, from Nepal"]
      .Tiger (by decide)
  ⟨st, h, hall rfl⟩

/-- Counterexample to C9 as stated: with an empty tiger pool, a tiger line whose age is
99999999999 makes `readAnimalsFromFile` fail with `std::out_of_range`. -/
theorem C9_counterexample :
    readAnimalsFromFile (fun _ => 0) (RunState.start ⟨[], [], [], []⟩)
      ["99999999999 year old female tiger, born in spring, orange color, 300 pounds, from India"]
      = .error (Exn.out_of_range "stoi", RunState.start ⟨[], [], [], []⟩) := by
  decide

end Zoo

namespace Zoo

/-! ## Field extraction and the report line -/

theorem arrivalLine_data (age gender species season color weight origin : String) :
    (arrivalLine age gender species season color weight origin).data =
      recordText age.data gender.data species.data season.data color.data weight.data
        origin.data := by
  simp [arrivalLine, recordText, String.data_append]

theorem token_mem_speciesTokens (k : Kind) : k.token.data ∈ speciesTokens := by
  cases k <;> decide

theorem season_mem_seasonTokens {season : String}
    (h : season ∈ ["spring", "summer", "fall", "winter", "unknown"]) :
    season.data ∈ seasonTokens := by
  simp only [List.mem_cons, List.mem_singleton, List.not_mem_nil, or_false] at h
  rcases h with rfl | rfl | rfl | rfl | rfl <;> decide

/-- The match found in a well-formed arrival line. -/
theorem regex_search_arrivalLine (age gender : String) (k : Kind) (season w : String)
    (ws : List String) (weight origin : String)
    (hage : age.data ≠ [] ∧ ∀ c ∈ age.data, Char.isDigit c = true)
    (hgender : gender.data ≠ [] ∧ ∀ c ∈ gender.data, (Char.isAlphanum c || c == '_') = true)
    (hseason : season ∈ ["spring", "summer", "fall", "winter", "unknown"])
    (hw : w.data ≠ [] ∧ ∀ c ∈ w.data, Char.isAlpha c = true)
    (hws : ∀ u ∈ ws, u.data ≠ [] ∧ ∀ c ∈ u.data, Char.isAlpha c = true)
    (hweight : weight.data ≠ [] ∧ ∀ c ∈ weight.data, Char.isDigit c = true)
    (horigin : origin.data ≠ [] ∧ ∀ c ∈ origin.data, c ≠ '\n' ∧ c ≠ '\r') :
    regex_search rgx
        (arrivalLine age gender k.token season (colorPhrase w ws) weight origin).data
      = some ⟨[], [[], age.data, gender.data, k.token.data, season.data,
          (colorPhrase w ws).data, weight.data, origin.data]⟩ := by
  rw [arrivalLine_data]
  have hws' : ∀ u ∈ ws.map String.data, u ≠ [] ∧ ∀ c ∈ u, Char.isAlpha c = true := by
    intro u hu
    obtain ⟨x, hx, rfl⟩ := List.mem_map.1 hu
    exact hws x hx
  have hO : ∀ c ∈ origin.data, (c != '\n' && c != '\r') = true := by
    intro c hc
    have := horigin.2 c hc
    simp [this.1, this.2]
  exact regex_search_recordText age.data gender.data k.token.data season.data w.data
    (ws.map String.data) weight.data origin.data hage.1 hage.2 hgender.1 hgender.2
    (token_mem_speciesTokens k) (season_mem_seasonTokens hseason) hw.1 hw.2 hws'
    hweight.1 hweight.2 horigin.1 hO

/-- C4 (amended): for a line assembled from the fields of the pattern (age of digits, gender of
word characters, species word, season word, colour phrase of alphabetic words, weight of digits,
non-empty origin), provided the age is at most `INT_MAX`, the weight rounds to a finite double
and the origin holds no carriage return or line feed, `readAnimalsFromFile` appends exactly one
record; its class is that of the species word, its age the value of the age digits, its gender,
birth season, colour and origin the fields themselves, and its weight the double nearest to the
value of the weight digits, which is that value itself below 2^53. -/
theorem C4_fields_round_trip (rng : Nat → Nat) (st : RunState) (age gender : String) (k : Kind)
    (season w : String) (ws : List String) (weight origin : String)
    (hage : age.data ≠ [] ∧ ∀ c ∈ age.data, Char.isDigit c = true)
    (hgender : gender.data ≠ [] ∧ ∀ c ∈ gender.data, (Char.isAlphanum c || c == '_') = true)
    (hseason : season ∈ ["spring", "summer", "fall", "winter", "unknown"])
    (hw : w.data ≠ [] ∧ ∀ c ∈ w.data, Char.isAlpha c = true)
    (hws : ∀ u ∈ ws, u.data ≠ [] ∧ ∀ c ∈ u.data, Char.isAlpha c = true)
    (hweight : weight.data ≠ [] ∧ ∀ c ∈ weight.data, Char.isDigit c = true)
    (horigin : origin.data ≠ [] ∧ ∀ c ∈ origin.data, c ≠ '\n' ∧ c ≠ '\r')
    (hageRange : decimalValue age.data ≤ 2147483647)
    (hweightRange : roundBinary64 (decimalValue weight.data) < DBL_OVERFLOW) :
    ∃ st1 a,
      processLine rng st
          (arrivalLine age gender k.token season (colorPhrase w ws) weight origin) = .ok st1
      ∧ (∀ rest : List String,
          readAnimalsFromFile rng st
              (arrivalLine age gender k.token season (colorPhrase w ws) weight origin :: rest)
            = readAnimalsFromFile rng st1 rest)
      ∧ st1.animals = st.animals ++ [a]
      ∧ a.kind = k ∧ a.getSpecies = k.species
      ∧ a.age = (decimalValue age.data : Int)
      ∧ a.gender = gender ∧ a.birthSeason = season ∧ a.color = colorPhrase w ws
      ∧ a.weight = roundBinary64 (decimalValue weight.data)
      ∧ (decimalValue weight.data < 2 ^ 53 → a.weight = decimalValue weight.data)
      ∧ a.origin = origin := by
  have hsearch := regex_search_arrivalLine age gender k season w ws weight origin hage hgender
    hseason hw hws hweight horigin
  have h1 : ¬ INT_MAX < (decimalValue age.data : Int) := by unfold INT_MAX; omega
  have h2 : ¬ DBL_OVERFLOW ≤ roundBinary64 (decimalValue weight.data) := by omega
  have hproc : processLine rng st
      (arrivalLine age gender k.token season (colorPhrase w ws) weight origin)
      = .ok (pushAnimal (drawName rng st (some k.pool)).2 k (drawName rng st (some k.pool)).1
          (decimalValue age.data : Int) season (colorPhrase w ws) gender
          (roundBinary64 (decimalValue weight.data)) origin) := by
    unfold processLine
    rw [hsearch]
    show processMatch rng st ⟨[], [[], age.data, gender.data, k.token.data, season.data,
      (colorPhrase w ws).data, weight.data, origin.data]⟩ = _
    rw [processMatch_token rng st ⟨[], [[], age.data, gender.data, k.token.data, season.data,
      (colorPhrase w ws).data, weight.data, origin.data]⟩ k rfl]
    show (match stoi age.data with
      | Except.error e => Except.error (e, (drawName rng st (some k.pool)).2)
      | Except.ok a =>
        match stod weight.data with
        | Except.error e => Except.error (e, (drawName rng st (some k.pool)).2)
        | Except.ok wt =>
          Except.ok (pushAnimal (drawName rng st (some k.pool)).2 k
            (drawName rng st (some k.pool)).1 a season (colorPhrase w ws) gender wt origin)) = _
    rw [stoi_digits hage.1 hage.2, stod_digits hweight.1 hweight.2, if_neg h1, if_neg h2]
  obtain ⟨id, cs, hp⟩ := pushAnimal_spec (drawName rng st (some k.pool)).2 k
    (drawName rng st (some k.pool)).1 (decimalValue age.data : Int) season (colorPhrase w ws)
    gender (roundBinary64 (decimalValue weight.data)) origin
  rw [hp] at hproc
  refine ⟨_, ⟨k, id, (drawName rng st (some k.pool)).1, (decimalValue age.data : Int), season,
    colorPhrase w ws, gender, roundBinary64 (decimalValue weight.data), origin⟩, hproc, ?_, ?_,
    rfl, rfl, rfl, rfl, rfl, rfl, rfl, ?_, rfl⟩
  · intro rest
    simp only [readAnimalsFromFile, hproc]
  · show (drawName rng st (some k.pool)).2.animals ++ _ = _
    rw [(drawName_frame rng st _).1]
  · intro hlt
    show roundBinary64 (decimalValue weight.data) = decimalValue weight.data
    unfold roundBinary64
    rw [if_pos hlt]

/-- Witness of C4: a twelve-year-old bear of colour "dark brown". -/
theorem C4_fields_round_trip_witness :
    ∃ st1 a,
      processLine (fun _ => 0) (RunState.start ⟨[], [], ["Baloo"], []⟩)
          (arrivalLine "12" "female" Kind.Bear.token "winter" (colorPhrase "dark" ["brown"])
            "600" "Alaska") = .ok st1
      ∧ (∀ rest : List String,
          readAnimalsFromFile (fun _ => 0) (RunState.start ⟨[], [], ["Baloo"], []⟩)
              (arrivalLine "12" "female" Kind.Bear.token "winter" (colorPhrase "dark" ["brown"])
                "600" "Alaska" :: rest)
            = readAnimalsFromFile (fun _ => 0) st1 rest)
      ∧ st1.animals = (RunState.start ⟨[], [], ["Baloo"], []⟩).animals ++ [a]
      ∧ a.kind = Kind.Bear ∧ a.getSpecies = Kind.Bear.species
      ∧ a.age = (decimalValue "12".data : Int)
      ∧ a.gender = "female" ∧ a.birthSeason = "winter"
      ∧ a.color = colorPhrase "dark" ["brown"]
      ∧ a.weight = roundBinary64 (decimalValue "600".data)
      ∧ (decimalValue "600".data < 2 ^ 53 → a.weight = decimalValue "600".data)
      ∧ a.origin = "Alaska" :=
  C4_fields_round_trip (fun _ => 0) (RunState.start ⟨[], [], ["Baloo"], []⟩) "12" "female"
    Kind.Bear "winter" "dark" ["brown"] "600" "Alaska" (by decide) (by decide) (by decide)
    (by decide) (by decide) (by decide) (by decide) (by decide) (by decide)

/-- Counterexample to C4 as stated: the fields are well formed but the age, 2147483648, does not
fit an `int`; no record is appended, the function throws. -/
theorem C4_counterexample :
    readAnimalsFromFile (fun _ => 0) (RunState.start ⟨[], [], ["Baloo"], []⟩)
      [arrivalLine "2147483648" "female" "bear" "winter" "brown" "600" "Alaska"]
      = .error (Exn.out_of_range "stoi", ⟨[], ⟨[], [], [], []⟩, Counters.init, 1⟩) := by
  decide

/-- The line of a record in the section of its class: its identifier number is its rank among
the records of the class. -/
theorem habitatLines_mem (k : Kind) (cy : Int) (l1 : List Animal) (a : Animal)
    (l2 : List Animal) (ha : a.kind = k) :
    reportLine (k.pfx ++ toString ((ofKind k l1).length + 1)) cy a
      ∈ habitatLines k cy (l1 ++ a :: l2) := by
  have hrec : ofKind k (l1 ++ a :: l2) = ofKind k l1 ++ a :: ofKind k l2 := by
    simp [ofKind, List.filter_append, ha]
  unfold habitatLines
  rw [hrec]
  refine List.mem_iff_getElem.2 ⟨(ofKind k l1).length, ?_, ?_⟩
  · simp [seqIds]
  · simp only [List.getElem_zipWith, seqIds, List.getElem_map, List.getElem_range]
    rw [List.getElem_append_right (le_refl _)]
    simp

theorem mem_report_of_mem_habitatLines {k : Kind} {cy : Int} {animals : List Animal}
    {line : String} (hlen : animals.length < 2147483648)
    (h : line ∈ habitatLines k cy animals) : line ∈ generateReportToFile cy animals := by
  rw [generateReportToFile_seq cy animals hlen]
  cases k <;> simp [h]

theorem scenario_search :
    regex_search rgx
        "5 year old male lion, born in summer, golden color, 420 pounds, from Kenya".data
      = some ⟨[], [[], "5".data, "male".data, "lion".data, "summer".data, "golden".data,
          "420".data, "Kenya".data]⟩ := by
  decide

/-- C3 (amended): for every record of a collection (of fewer than 2^31 records) the report holds
the line
`<id>; <name>; age <age>; birth date <birthdate>; <color> color; <gender>; <weight> pounds; from <origin>`
with the age in plain decimal digits and `<id>` the prefix of the species followed by the rank of
the record among those of its species.  When the weight is below 1,000,000, `<weight>` is the
weight in plain decimal digits.  When the weight is 1,000,000 or more, `<weight>` is the weight in
scientific notation with six significant digits: a mantissa `m` of six digits and an exponent
`e` of at least 6 with `m * 10^(e-5)` within half a unit of the sixth digit of the weight, written
as the first digit of `m`, a point and the other digits without trailing zeros, "e+" and the
exponent; this text is never the decimal text of the weight.  The line
"5 year old male lion, born in summer, golden color, 420 pounds, from Kenya" with the lion pool
["Simba", "Nala"] yields one Lion record with age 5, weight 420, origin "Kenya" and a name that is
"Simba" or "Nala", and the report line
`Li1; <name>; age 5; birth date <currentYear-5>-07-01; golden color; male; 420 pounds; from Kenya`. -/
theorem C3_report_line (currentYear : Int) :
    (∀ (l1 : List Animal) (a : Animal) (l2 : List Animal),
      (l1 ++ a :: l2).length < 2147483648 → a.weight < 1000000 →
      a.kind.pfx ++ toString ((ofKind a.kind l1).length + 1) ++ "; " ++ a.name ++ "; age "
        ++ toString a.age ++ "; birth date " ++ calculateBirthDate currentYear a ++ "; "
        ++ a.color ++ " color; " ++ a.gender ++ "; " ++ toString a.weight ++ " pounds; from "
        ++ a.origin ∈ generateReportToFile currentYear (l1 ++ a :: l2))
    ∧ (∀ (l1 : List Animal) (a : Animal) (l2 : List Animal),
      (l1 ++ a :: l2).length < 2147483648 → 1000000 ≤ a.weight →
      ∃ m e, 100000 ≤ m ∧ m < 1000000 ∧ 6 ≤ e
        ∧ 2 * a.weight ≤ 2 * (m * 10 ^ (e - 5)) + 10 ^ (e - 5)
        ∧ 2 * (m * 10 ^ (e - 5)) ≤ 2 * a.weight + 10 ^ (e - 5)
        ∧ scientific m e ≠ toString a.weight
        ∧ a.kind.pfx ++ toString ((ofKind a.kind l1).length + 1) ++ "; " ++ a.name ++ "; age "
          ++ toString a.age ++ "; birth date " ++ calculateBirthDate currentYear a ++ "; "
          ++ a.color ++ " color; " ++ a.gender ++ "; " ++ scientific m e ++ " pounds; from "
          ++ a.origin ∈ generateReportToFile currentYear (l1 ++ a :: l2))
    ∧ (∀ (rng : Nat → Nat) (pools : NamePools), pools.lionNames = ["Simba", "Nala"] →
      -2147483648 ≤ currentYear - 5 → currentYear - 5 < 2147483648 →
      ∃ st name, (name = "Simba" ∨ name = "Nala")
        ∧ readAnimalsFromFile rng (RunState.start pools)
            ["5 year old male lion, born in summer, golden color, 420 pounds, from Kenya"]
              = .ok st
        ∧ st.animals = [⟨.Lion, "2001", name, 5, "summer", "golden", "male", 420, "Kenya"⟩]
        ∧ generateReportToFile currentYear st.animals =
            ["Hyena Habitat:", "Lion Habitat:",
             "Li1; " ++ name ++ "; age 5; birth date " ++ toString (currentYear - 5)
               ++ "-07-01; golden color; male; 420 pounds; from Kenya",
             "Tiger Habitat:", "Bear Habitat:", "-----------------------------"]) := by
  refine ⟨?_, ?_, ?_⟩
  · intro l1 a l2 hlen hw
    have hd : ostreamDouble a.weight = toString a.weight := by
      unfold ostreamDouble
      rw [if_pos hw]
    have hline := habitatLines_mem a.kind currentYear l1 a l2 rfl
    have := mem_report_of_mem_habitatLines hlen hline
    simpa only [reportLine, hd, to_string] using this
  · intro l1 a l2 hlen hw
    obtain ⟨m, e, hm1, hm2, he, hlo, hhi, hd⟩ := ostreamDouble_large a.weight hw
    refine ⟨m, e, hm1, hm2, he, hlo, hhi, scientific_ne_toString m e a.weight, ?_⟩
    have hline := habitatLines_mem a.kind currentYear l1 a l2 rfl
    have := mem_report_of_mem_habitatLines hlen hline
    simpa only [reportLine, hd, to_string] using this
  · intro rng pools hpool hlo hhi
    have hne : Kind.Lion.pool.get (RunState.start pools).pools ≠ [] := by
      show pools.lionNames ≠ []
      rw [hpool]; simp
    have hproc : processLine rng (RunState.start pools)
        "5 year old male lion, born in summer, golden color, 420 pounds, from Kenya"
        = .ok (pushAnimal (drawName rng (RunState.start pools) (some Kind.Lion.pool)).2 .Lion
            (drawName rng (RunState.start pools) (some Kind.Lion.pool)).1 5 "summer" "golden"
            "male" 420 "Kenya") := by
      unfold processLine
      rw [scenario_search]
      show processMatch rng (RunState.start pools) ⟨[], [[], "5".data, "male".data,
        "lion".data, "summer".data, "golden".data, "420".data, "Kenya".data]⟩ = _
      rw [processMatch_token rng (RunState.start pools) ⟨[], [[], "5".data, "male".data,
        "lion".data, "summer".data, "golden".data, "420".data, "Kenya".data]⟩ .Lion rfl]
      rfl
    have hname : (drawName rng (RunState.start pools) (some Kind.Lion.pool)).1 = "Simba"
        ∨ (drawName rng (RunState.start pools) (some Kind.Lion.pool)).1 = "Nala" := by
      rw [drawName_nonempty rng _ _ hne]
      show List.getD pools.lionNames (rng 0 % pools.lionNames.length) "" = "Simba"
        ∨ List.getD pools.lionNames (rng 0 % pools.lionNames.length) "" = "Nala"
      rw [hpool]
      have h2 : rng 0 % 2 = 0 ∨ rng 0 % 2 = 1 := by omega
      rcases h2 with h | h
      · left; simp [h]
      · right; simp [h]
    refine ⟨pushAnimal (drawName rng (RunState.start pools) (some Kind.Lion.pool)).2 .Lion
      (drawName rng (RunState.start pools) (some Kind.Lion.pool)).1 5 "summer" "golden"
      "male" 420 "Kenya",
      (drawName rng (RunState.start pools) (some Kind.Lion.pool)).1, hname, ?_, ?_, ?_⟩
    · simp only [readAnimalsFromFile, hproc]
    · show (drawName rng (RunState.start pools) (some Kind.Lion.pool)).2.animals ++ _ = _
      rw [(drawName_frame rng _ _).1, (drawName_frame rng _ _).2]
      rfl
    · show generateReportToFile currentYear
        ((drawName rng (RunState.start pools) (some Kind.Lion.pool)).2.animals ++ _) = _
      rw [(drawName_frame rng _ _).1, (drawName_frame rng _ _).2]
      generalize (drawName rng (RunState.start pools) (some Kind.Lion.pool)).1 = name
      have hrep : generateReportToFile currentYear
          [⟨.Lion, "2001", name, 5, "summer", "golden", "male", 420, "Kenya"⟩]
          = ["Hyena Habitat:", "Lion Habitat:",
             reportLine "Li1" currentYear
               ⟨.Lion, "2001", name, 5, "summer", "golden", "male", 420, "Kenya"⟩,
             "Tiger Habitat:", "Bear Habitat:", "-----------------------------"] := rfl
      have hline : reportLine "Li1" currentYear
            ⟨.Lion, "2001", name, 5, "summer", "golden", "male", 420, "Kenya"⟩
          = "Li1; " ++ name ++ "; age 5; birth date " ++ toString (currentYear - 5)
              ++ "-07-01; golden color; male; 420 pounds; from Kenya" := by
        unfold reportLine calculateBirthDate
        simp only [wrapInt_of_range hlo hhi]
        apply String.ext
        simp only [String.data_append, List.append_assoc]
        rfl
      rw [← hline]
      exact hrep

/-- Witness of C3: a lion that follows a bear and a lion gets the line numbered Li2, and a bear
of 1234567 pounds gets a line with its weight in scientific notation. -/
theorem C3_report_line_witness :
    "Li2; Nala; age 3; birth date 2023-04-01; tan color; female; 300 pounds; from Zambia"
      ∈ generateReportToFile 2026
        ([⟨.Bear, "4001", "Unnamed", 7, "unknown", "brown", "female", 600, "Alaska"⟩,
          ⟨.Lion, "2001", "Simba", 5, "summer", "golden", "male", 420, "Kenya"⟩] ++
         ⟨.Lion, "2002", "Nala", 3, "spring", "tan", "female", 300, "Zambia"⟩ :: [])
    ∧ (∃ m e, 100000 ≤ m ∧ m < 1000000 ∧ 6 ≤ e
        ∧ 2 * 1234567 ≤ 2 * (m * 10 ^ (e - 5)) + 10 ^ (e - 5)
        ∧ 2 * (m * 10 ^ (e - 5)) ≤ 2 * 1234567 + 10 ^ (e - 5)
        ∧ scientific m e ≠ toString 1234567
        ∧ "Be1" ++ "; " ++ "Unnamed" ++ "; age " ++ toString (7 : Int) ++ "; birth date "
          ++ "2019-06-01" ++ "; " ++ "brown" ++ " color; " ++ "female" ++ "; " ++ scientific m e
          ++ " pounds; from " ++ "Alaska"
          ∈ generateReportToFile 2026
            ([] ++ ⟨.Bear, "4001", "Unnamed", 7, "unknown", "brown", "female", 1234567,
              "Alaska"⟩ :: []))
    ∧ scientific 123457 6 = "1.23457e+06" :=
  ⟨(C3_report_line 2026).1
    [⟨.Bear, "4001", "Unnamed", 7, "unknown", "brown", "female", 600, "Alaska"⟩,
     ⟨.Lion, "2001", "Simba", 5, "summer", "golden", "male", 420, "Kenya"⟩]
    ⟨.Lion, "2002", "Nala", 3, "spring", "tan", "female", 300, "Zambia"⟩ []
    (by decide) (by decide),
   (C3_report_line 2026).2.1 []
    ⟨.Bear, "4001", "Unnamed", 7, "unknown", "brown", "female", 1234567, "Alaska"⟩ []
    (by decide) (by decide),
   by decide⟩

/-- Counterexample to C3 as stated: the line
"7 year old female bear, born in unknown, brown color, 1234567 pounds, from Alaska" gives a record
of weight 1234567, and the report writes that weight as 1.23457e+06; the line with the weight as
the decimal number captured is not in the report. -/
theorem C3_counterexample :
    generateReportToFile 2026
        (finalState (readAnimalsFromFile (fun _ => 0) (RunState.start ⟨[], [], [], []⟩)
          ["7 year old female bear, born in unknown, brown color, 1234567 pounds, from Alaska"]
        )).animals
      = ["Hyena Habitat:", "Lion Habitat:", "Tiger Habitat:", "Bear Habitat:",
         "Be1; Unnamed; age 7; birth date 2019-06-01; brown color; female; 1.23457e+06 pounds; from Alaska",
         "-----------------------------"]
    ∧ "Be1; Unnamed; age 7; birth date 2019-06-01; brown color; female; 1234567 pounds; from Alaska"
      ∉ generateReportToFile 2026
        (finalState (readAnimalsFromFile (fun _ => 0) (RunState.start ⟨[], [], [], []⟩)
          ["7 year old female bear, born in unknown, brown color, 1234567 pounds, from Alaska"]
        )).animals := by
  decide

end Zoo

namespace Zoo

/-! ## The names file: unrecognised headers, section contents, empty names -/

/-- C11 (amended): a header line that contains "Names:" but names none of the four species is
ignored: it changes neither the vectors nor the current species, so the result is the one the
input without that line gives.  The name lines that follow it are therefore added, without their
trailing blanks, to the vector of the last recognised header before it, and to no vector only when
no recognised header precedes it. -/
theorem C11_unrecognised_header_keeps_section (pools : NamePools) (pre : List String)
    (h : String) (names post : List String)
    (hcolon : hasNamesColon h = true) (hnone : headerKind h = none)
    (hnames : ∀ n ∈ names, isNameLine n = true) :
    (∀ st : NamesState, namesLine st h = st)
    ∧ readNamesFromFile pools (pre ++ h :: post) = readNamesFromFile pools (pre ++ post)
    ∧ (∀ k : Kind, k.pool.get (readNamesFromFile pools (pre ++ h :: names)) =
        k.pool.get (readNamesFromFile pools pre)
          ++ (if ownerOf pre = some k then names.map withoutTrailingBlanks else []))
    ∧ (ownerOf pre = none →
        readNamesFromFile pools (pre ++ h :: names) = readNamesFromFile pools pre) := by
  have hskip : ∀ rest : List String,
      readNamesLoop ⟨"", pools⟩ (pre ++ h :: rest) = readNamesLoop ⟨"", pools⟩ (pre ++ rest) := by
    intro rest
    rw [readNamesLoop_append, readNamesLoop_append]
    simp only [readNamesLoop, namesLine_unrecognised _ h hcolon hnone]
  have hpools : ∀ k : Kind, k.pool.get (readNamesFromFile pools (pre ++ h :: names)) =
      k.pool.get (readNamesFromFile pools pre)
        ++ (if ownerOf pre = some k then names.map withoutTrailingBlanks else []) := by
    intro k
    unfold readNamesFromFile
    rw [hskip, readNamesLoop_append]
    exact (readNamesLoop_names (ownerOf pre) names _
      (readNamesLoop_currentSpecies pools pre) hnames).2 k
  refine ⟨fun st => namesLine_unrecognised st h hcolon hnone, ?_, hpools, ?_⟩
  · unfold readNamesFromFile
    rw [hskip]
  · intro ho
    apply pools_ext
    intro k
    rw [hpools k, ho]
    simp

/-- Witness of C11: "Zebra Names:" after the hyena header; the name after it joins the hyenas. -/
theorem C11_unrecognised_header_keeps_section_witness :
    Kind.Hyena.pool.get
        (readNamesFromFile ⟨[], [], [], []⟩ (["Hyena Names:", "Shenzi"] ++ "Zebra Names:" :: ["Zed "]))
      = Kind.Hyena.pool.get (readNamesFromFile ⟨[], [], [], []⟩ ["Hyena Names:", "Shenzi"])
          ++ (if ownerOf ["Hyena Names:", "Shenzi"] = some Kind.Hyena
              then ["Zed "].map withoutTrailingBlanks else []) :=
  (C11_unrecognised_header_keeps_section ⟨[], [], [], []⟩ ["Hyena Names:", "Shenzi"]
    "Zebra Names:" ["Zed "] [] (by decide) (by decide) (by decide)).2.2.1 Kind.Hyena

/-- Counterexample to C11 as stated: the name "Zed" follows the unrecognised header
"Zebra Names:" and is added to the hyena vector. -/
theorem C11_counterexample :
    readNamesFromFile ⟨[], [], [], []⟩ ["Hyena Names:", "Shenzi", "Zebra Names:", "Zed"]
      = ⟨["Shenzi", "Zed"], [], [], []⟩
    ∧ hasNamesColon "Zebra Names:" = true ∧ headerKind "Zebra Names:" = none := by
  decide

/-- C12 (amended): the vector of each species receives exactly the name lines (the lines that
are not empty and do not contain "Names:") of the sections of that species, in input order, each
without its trailing spaces, tabs, carriage returns and newlines, where a section runs from a
header naming the species to the next recognised header (a header naming none of the four species
does not end it); empty lines and lines containing "Names:" add no element to any vector.  When
every line containing "Names:" names one of the four species this is the section of the
specification, which ends at any header. -/
theorem C12_pools_hold_section_names (pools : NamePools) (lines : List String) (k : Kind) :
    k.pool.get (readNamesFromFile pools lines) = k.pool.get pools ++ sectionNames ownerOf k lines
    ∧ (∀ (st : NamesState) (line : String), line.data = [] ∨ hasNamesColon line = true →
        (namesLine st line).pools = st.pools)
    ∧ (∀ line : String, trimLine line = withoutTrailingBlanks line)
    ∧ ((∀ l ∈ lines, hasNamesColon l = true → headerKind l ≠ none) →
        k.pool.get (readNamesFromFile pools lines)
          = k.pool.get pools ++ sectionNames sectionOf k lines) := by
  refine ⟨readNamesFromFile_spec pools lines k, namesLine_header_pools, trimLine_eq, ?_⟩
  intro hall
  rw [readNamesFromFile_spec, sectionNames_congr k lines hall]

/-- Witness of C12: a names file whose headers are all recognised. -/
theorem C12_pools_hold_section_names_witness :
    Kind.Lion.pool.get
        (readNamesFromFile ⟨[], [], [], []⟩
          ["Hyena Names:", "Shenzi", "", "Lion Names:", "Simba \t", "Nala", "Bear Names:", "Baloo"])
      = Kind.Lion.pool.get ⟨[], [], [], []⟩
          ++ sectionNames sectionOf Kind.Lion
            ["Hyena Names:", "Shenzi", "", "Lion Names:", "Simba \t", "Nala", "Bear Names:", "Baloo"] :=
  (C12_pools_hold_section_names ⟨[], [], [], []⟩
    ["Hyena Names:", "Shenzi", "", "Lion Names:", "Simba \t", "Nala", "Bear Names:", "Baloo"]
    Kind.Lion).2.2.2 (by decide)

/-- Counterexample to C12 as stated: "Gerald" stands in the section opened by "Giraffe Names:",
not in a lion section, yet the lion vector receives it. -/
theorem C12_counterexample :
    Kind.Lion.pool.get
        (readNamesFromFile ⟨[], [], [], []⟩ ["Lion Names:", "Simba", "Giraffe Names:", "Gerald"])
      = ["Simba", "Gerald"]
    ∧ sectionNames sectionOf Kind.Lion ["Lion Names:", "Simba", "Giraffe Names:", "Gerald"]
      = ["Simba"] := by
  decide

/-- C20 (the code at the failing input): a line made of a carriage return, or of spaces only, is
not empty when it is tested and is empty once its trailing blanks are cut, so the empty string
is placed in the vector of the current species; a hyena that arrives is then given the empty
name. -/
theorem C20_blank_line_gives_empty_name :
    readNamesFromFile ⟨[], [], [], []⟩ ["Hyena Names:", "\r", "Shenzi", "   "]
      = ⟨["", "Shenzi", ""], [], [], []⟩
    ∧ runNames (fun _ => 0) (readNamesFromFile ⟨[], [], [], []⟩ ["Hyena Names:", "\r"])
        ["4 year old female hyena, born in spring, tan color, 70 pounds, from Kenya"]
        .Hyena = [""] := by
  decide

end Zoo

namespace Zoo

/-! ## Construction-time birth date and identifiers -/

/-- C13 (the code at the failing input): in March (`tm_mon` = 2) of 2026 a five-year-old born in
spring gets the year 2020, although March does not precede the canonical month 3 and the
specification gives 2021; the same happens in December for winter.  In February and in April the
code and the specification agree.  The month printed is the canonical month. -/
theorem C13_birth_year_in_canonical_month :
    genBirthDay 126 2 15 ⟨.Lion, "2001", "Simba", 5, "spring", "golden", "male", 420, "Kenya"⟩
      = "2020-3-16"
    ∧ claimedBirthYear 2026 3 5 "spring" = 2021
    ∧ genBirthDay 126 11 15 ⟨.Lion, "2001", "Simba", 5, "winter", "golden", "male", 420, "Kenya"⟩
      = "2020-12-16"
    ∧ claimedBirthYear 2026 12 5 "winter" = 2021
    ∧ genBirthDay 126 1 15 ⟨.Lion, "2001", "Simba", 5, "spring", "golden", "male", 420, "Kenya"⟩
      = "2020-3-16"
    ∧ claimedBirthYear 2026 2 5 "spring" = 2020
    ∧ genBirthDay 126 3 15 ⟨.Lion, "2001", "Simba", 5, "spring", "golden", "male", 420, "Kenya"⟩
      = "2021-3-16"
    ∧ claimedBirthYear 2026 4 5 "spring" = 2021 := by
  decide

/-- C14: for every value r of the day distribution (1 to 31) the day returned is between 1 and
30 for spring and fall, between 1 and 31 for summer and winter, and is 1 for any other season. -/
theorem C14_day_in_range (season : String) (r : Int) (h1 : 1 ≤ r) (h31 : r ≤ 31) :
    ((season = "spring" ∨ season = "fall") →
      1 ≤ getRandomDayInSeason season r ∧ getRandomDayInSeason season r ≤ 30)
    ∧ ((season = "summer" ∨ season = "winter") →
      1 ≤ getRandomDayInSeason season r ∧ getRandomDayInSeason season r ≤ 31)
    ∧ (season ≠ "spring" → season ≠ "summer" → season ≠ "fall" → season ≠ "winter" →
      getRandomDayInSeason season r = 1) := by
  have h30 : Int.tmod r 30 = r % 30 := Int.tmod_eq_emod (by omega) (by omega)
  have h31' : Int.tmod r 31 = r % 31 := Int.tmod_eq_emod (by omega) (by omega)
  refine ⟨?_, ?_, ?_⟩
  · rintro (rfl | rfl)
    · have : getRandomDayInSeason "spring" r = Int.tmod r 30 + 1 := rfl
      rw [this, h30]; omega
    · have : getRandomDayInSeason "fall" r = Int.tmod r 30 + 1 := rfl
      rw [this, h30]; omega
  · rintro (rfl | rfl)
    · have : getRandomDayInSeason "summer" r = Int.tmod r 31 + 1 := rfl
      rw [this, h31']; omega
    · have : getRandomDayInSeason "winter" r = Int.tmod r 31 + 1 := rfl
      rw [this, h31']; omega
  · intro a b c d
    simp [getRandomDayInSeason, a, b, c, d]

/-- Witness of C14: the draw 31 in spring gives day 2. -/
theorem C14_day_in_range_witness :
    1 ≤ getRandomDayInSeason "spring" 31 ∧ getRandomDayInSeason "spring" 31 ≤ 30 :=
  (C14_day_in_range "spring" 31 (by decide) (by decide)).1 (Or.inl rfl)

/-- C18 (amended): for summer and winter each day 1 to 31 is the result for exactly one value of
the draw range 1 to 31; for spring and fall each day 1 to 30 is a result, day 2 for two values
(1 and 31) and every other day for exactly one, so there the day is not uniform. -/
theorem C18_day_counts :
    (∀ d ∈ dayDraws, dayCount "summer" d = 1 ∧ dayCount "winter" d = 1)
    ∧ (∀ d ∈ dayDraws, d ≤ 30 → d ≠ 2 → dayCount "spring" d = 1 ∧ dayCount "fall" d = 1)
    ∧ dayCount "spring" 2 = 2 ∧ dayCount "fall" 2 = 2
    ∧ dayCount "spring" 31 = 0 ∧ dayCount "fall" 31 = 0 := by
  decide

/-- Witness of C18: day 17 in summer and in spring. -/
theorem C18_day_counts_witness :
    (dayCount "summer" 17 = 1 ∧ dayCount "winter" 17 = 1)
    ∧ (dayCount "spring" 17 = 1 ∧ dayCount "fall" 17 = 1) :=
  ⟨C18_day_counts.1 17 (by decide), C18_day_counts.2.1 17 (by decide) (by decide) (by decide)⟩

/-- Counterexample to C18 as stated: in spring day 2 is the result for two values of the draw
range (1 and 31) and day 1 for one value only (30). -/
theorem C18_counterexample :
    dayCount "spring" 2 = 2 ∧ dayCount "spring" 1 = 1
    ∧ getRandomDayInSeason "spring" 1 = 2 ∧ getRandomDayInSeason "spring" 31 = 2
    ∧ getRandomDayInSeason "spring" 30 = 1 := by
  decide

end Zoo

namespace Zoo

/-! ## Construction-time identifiers -/

/-- Constructing `n` hyenas first only advances the hyena counter by `n`. -/
theorem drop_constructAll_hyenas : ∀ (n : Nat) (h l t b : Int) (rest : List Kind),
    0 ≤ h → h + n < 2147482648 →
    (constructAll ⟨h, l, t, b⟩ (List.replicate n Kind.Hyena ++ rest)).drop n
      = constructAll ⟨h + n, l, t, b⟩ rest
  | 0, h, l, t, b, rest, _, _ => by simp
  | n + 1, h, l, t, b, rest, h0, hn => by
    have hw : wrapInt (h + 1) = h + 1 := wrapInt_of_range (by omega) (by omega)
    have hc : (Animal.construct ⟨h, l, t, b⟩ Kind.Hyena "" 0 "" "" "" 0 "").2 = ⟨h + 1, l, t, b⟩ := by
      show (⟨wrapInt (h + 1), l, t, b⟩ : Counters) = _
      rw [hw]
    rw [List.replicate_succ, List.cons_append, constructAll, List.drop_succ_cons, hc,
      drop_constructAll_hyenas n (h + 1) l t b rest (by omega) (by push_cast at hn ⊢; omega)]
    congr 2
    push_cast
    ring

/-- C15 (the code at the failing input): after 1001 hyenas have been constructed, the first lion
receives the identifier 2001, which the 1001st hyena already has (1000 + 1001 = 2000 + 1). -/
theorem C15_ids_collide_across_species :
    ((constructAll Counters.init (List.replicate 1001 Kind.Hyena ++ [Kind.Lion])).drop 1000).map
        (fun a => (a.kind, a.id))
      = [(Kind.Hyena, "2001"), (Kind.Lion, "2001")] := by
  have hsplit : List.replicate 1001 Kind.Hyena ++ [Kind.Lion]
      = List.replicate 1000 Kind.Hyena ++ [Kind.Hyena, Kind.Lion] := by
    show List.replicate (1000 + 1) Kind.Hyena ++ [Kind.Lion] = _
    rw [List.replicate_succ', List.append_assoc]
    rfl
  have hdrop := drop_constructAll_hyenas 1000 0 0 0 0 [Kind.Hyena, Kind.Lion] (le_refl 0)
    (by norm_num)
  rw [hsplit]
  show List.map (fun a => (a.kind, a.id))
    ((constructAll ⟨0, 0, 0, 0⟩ (List.replicate 1000 Kind.Hyena ++ [Kind.Hyena, Kind.Lion])).drop
      1000) = _
  rw [hdrop]
  decide

end Zoo

namespace Zoo

/-! ## The name draw, distinct names, the data model of the records -/

/-- C17: when the initial pool of a species holds pairwise distinct names, then whatever the
lines and the draws, the names other than "Unnamed" given to the records of that species are
pairwise distinct, each is an element of the initial pool, and none of them is in the pool of the
species when `readAnimalsFromFile` is left. -/
theorem C17_drawn_names_distinct (rng : Nat → Nat) (pools : NamePools) (lines : List String)
    (k : Kind) (hnd : (k.pool.get pools).Nodup) :
    ((runNames rng pools lines k).filter (fun x => decide (x ≠ "Unnamed"))).Nodup
    ∧ (∀ x ∈ (runNames rng pools lines k).filter (fun x => decide (x ≠ "Unnamed")),
        x ∈ k.pool.get pools)
    ∧ (∀ x ∈ (runNames rng pools lines k).filter (fun x => decide (x ≠ "Unnamed")),
        x ∉ k.pool.get
          (finalState (readAnimalsFromFile rng (RunState.start pools) lines)).pools) := by
  obtain ⟨drawn, u, left, hn, hperm, hleft⟩ := finalState_names rng pools lines k
  have hnd' : (drawn ++ left).Nodup := hperm.nodup_iff.2 hnd
  have hfilter : (runNames rng pools lines k).filter (fun x => decide (x ≠ "Unnamed"))
      = drawn.filter (fun x => decide (x ≠ "Unnamed")) := by
    rw [hn, List.filter_append, List.filter_replicate]
    simp
  rw [hfilter]
  have hsub : ∀ x ∈ drawn.filter (fun x => decide (x ≠ "Unnamed")), x ∈ drawn :=
    fun x hx => (List.mem_filter.1 hx).1
  refine ⟨(List.Nodup.of_append_left hnd').filter _, ?_, ?_⟩
  · intro x hx
    exact hperm.subset (List.mem_append_left _ (hsub x hx))
  · intro x hx hxp
    exact (List.disjoint_of_nodup_append hnd') (hsub x hx) (hleft x hxp)

/-- Witness of C17: three lions, a pool of two distinct names. -/
theorem C17_drawn_names_distinct_witness :
    ((runNames (fun n => n) ⟨[], ["Simba", "Nala"], [], []⟩
        ["5 year old male lion, born in summer, golden color, 420 pounds, from Kenya",
         "3 year old female lion, born in spring, tan color, 300 pounds, from Zambia",
         "9 year old male lion, born in fall, dark brown color, 410 pounds, from Chad"]
        Kind.Lion).filter (fun x => decide (x ≠ "Unnamed"))).Nodup :=
  (C17_drawn_names_distinct (fun n => n) ⟨[], ["Simba", "Nala"], [], []⟩
    ["5 year old male lion, born in summer, golden color, 420 pounds, from Kenya",
     "3 year old female lion, born in spring, tan color, 300 pounds, from Zambia",
     "9 year old male lion, born in fall, dark brown color, 410 pounds, from Chad"]
    Kind.Lion (by decide)).1

/-- C19: every record `readAnimalsFromFile` appends, for every input (and whether it returns or
throws), satisfies the data model: its species is one of Hyena, Lion, Tiger, Bear, its birth
season one of spring, summer, fall, winter, unknown, its age a non-negative `int`, its weight a
non-negative finite number. -/
theorem C19_records_satisfy_data_model (rng : Nat → Nat) (st : RunState)
    (lines : List String) :
    ∃ appended : List Animal,
      (finalState (readAnimalsFromFile rng st lines)).animals = st.animals ++ appended
      ∧ ∀ a ∈ appended,
          a.getSpecies ∈ ["Hyena", "Lion", "Tiger", "Bear"]
          ∧ a.birthSeason ∈ ["spring", "summer", "fall", "winter", "unknown"]
          ∧ 0 ≤ a.age ∧ a.age ≤ 2147483647
          ∧ 0 ≤ a.weight ∧ a.weight < DBL_OVERFLOW := by
  cases hr : readAnimalsFromFile rng st lines with
  | ok st1 => exact run_ok_dataModel lines st st1 hr
  | error e =>
    obtain ⟨e, stE⟩ := e
    obtain ⟨pre, line, post, st1, _, hpre, _, ha⟩ := run_error lines st stE e hr
    obtain ⟨app, happ, hwf⟩ := run_ok_dataModel pre st st1 hpre
    exact ⟨app, by simp only [finalState, ha, happ], hwf⟩

/-- Witness of C19: the record of a bear line. -/
theorem C19_records_satisfy_data_model_witness :
    ∃ appended : List Animal,
      (finalState (readAnimalsFromFile (fun _ => 0) (RunState.start ⟨[], [], ["Baloo"], []⟩)
        ["7 year old female bear, born in unknown, brown color, 600 pounds, from Alaska"])).animals
        = (RunState.start ⟨[], [], ["Baloo"], []⟩).animals ++ appended
      ∧ ∀ a ∈ appended,
          a.getSpecies ∈ ["Hyena", "Lion", "Tiger", "Bear"]
          ∧ a.birthSeason ∈ ["spring", "summer", "fall", "winter", "unknown"]
          ∧ 0 ≤ a.age ∧ a.age ≤ 2147483647
          ∧ 0 ≤ a.weight ∧ a.weight < DBL_OVERFLOW :=
  C19_records_satisfy_data_model (fun _ => 0) (RunState.start ⟨[], [], ["Baloo"], []⟩)
    ["7 year old female bear, born in unknown, brown color, 600 pounds, from Alaska"]

end Zoo
